import Mathlib

/-!
# osrsapi: tolerant decoding layer

A shallow embedding of `client.go` (package `osrsapi`) together with the parts of the Go
standard library its decoders call (`strconv`, `strings`, `encoding/csv`, `encoding/json`).

* Go `string`/`[]byte` payloads are sequences of Unicode code points (`Text`).
* Go `int` is the 64-bit platform integer; values are `Int` with explicit range checks.
* A run-time panic (index out of range) is an explicit outcome, distinct from a returned error.
-/

namespace Osrsapi

/-- Go strings that are scanned by the decoders, as sequences of code points. -/
abbrev Text := List Char

/-- Results of fallible library calls can be compared. -/
instance {ε α : Type} [DecidableEq ε] [DecidableEq α] : DecidableEq (Except ε α)
  | .ok a, .ok b =>
    if h : a = b then isTrue (by rw [h]) else isFalse (fun h2 => h (by cases h2; rfl))
  | .error a, .error b =>
    if h : a = b then isTrue (by rw [h]) else isFalse (fun h2 => h (by cases h2; rfl))
  | .ok _, .error _ => isFalse (fun h => by cases h)
  | .error _, .ok _ => isFalse (fun h => by cases h)

/-! ## strconv: integers -/

/-- The two error kinds of `strconv.NumError` (`ErrSyntax`, `ErrRange`). -/
inductive NumError where
  | errSyntax
  | errRange
deriving DecidableEq, Repr

/-- Largest `uint64`. -/
def maxUint64 : Nat := 2 ^ 64 - 1

/-- Smallest and largest 64-bit `int`. -/
def minInt64 : Int := -(2 ^ 63)

def maxInt64 : Int := 2 ^ 63 - 1

/-- An integer representable in the platform `int`. -/
def IsInt64 (n : Int) : Prop := minInt64 ≤ n ∧ n ≤ maxInt64

instance (n : Int) : Decidable (IsInt64 n) := by unfold IsInt64; infer_instance

/-- ASCII decimal digit test (`'0' <= c && c <= '9'`). -/
def isDigit (c : Char) : Bool := decide (48 ≤ c.toNat) && decide (c.toNat ≤ 57)

/-- Value of a decimal digit (`c - '0'`). -/
def digitVal (c : Char) : Nat := c.toNat - 48

/-- The digit loop of `strconv.ParseUint(s, 10, 64)`: any non-digit is a syntax error, and
an overflow of `uint64` is reported as soon as it happens. -/
def parseUintLoop : Text → Nat → Except NumError Nat
  | [], n => .ok n
  | c :: cs, n =>
    if isDigit c = false then .error .errSyntax
    else if n ≥ maxUint64 / 10 + 1 then .error .errRange
    else if n * 10 + digitVal c > maxUint64 then .error .errRange
    else parseUintLoop cs (n * 10 + digitVal c)

/-- Model of `strconv.ParseUint(s, 10, 64)`. -/
def ParseUint (s : Text) : Except NumError Nat :=
  match s with
  | [] => .error .errSyntax
  | _ => parseUintLoop s 0

/-- Signed part of `strconv.ParseInt(s, 10, 64)` once the sign has been removed. -/
def parseIntSigned (neg : Bool) (s : Text) : Except NumError Int :=
  match ParseUint s with
  | .error e => .error e
  | .ok un =>
    if neg = false ∧ un ≥ 2 ^ 63 then .error .errRange
    else if neg = true ∧ un > 2 ^ 63 then .error .errRange
    else .ok (if neg then -(un : Int) else (un : Int))

/-- Model of `strconv.ParseInt(s, 10, 64)`: optional sign, decimal digits, 64-bit range. -/
def ParseInt (s : Text) : Except NumError Int :=
  match s with
  | [] => .error .errSyntax
  | c :: cs =>
    if c = '+' then parseIntSigned false cs
    else if c = '-' then parseIntSigned true cs
    else parseIntSigned false (c :: cs)

/-- Model of `strconv.Atoi`: on a 64-bit platform it is `ParseInt(s, 10, 0)`; the fast path
for short inputs computes the same value and fails on the same inputs. -/
def Atoi (s : Text) : Except NumError Int := ParseInt s

/-! ## encoding/csv -/

/-- Errors of `csv.Reader.Read` (`ErrBareQuote`, `ErrQuote`, `ErrFieldCount`). -/
inductive CsvError where
  | errBareQuote
  | errQuote
  | errFieldCount
deriving DecidableEq, Repr

/-- Line normalisation of `csv.Reader.readLine` applied to the whole input: every `\r\n` is
read as `\n`, and a `\r` that ends the input is dropped. -/
def normalizeNewlines : Text → Text
  | [] => []
  | [c] => if c = '\r' then [] else [c]
  | c :: d :: rest =>
    if c = '\r' ∧ d = '\n' then '\n' :: normalizeNewlines rest
    else c :: normalizeNewlines (d :: rest)

/-- The unread input of a `csv.Reader` (after line normalisation). -/
structure Reader where
  input : Text
deriving DecidableEq, Repr

/-- Model of `csv.NewReader(strings.NewReader(s))`. -/
def NewReader (data : Text) : Reader := ⟨normalizeNewlines data⟩

/-- After a parse error the rest of the current line is discarded. -/
def dropLine : Text → Text
  | [] => []
  | c :: cs => if c = '\n' then cs else dropLine cs

/-- Scanner position inside a record. -/
inductive ScanMode where
  | fieldStart
  | unquoted
  | quoted
  | afterQuote
deriving DecidableEq, Repr

/-- The field loop of `csv.Reader.readRecord` (`LazyQuotes = false`, `Comma = ','`), one
character at a time. `buf` is the field being read, `fields` the fields already complete.
Returns the record or the parse error, and the input left after the record. -/
def scanRecord : ScanMode → Text → Text → List Text → Except CsvError (List Text) × Text
  | .fieldStart, [], buf, fields => (.ok (fields ++ [buf]), [])
  | .fieldStart, c :: cs, buf, fields =>
    if c = '"' then scanRecord .quoted cs buf fields
    else if c = ',' then scanRecord .fieldStart cs [] (fields ++ [buf])
    else if c = '\n' then (.ok (fields ++ [buf]), cs)
    else scanRecord .unquoted cs (buf ++ [c]) fields
  | .unquoted, [], buf, fields => (.ok (fields ++ [buf]), [])
  | .unquoted, c :: cs, buf, fields =>
    if c = '"' then (.error .errBareQuote, dropLine cs)
    else if c = ',' then scanRecord .fieldStart cs [] (fields ++ [buf])
    else if c = '\n' then (.ok (fields ++ [buf]), cs)
    else scanRecord .unquoted cs (buf ++ [c]) fields
  | .quoted, [], _, _ => (.error .errQuote, [])
  | .quoted, c :: cs, buf, fields =>
    if c = '"' then scanRecord .afterQuote cs buf fields
    else scanRecord .quoted cs (buf ++ [c]) fields
  | .afterQuote, [], buf, fields => (.ok (fields ++ [buf]), [])
  | .afterQuote, c :: cs, buf, fields =>
    if c = '"' then scanRecord .quoted cs (buf ++ [c]) fields
    else if c = ',' then scanRecord .fieldStart cs [] (fields ++ [buf])
    else if c = '\n' then (.ok (fields ++ [buf]), cs)
    else (.error .errQuote, dropLine cs)

/-- Empty lines before a record are skipped. -/
def skipEmptyLines : Text → Text
  | [] => []
  | c :: cs => if c = '\n' then skipEmptyLines cs else c :: cs

/-- What one call of `csv.Reader.Read` returns. -/
inductive ReadResult where
  | eof
  | record (fields : List Text)
  | error (e : CsvError)
deriving DecidableEq, Repr

/-- Model of `csv.Reader.Read` with `FieldsPerRecord = n` (`n > 0`): skip empty lines, report
`io.EOF` at the end of the input, read one record, and check its field count. -/
def Reader.Read (r : Reader) (fieldsPerRecord : Nat) : ReadResult × Reader :=
  match skipEmptyLines r.input with
  | [] => (.eof, ⟨[]⟩)
  | c :: cs =>
    match scanRecord .fieldStart (c :: cs) [] [] with
    | (.error e, rest) => (.error e, ⟨rest⟩)
    | (.ok fields, rest) =>
      if fields.length ≠ fieldsPerRecord then (.error .errFieldCount, ⟨rest⟩)
      else (.record fields, ⟨rest⟩)

/-! ## Domain records (`client.go`) -/

structure Skill where
  Name : String
  Rank : Int
  Level : Int
  Experience : Int
deriving DecidableEq, Repr

structure Activity where
  Name : String
  Rank : Int
  Score : Int
deriving DecidableEq, Repr

structure PlayerStats where
  Skills : List Skill
  Activities : List Activity
deriving DecidableEq, Repr

/-- The `GameMode` constants. -/
def ModeRegular : String := ""

def ModeIronman : String := "_ironman"

def ModeHardcoreIronman : String := "_hardcore_ironman"

def ModeUltimateIronman : String := "_ultimate"

def ModeDeadman : String := "_deadman"

def ModeSeasonal : String := "_seasonal"

def ModeTournament : String := "_tournament"

def ModeFreshStart : String := "_fresh_start"

/-- The `ResponseFormat` constants. -/
def FormatCSV : String := "csv"

def FormatJSON : String := "json"

/-- Go slice indexing `xs[i]`: `none` stands for the run-time panic "index out of range". -/
def index {α : Type} (xs : List α) (i : Int) : Option α :=
  if i < 0 then none else xs.get? i.toNat

/-- The slice literal of `getSkillName`. -/
def skills : List String :=
  ["Overall", "Attack", "Defence", "Strength", "Hitpoints", "Ranged", "Prayer", "Magic",
   "Cooking", "Woodcutting", "Fletching", "Fishing", "Firemaking", "Crafting", "Smithing",
   "Mining", "Herblore", "Agility", "Thieving", "Slayer", "Farming", "Runecrafting",
   "Hunter", "Construction"]

/-- Model of `getSkillName`: `skills[index]`, `none` when the index expression panics. -/
def getSkillName (i : Int) : Option String := index skills i

/-- The slice literal of `getActivityName`. -/
def activities : List String :=
  ["League Points", "Deadman Points", "Bounty Hunter - Hunter", "Bounty Hunter - Rogue",
   "Bounty Hunter (Legacy) - Hunter", "Bounty Hunter (Legacy) - Rogue", "Clue Scrolls (all)",
   "Clue Scrolls (beginner)", "Clue Scrolls (easy)", "Clue Scrolls (medium)", "Clue Scrolls (hard)",
   "Clue Scrolls (elite)", "Clue Scrolls (master)", "LMS - Rank", "PvP Arena - Rank", "Soul Wars Zeal",
   "Rifts closed", "Colosseum Glory", "Abyssal Sire", "Alchemical Hydra", "Artio", "Barrows Chests",
   "Bryophyta", "Callisto", "Cal'varion", "Cerberus", "Chambers of Xeric",
   "Chambers of Xeric: Challenge Mode", "Chaos Elemental", "Chaos Fanatic", "Commander Zilyana",
   "Corporeal Beast", "Crazy Archaeologist", "Dagannoth Prime", "Dagannoth Rex", "Dagannoth Supreme",
   "Deranged Archaeologist", "Duke Sucellus", "General Graardor", "Giant Mole", "Grotesque Guardians",
   "Hespori", "Kalphite Queen", "King Black Dragon", "Kraken", "Kree'Arra", "K'ril Tsutsaroth",
   "Lunar Chests", "Mimic", "Nex", "Nightmare", "Phosani's Nightmare", "Obor", "Phantom Muspah",
   "Sarachnis", "Scorpia", "Scurrius", "Skotizo", "Sol Heredit", "Spindel", "Tempoross",
   "The Gauntlet", "The Corrupted Gauntlet", "The Leviathan", "The Whisperer", "Theatre of Blood",
   "Theatre of Blood: Hard Mode", "Thermonuclear Smoke Devil", "Tombs of Amascut",
   "Tombs of Amascut: Expert Mode", "TzKal-Zuk", "TzTok-Jad", "Vardorvis", "Venenatis", "Vet'ion",
   "Vorkath", "Wintertodt", "Zalcano", "Zulrah"]

/-- Model of `getActivityName`: `activities[index]`, `none` when the index expression panics. -/
def getActivityName (i : Int) : Option String := index activities i

/-! ## Transport (`sendRequest`) -/

/-- What `http.Client.Do` hands back: the status code and the outcome of reading the body. -/
structure Response where
  StatusCode : Int
  Body : Except String Text

/-- The external collaborators of a `Client`: request construction and the HTTP round trip
(keyed by URL), and `json.Unmarshal` into `PlayerStats`. Error values are their messages. -/
structure World where
  newRequest : String → Except String Unit
  roundTrip : String → Except String Response
  unmarshalStats : Text → Except String PlayerStats

/-- Errors built by `sendRequest`. -/
inductive TransportError where
  | creatingRequest (cause : String)
  | sendingRequest (cause : String)
  | unexpectedStatus (code : Int)
  | readingBody (cause : String)
deriving DecidableEq, Repr

/-- Errors returned by `Hiscores`, one constructor per `fmt.Errorf` site. -/
inductive HiscoresError where
  | usernameRequired
  | sendingRequest (cause : TransportError)
  | decodingJSON (cause : String)
  | readingCSV (cause : CsvError)
  | convertingRank (cause : NumError)
  | convertingLevelOrScore (cause : NumError)
  | convertingExperience (cause : NumError)
  | invalidFormat (format : String)
deriving DecidableEq, Repr

structure Client where
  baseURL : String
  world : World

/-- Model of `Client.sendRequest`. -/
def Client.sendRequest (c : Client) (path : String) : Except TransportError Text :=
  let url := c.baseURL ++ "/" ++ path
  match c.world.newRequest url with
  | .error e => .error (.creatingRequest e)
  | .ok _ =>
    match c.world.roundTrip url with
    | .error e => .error (.sendingRequest e)
    | .ok resp =>
      if resp.StatusCode ≠ 200 then .error (.unexpectedStatus resp.StatusCode)
      else
        match resp.Body with
        | .error e => .error (.readingBody e)
        | .ok body => .ok body

/-! ## `Client.Hiscores` -/

/-- How a call ends: it returns the pair `(*PlayerStats, error)`, or it panics. `outOfFuel`
is never produced by `Hiscores` (`hiscoresLoop_fuel`). -/
inductive Ret where
  | returned (stats : Option PlayerStats) (err : Option HiscoresError)
  | panicked
  | outOfFuel
deriving DecidableEq, Repr

/-- The `for` loop of the CSV branch. State: the reader, `stats`, `lineCount`. -/
def hiscoresLoop : Nat → Reader → PlayerStats → Int → Ret
  | 0, _, _, _ => .outOfFuel
  | fuel + 1, reader, stats, lineCount =>
    match reader.Read 3 with
    | (.eof, _) => .returned (some stats) none
    | (.error e, _) => .returned none (some (.readingCSV e))
    | (.record record, reader1) =>
      match index record 0, index record 1, index record 2 with
      | some f0, some f1, some f2 =>
        match Atoi f0 with
        | .error e => .returned none (some (.convertingRank e))
        | .ok rank =>
          match Atoi f1 with
          | .error e => .returned none (some (.convertingLevelOrScore e))
          | .ok levelOrScore =>
            match Atoi f2 with
            | .error e => .returned none (some (.convertingExperience e))
            | .ok expOrEmpty =>
              if lineCount < 24 then
                match getSkillName lineCount with
                | none => .panicked
                | some name =>
                  hiscoresLoop fuel reader1
                    { stats with Skills := stats.Skills ++
                        [{ Name := name, Rank := rank, Level := levelOrScore,
                           Experience := expOrEmpty }] }
                    (lineCount + 1)
              else
                match getActivityName (lineCount - 24) with
                | none => .panicked
                | some name =>
                  hiscoresLoop fuel reader1
                    { stats with Activities := stats.Activities ++
                        [{ Name := name, Rank := rank, Score := levelOrScore }] }
                    (lineCount + 1)
      | _, _, _ => .panicked

/-- The CSV branch of `Hiscores` applied to the payload `data`. -/
def decodeCSV (data : Text) : Ret :=
  let reader := NewReader data
  hiscoresLoop (reader.input.length + 1) reader ⟨[], []⟩ 0

/-- A call of `Hiscores`: how it ended, the paths it handed to `sendRequest`, and the
payloads it handed to a decoder (`json.Unmarshal` or the CSV reader), in order. -/
structure HiscoresRun where
  ret : Ret
  requests : List String
  decoded : List Text

/-- Model of `Client.Hiscores`. -/
def Client.Hiscores (c : Client) (username mode format : String) : HiscoresRun :=
  if username = "" then ⟨.returned none (some .usernameRequired), [], []⟩
  else
    let mode := if mode = "" then ModeRegular else mode
    let format := if format = "" then FormatJSON else format
    let path :=
      if format = FormatJSON then "m=hiscore_oldschool" ++ mode ++ "/index_lite.json?player=" ++ username
      else "m=hiscore_oldschool" ++ mode ++ "/index_lite.ws?player=" ++ username
    match c.sendRequest path with
    | .error e => ⟨.returned none (some (.sendingRequest e)), [path], []⟩
    | .ok data =>
      if format = FormatJSON then
        match c.world.unmarshalStats data with
        | .error e => ⟨.returned none (some (.decodingJSON e)), [path], [data]⟩
        | .ok stats => ⟨.returned (some stats) none, [path], [data]⟩
      else if format = FormatCSV then ⟨decodeCSV data, [path], [data]⟩
      else ⟨.returned none (some (.invalidFormat format)), [path], []⟩

/-! ## strconv: floating point

`float64` values are represented exactly. A finite value is `(-1)^neg * mant * 2^exp` in
canonical form: `mant < 2^53`, `-1074 ≤ exp ≤ 971`, and `2^52 ≤ mant` unless `exp = -1074`
(subnormals and zero). -/

inductive Float64 where
  | finite (neg : Bool) (mant : Nat) (exp : Int)
  | inf (neg : Bool)
  | nan
deriving DecidableEq, Repr

/-- The quotient `num / den` rounded to the nearest integer, ties to even. -/
def roundHalfEven (num den : Nat) : Nat :=
  if 2 * (num % den) < den then num / den
  else if den < 2 * (num % den) then num / den + 1
  else if (num / den) % 2 = 0 then num / den
  else num / den + 1

/-- The quotient `(num / den) / 2^e` rounded to the nearest integer, ties to even. -/
def scaleRound (num den : Nat) (e : Int) : Nat :=
  if 0 ≤ e then roundHalfEven num (den * 2 ^ e.toNat)
  else roundHalfEven (num * 2 ^ (-e).toNat) den

/-- Whether `2^k ≤ num / den`. -/
def pow2Le (k : Int) (num den : Nat) : Bool :=
  if 0 ≤ k then decide (den * 2 ^ k.toNat ≤ num) else decide (den ≤ num * 2 ^ (-k).toNat)

/-- Binary logarithm, rounded down (`0` at `0`): `log2Loop n n` with `n` as recursion bound. -/
def log2Loop : Nat → Nat → Nat
  | 0, _ => 0
  | fuel + 1, n => if n < 2 then 0 else log2Loop fuel (n / 2) + 1

def log2 (n : Nat) : Nat := log2Loop n n

/-- The exponent of the binary64 unit in the last place at `num / den` (`num, den > 0`):
the `e ≥ -1074` with `2^52 ≤ (num / den) / 2^e < 2^53` when there is one, else `-1074`. -/
def ulpExponent (num den : Nat) : Int :=
  let l : Int := (log2 num : Int) - (log2 den : Int)
  let e : Int := if pow2Le l num den then l - 52 else l - 53
  if e < -1074 then -1074 else e

/-- The binary64 value nearest to `(-1)^neg * num / den` (`den > 0`), ties to even;
magnitudes that round to `2^1024` or more give an infinity. -/
def roundToFloat64 (neg : Bool) (num den : Nat) : Float64 :=
  if num = 0 then .finite neg 0 (-1074)
  else
    let e := ulpExponent num den
    let m := scaleRound num den e
    if m = 2 ^ 53 then
      if e + 1 > 971 then .inf neg else .finite neg (2 ^ 52) (e + 1)
    else if e > 971 then .inf neg
    else .finite neg m e

/-- The binary64 value nearest to `(-1)^neg * mant * base^exp`. -/
def roundScaled (neg : Bool) (mant base : Nat) (exp : Int) : Float64 :=
  if 0 ≤ exp then roundToFloat64 neg (mant * base ^ exp.toNat) 1
  else roundToFloat64 neg mant (base ^ (-exp).toNat)

/-- Float multiplication `x * y` (IEEE 754, round to nearest even). -/
def Float64.mul : Float64 → Float64 → Float64
  | .nan, _ => .nan
  | _, .nan => .nan
  | .inf n1, .inf n2 => .inf (n1 != n2)
  | .inf n1, .finite n2 m _ => if m = 0 then .nan else .inf (n1 != n2)
  | .finite n1 m _, .inf n2 => if m = 0 then .nan else .inf (n1 != n2)
  | .finite n1 m1 e1, .finite n2 m2 e2 => roundScaled (n1 != n2) (m1 * m2) 2 (e1 + e2)

/-- The float64 value of a small non-negative integer constant (exact below `2^53`). -/
def Float64.ofNat (n : Nat) : Float64 := roundToFloat64 false n 1

/-- The integer part of a finite value, rounded toward zero. -/
def Float64.truncate : Float64 → Option Int
  | .finite neg m e =>
    let mag : Nat := if 0 ≤ e then m * 2 ^ e.toNat else m / 2 ^ (-e).toNat
    some (if neg then -(mag : Int) else (mag : Int))
  | _ => none

/-- The Go conversion `int(x)` of a `float64` to the 64-bit `int`: the value is truncated
toward zero. When the truncated value is not representable (or `x` is an infinity or NaN)
the language leaves the result implementation-dependent; the amd64 result is modelled. -/
def Float64.toInt (x : Float64) : Int :=
  match x.truncate with
  | some n => if minInt64 ≤ n ∧ n ≤ maxInt64 then n else minInt64
  | none => minInt64

/-- The exact value of a finite float as a rational number. -/
def Float64.toRat : Float64 → Option ℚ
  | .finite neg m e => some ((if neg then -1 else 1) * (m : ℚ) * (2 : ℚ) ^ e)
  | _ => none

/-- ASCII lower-casing of one byte as in `strconv` (`c | 0x20`), on letters. -/
def lowerASCII (c : Char) : Char :=
  if 65 ≤ c.toNat ∧ c.toNat ≤ 90 then Char.ofNat (c.toNat + 32) else c

/-- Length of the common prefix of `s` and the lower-case `pat`, ignoring ASCII case
(`commonPrefixLenIgnoreCase`). -/
def commonPrefixLenIgnoreCase : Text → Text → Nat
  | c :: cs, p :: ps => if lowerASCII c = p then commonPrefixLenIgnoreCase cs ps + 1 else 0
  | _, _ => 0

/-- The `'i', 'I'` case of `strconv.special`: an infinity of the given sign. -/
def specialInf (neg : Bool) (nsign : Nat) (s : Text) : Option (Float64 × Nat) :=
  let n := commonPrefixLenIgnoreCase s "infinity".toList
  let n := if 3 < n ∧ n < 8 then 3 else n
  if n = 3 ∨ n = 8 then some (.inf neg, nsign + n) else none

/-- Model of `strconv.special`: the value and the number of characters consumed. -/
def special (s : Text) : Option (Float64 × Nat) :=
  match s with
  | [] => none
  | c :: cs =>
    if c = '+' then specialInf false 1 cs
    else if c = '-' then specialInf true 1 cs
    else if c = 'i' ∨ c = 'I' then specialInf false 0 (c :: cs)
    else if c = 'n' ∨ c = 'N' then
      if commonPrefixLenIgnoreCase (c :: cs) "nan".toList = 3 then some (.nan, 3) else none
    else none

/-- Hexadecimal letter digit (`'a' <= lower(c) && lower(c) <= 'f'`). -/
def isHexLetter (c : Char) : Bool :=
  (decide (97 ≤ c.toNat) && decide (c.toNat ≤ 102)) || (decide (65 ≤ c.toNat) && decide (c.toNat ≤ 70))

/-- Value of a hexadecimal letter digit (`lower(c) - 'a' + 10`). -/
def hexLetterVal (c : Char) : Nat := (lowerASCII c).toNat - 97 + 10

/-- State of the mantissa loop of `strconv.readFloat`. All digits are kept: where Go keeps
19 digits and a truncation flag, its result is still the correctly rounded value of the
whole mantissa. `fracDigits` counts the digits after the point. -/
structure Mantissa where
  mant : Nat
  fracDigits : Nat
  sawdot : Bool
  sawdigits : Bool
  underscores : Bool
deriving DecidableEq, Repr

/-- The mantissa loop of `strconv.readFloat`; returns the state and the unread input. -/
def readMantissa (hex : Bool) : Text → Mantissa → Mantissa × Text
  | [], st => (st, [])
  | c :: cs, st =>
    if c = '_' then readMantissa hex cs { st with underscores := true }
    else if c = '.' then
      if st.sawdot then (st, c :: cs) else readMantissa hex cs { st with sawdot := true }
    else if isDigit c then
      readMantissa hex cs
        { st with sawdigits := true,
                  mant := st.mant * (if hex then 16 else 10) + digitVal c,
                  fracDigits := if st.sawdot then st.fracDigits + 1 else st.fracDigits }
    else if hex && isHexLetter c then
      readMantissa hex cs
        { st with sawdigits := true,
                  mant := st.mant * 16 + hexLetterVal c,
                  fracDigits := if st.sawdot then st.fracDigits + 1 else st.fracDigits }
    else (st, c :: cs)

/-- The exponent digit loop of `strconv.readFloat` (the exponent saturates past 10000). -/
def readExponentDigits : Text → Nat → Bool → Nat × Bool × Text
  | [], e, u => (e, u, [])
  | c :: cs, e, u =>
    if c = '_' then readExponentDigits cs e true
    else if isDigit c then
      readExponentDigits cs (if e < 10000 then e * 10 + digitVal c else e) u
    else (e, u, c :: cs)

/-- The optional exponent of `strconv.readFloat`, after the exponent character: the signed
exponent, the underscore flag and the unread input; `none` when no digit follows. -/
def readExponent (s : Text) (underscores : Bool) : Option (Int × Bool × Text) :=
  let signed : Bool × Text :=
    match s with
    | c :: cs => if c = '+' then (false, cs) else if c = '-' then (true, cs) else (false, c :: cs)
    | [] => (false, [])
  match signed.2 with
  | [] => none
  | c :: cs =>
    if isDigit c then
      match readExponentDigits (c :: cs) 0 underscores with
      | (e, u, rest) => some (if signed.1 then -(e : Int) else (e : Int), u, rest)
    else none

/-- What `strconv.readFloat` extracts: the value is `(-1)^neg * mant * base^exp` with base
16-as-2 (`hex`) or 10. -/
structure FloatLit where
  neg : Bool
  hex : Bool
  mant : Nat
  exp : Int
  underscores : Bool
  rest : Text
deriving DecidableEq, Repr

/-- The base prefix test of `strconv.readFloat`: `0x` or `0X` followed by something. -/
def hasHexMark : Text → Bool
  | c0 :: c1 :: _ :: _ => decide (c0 = '0') && (decide (c1 = 'x') || decide (c1 = 'X'))
  | _ => false

/-- Mantissa and exponent of `strconv.readFloat`, after the sign. -/
def readFloatBody (neg : Bool) (s : Text) : Option FloatLit :=
  let hex : Bool := hasHexMark s
  let body := if hex then s.drop 2 else s
  match readMantissa hex body ⟨0, 0, false, false, false⟩ with
  | (st, rest) =>
    if st.sawdigits = false then none
    else
      let dp : Int := if hex then -(4 * (st.fracDigits : Int)) else -(st.fracDigits : Int)
      match rest with
      | c :: cs =>
        if (hex = false ∧ (c = 'e' ∨ c = 'E')) ∨ (hex = true ∧ (c = 'p' ∨ c = 'P')) then
          match readExponent cs st.underscores with
          | none => none
          | some (e, u, rest1) => some ⟨neg, hex, st.mant, dp + e, u, rest1⟩
        else if hex then none
        else some ⟨neg, hex, st.mant, dp, st.underscores, c :: cs⟩
      | [] => if hex then none else some ⟨neg, hex, st.mant, dp, st.underscores, []⟩

/-- Model of `strconv.readFloat` (without the underscore placement check). -/
def readFloat (s : Text) : Option FloatLit :=
  match s with
  | [] => none
  | c :: cs =>
    if c = '+' then readFloatBody false cs
    else if c = '-' then readFloatBody true cs
    else readFloatBody false (c :: cs)

/-- The scan of `strconv.underscoreOK` after the sign and base prefix; `saw` is the class of
the last character: `0` digit or base prefix, `1` underscore, `2` other, `3` start. -/
def underscoreScan (hex : Bool) : Text → Nat → Bool
  | [], saw => saw != 1
  | c :: cs, saw =>
    if isDigit c || (hex && isHexLetter c) then underscoreScan hex cs 0
    else if c = '_' then (if saw != 0 then false else underscoreScan hex cs 1)
    else if saw = 1 then false
    else underscoreScan hex cs 2

/-- Model of `strconv.underscoreOK`: underscores only between digits or after a base prefix. -/
def underscoreOK (s : Text) : Bool :=
  let s1 : Text :=
    match s with
    | c :: cs => if c = '-' ∨ c = '+' then cs else c :: cs
    | [] => []
  match s1 with
  | c0 :: c1 :: cs =>
    if c0 = '0' ∧ (lowerASCII c1 = 'b' ∨ lowerASCII c1 = 'o' ∨ lowerASCII c1 = 'x') then
      underscoreScan (lowerASCII c1 = 'x') cs 0
    else underscoreScan false (c0 :: c1 :: cs) 3
  | rest => underscoreScan false rest 3

/-- Model of `strconv.ParseFloat(s, 64)`: Go float literal syntax (decimal or hexadecimal,
optional underscores), `inf`, `infinity`, `nan`; the result is the nearest binary64 value,
and a value that rounds to an infinity is a range error. -/
def ParseFloat (s : Text) : Except NumError Float64 :=
  match special s with
  | some (v, n) => if n = s.length then .ok v else .error .errSyntax
  | none =>
    match readFloat s with
    | none => .error .errSyntax
    | some lit =>
      if lit.rest ≠ [] then .error .errSyntax
      else if lit.underscores = true ∧ underscoreOK s = false then .error .errSyntax
      else
        match roundScaled lit.neg lit.mant (if lit.hex then 2 else 10) lit.exp with
        | .finite neg m e => .ok (.finite neg m e)
        | _ => .error .errRange

/-! ## strings -/

/-- Model of `strings.ReplaceAll(s, c, "")` for a one-character `c`. -/
def removeAll (c : Char) (s : Text) : Text := s.filter (fun x => x != c)

/-- Model of `unicode.ToLower` as far as the decoders can observe it: ASCII letters, and the
two other code points whose lower case is ASCII (U+0130 and the Kelvin sign U+212A). Every
other code point is outside ASCII and stays outside ASCII; it is left unchanged here. -/
def toLowerRune (c : Char) : Char :=
  if 65 ≤ c.toNat ∧ c.toNat ≤ 90 then Char.ofNat (c.toNat + 32)
  else if c.toNat = 0x130 then 'i'
  else if c.toNat = 0x212A then 'k'
  else c

/-- Model of `strings.ToLower`. -/
def ToLower (s : Text) : Text := s.map toLowerRune

/-- Model of `strings.HasSuffix(s, c)` for a one-character suffix. -/
def HasSuffix (s : Text) (c : Char) : Bool := s.getLast? == some c

/-- Model of `strings.TrimSuffix(s, c)` for a one-character suffix. -/
def TrimSuffix (s : Text) (c : Char) : Text := if HasSuffix s c then s.dropLast else s

/-- Model of `unicode.IsSpace`. -/
def isSpace (c : Char) : Bool :=
  let n := c.toNat
  (decide (9 ≤ n) && decide (n ≤ 13)) || n == 0x20 || n == 0x85 || n == 0xA0 || n == 0x1680 ||
  (decide (0x2000 ≤ n) && decide (n ≤ 0x200A)) || n == 0x2028 || n == 0x2029 || n == 0x202F ||
  n == 0x205F || n == 0x3000

/-- Model of `strings.TrimSpace`. -/
def TrimSpace (s : Text) : Text := ((s.dropWhile isSpace).reverse.dropWhile isSpace).reverse

/-! ## encoding/json -/

/-- A JSON value. A number carries its literal text, a string its decoded content. -/
inductive JSON where
  | null
  | bool (b : Bool)
  | number (literal : Text)
  | string (content : Text)
  | array (items : List JSON)
  | object (members : List (Text × JSON))

/-- The errors of `json.Unmarshal`: `SyntaxError` (the data is not JSON) and
`UnmarshalTypeError` (the JSON value does not fit the Go type). -/
inductive JsonError where
  | syntaxError
  | typeError
deriving DecidableEq, Repr

/-- The exponent part of the JSON number grammar, after `e` or `E`: what is left of the
text, or `none` when a sign is followed by nothing. -/
def numberExponentRest : Text → Option Text
  | [] => some []
  | c :: cs =>
    if c = '+' ∨ c = '-' then (if cs = [] then none else some (cs.dropWhile isDigit))
    else some ((c :: cs).dropWhile isDigit)

/-- The fraction and exponent parts of the JSON number grammar: whether the text left after
the integer digits is an optional `.digits` followed by an optional exponent. -/
def numberTailOK (s : Text) : Bool :=
  let s1 : Text :=
    match s with
    | a :: b :: r => if a = '.' ∧ isDigit b = true then r.dropWhile isDigit else s
    | _ => s
  let s2 : Option Text :=
    match s1 with
    | a :: b :: r => if a = 'e' ∨ a = 'E' then numberExponentRest (b :: r) else some s1
    | _ => some s1
  s2 == some []

/-- The digits of the JSON number grammar, after the optional minus sign. -/
def numberBodyOK : Text → Bool
  | [] => false
  | c :: cs =>
    if c = '0' then numberTailOK cs
    else if 49 ≤ c.toNat ∧ c.toNat ≤ 57 then numberTailOK (cs.dropWhile isDigit)
    else false

/-- The JSON number grammar (`isValidNumber` of `encoding/json`):
`-? (0 | [1-9][0-9]*) (.[0-9]+)? ([eE][+-]?[0-9]+)?`. -/
def isValidNumber (s : Text) : Bool :=
  match s with
  | [] => false
  | c :: cs => if c = '-' then numberBodyOK cs else numberBodyOK (c :: cs)

/-- Model of `json.Unmarshal(data, &v)` for `v` an `int` that holds zero: `null` leaves `v`
unchanged, a number is read with `strconv.ParseInt(lit, 10, 64)`; a number literal outside
the JSON grammar is not JSON at all. -/
def unmarshalInt : JSON → Except JsonError Int
  | .null => .ok 0
  | .number lit =>
    if isValidNumber lit = false then .error .syntaxError
    else
      match ParseInt lit with
      | .ok n => .ok n
      | .error _ => .error .typeError
  | _ => .error .typeError

/-- Model of `json.Unmarshal(data, &v)` for `v` an empty `string`: `null` leaves `v`
unchanged. -/
def unmarshalString : JSON → Except JsonError Text
  | .null => .ok []
  | .string s => .ok s
  | .number lit => if isValidNumber lit = false then .error .syntaxError else .error .typeError
  | _ => .error .typeError

/-! ## `Price` and `PercentChange` -/

/-- Errors returned by the two `UnmarshalJSON` methods. -/
inductive DecodeError where
  | unmarshal (cause : JsonError)
  | parse (cause : NumError)
deriving DecidableEq, Repr

/-- The `switch` of `Price.UnmarshalJSON`: the multiplier and the text without its suffix. -/
def splitSuffix (strPrice : Text) : Nat × Text :=
  if HasSuffix strPrice 'k' then (1000, TrimSuffix strPrice 'k')
  else if HasSuffix strPrice 'm' then (1000000, TrimSuffix strPrice 'm')
  else if HasSuffix strPrice 'b' then (1000000000, TrimSuffix strPrice 'b')
  else (1, strPrice)

/-- The text handed to the suffix switch: spaces and commas removed, lower-cased. -/
def normalizePrice (strPrice : Text) : Text :=
  ToLower (removeAll ',' (removeAll ' ' strPrice))

/-- Model of `Price.UnmarshalJSON`: the value stored in `*p`, or the error returned. -/
def Price.UnmarshalJSON (data : JSON) : Except DecodeError Int :=
  match unmarshalInt data with
  | .ok intPrice => .ok intPrice
  | .error _ =>
    match unmarshalString data with
    | .error err => .error (.unmarshal err)
    | .ok strPrice =>
      let strPrice := removeAll ' ' strPrice
      let strPrice := removeAll ',' strPrice
      let strPrice := ToLower strPrice
      match splitSuffix strPrice with
      | (multiplier, strPrice) =>
        match ParseFloat strPrice with
        | .error err => .error (.parse err)
        | .ok price => .ok (Float64.toInt (price.mul (Float64.ofNat multiplier)))

/-- Model of `PercentChange.UnmarshalJSON`: the value stored in `*pc`, or the error. -/
def PercentChange.UnmarshalJSON (data : JSON) : Except DecodeError Float64 :=
  match unmarshalString data with
  | .error err => .error (.unmarshal err)
  | .ok strChange =>
    let strChange := TrimSpace (TrimSuffix strChange '%')
    match ParseFloat strChange with
    | .error err => .error (.parse err)
    | .ok change => .ok change

/-! ## Vocabulary of the properties -/

/-- One row of the positional text format: its three columns as they stand in the payload. -/
structure RowText where
  rank : Text
  levelOrScore : Text
  third : Text
deriving DecidableEq, Repr

/-- The three integers of a row. -/
structure RowVals where
  rank : Int
  levelOrScore : Int
  third : Int
deriving DecidableEq, Repr

/-- A row as text: the three columns separated by commas, ended by a newline. -/
def RowText.render (r : RowText) : Text :=
  r.rank ++ ',' :: (r.levelOrScore ++ ',' :: (r.third ++ ['\n']))

/-- A payload made of the given rows, in order. -/
def renderRows : List RowText → Text
  | [] => []
  | r :: rs => r.render ++ renderRows rs

/-- The row is well formed and carries the integers `v`: each column is accepted by `Atoi`. -/
def RowText.Parses (r : RowText) (v : RowVals) : Prop :=
  Atoi r.rank = .ok v.rank ∧ Atoi r.levelOrScore = .ok v.levelOrScore ∧ Atoi r.third = .ok v.third

instance (r : RowText) (v : RowVals) : Decidable (r.Parses v) := by
  unfold RowText.Parses; infer_instance

/-- A character that can occur in text accepted by `Atoi`. -/
def isNumChar (c : Char) : Bool := isDigit c || c == '+' || c == '-'

/-- The skill record the specification assigns to a row. -/
def skillOf (name : String) (v : RowVals) : Skill :=
  { Name := name, Rank := v.rank, Level := v.levelOrScore, Experience := v.third }

/-- The activity record the specification assigns to a row. -/
def activityOf (name : String) (v : RowVals) : Activity :=
  { Name := name, Rank := v.rank, Score := v.levelOrScore }

/-- The specification of the positional decode: the first 24 rows against the skill table,
the remaining rows against the activity table, in input order. -/
def expectedStats (vs : List RowVals) : PlayerStats :=
  { Skills := List.zipWith skillOf skills (vs.take 24),
    Activities := List.zipWith activityOf activities (vs.drop 24) }

/-- The result of the `(k+1)`-th call of `Read` on a reader (`FieldsPerRecord = 3`). -/
def nthRead : Nat → Reader → ReadResult
  | 0, r => (r.Read 3).1
  | k + 1, r => nthRead k (r.Read 3).2

/-- Whether a fallible call returned an error. -/
def failed {ε α : Type} : Except ε α → Bool
  | .error _ => true
  | .ok _ => false

/-- A row that is not three integers: the reader rejects it (wrong column count, bad
quoting), or one of its columns is rejected by `Atoi`. -/
def BadRow : ReadResult → Prop
  | .eof => False
  | .error _ => True
  | .record fields => fields.any (fun f => failed (Atoi f)) = true

instance (r : ReadResult) : Decidable (BadRow r) := by
  cases r <;> (simp only [BadRow]; infer_instance)

/-- The number written by a string of decimal digits. -/
def digitsValue (s : Text) : Nat := s.foldl (fun n c => n * 10 + digitVal c) 0

/-- An unsigned decimal numeral: digits, optionally a point and more digits. -/
structure DecimalLit where
  whole : Text
  point : Bool
  frac : Text
deriving DecidableEq, Repr

/-- The numeral consists of digits, has at least one, and has fraction digits only after a
point. -/
def DecimalLit.WellFormed (d : DecimalLit) : Prop :=
  (∀ c ∈ d.whole, isDigit c = true) ∧ (∀ c ∈ d.frac, isDigit c = true) ∧
  d.whole ++ d.frac ≠ [] ∧ (d.point = false → d.frac = [])

instance (d : DecimalLit) : Decidable d.WellFormed := by
  unfold DecimalLit.WellFormed; infer_instance

/-- The numeral as text. -/
def DecimalLit.text (d : DecimalLit) : Text :=
  d.whole ++ (if d.point then '.' :: d.frac else [])

/-- The numeral denotes `num / den`. -/
def DecimalLit.num (d : DecimalLit) : Nat := digitsValue (d.whole ++ d.frac)

def DecimalLit.den (d : DecimalLit) : Nat := 10 ^ d.frac.length

def DecimalLit.value (d : DecimalLit) : ℚ := (d.num : ℚ) / (d.den : ℚ)

/-- The binary64 value nearest to the numeral with the given sign (an infinity when the
numeral is beyond the largest finite value). -/
def DecimalLit.float (neg : Bool) (d : DecimalLit) : Float64 :=
  roundToFloat64 neg d.num d.den

/-- A finite float. -/
def Float64.IsFinite : Float64 → Prop
  | .finite _ _ _ => True
  | _ => False

instance (x : Float64) : Decidable x.IsFinite := by
  cases x <;> (unfold Float64.IsFinite; infer_instance)

/-- The text after the suffix switch of `Price.UnmarshalJSON`, and the multiplier. -/
def priceRemainder (s : Text) : Text := (splitSuffix (normalizePrice s)).2

def priceMultiplier (s : Text) : Nat := (splitSuffix (normalizePrice s)).1

/-- The text `PercentChange.UnmarshalJSON` hands to `ParseFloat`. -/
def percentRemainder (s : Text) : Text := TrimSpace (TrimSuffix s '%')

/-- The JSON values for which `Price.UnmarshalJSON` returns an error. -/
def PriceRejects : JSON → Prop
  | .null => False
  | .bool _ => True
  | .array _ => True
  | .object _ => True
  | .number lit => isValidNumber lit = false ∨ failed (ParseInt lit) = true
  | .string s => failed (ParseFloat (priceRemainder s)) = true

instance (j : JSON) : Decidable (PriceRejects j) := by
  cases j <;> (simp only [PriceRejects]; infer_instance)

/-- The suffixes of the price grammar and their multipliers. -/
def SuffixMultiplier (suffix : Text) (mult : Nat) : Prop :=
  (suffix = [] ∧ mult = 1) ∨ (suffix = ['k'] ∧ mult = 1000) ∨
  (suffix = ['m'] ∧ mult = 1000000) ∨ (suffix = ['b'] ∧ mult = 1000000000)

instance (suffix : Text) (mult : Nat) : Decidable (SuffixMultiplier suffix mult) := by
  unfold SuffixMultiplier; infer_instance

/-- An optional sign in front of a numeral, and whether it negates. -/
def SignText (sign : Text) (neg : Bool) : Prop :=
  (sign = [] ∧ neg = false) ∨ (sign = ['+'] ∧ neg = false) ∨ (sign = ['-'] ∧ neg = true)

instance (sign : Text) (neg : Bool) : Decidable (SignText sign neg) := by
  unfold SignText; infer_instance

/-- Rounding toward zero: floor of a non-negative number, ceiling of a negative one. -/
def truncRat (q : ℚ) : Int := if 0 ≤ q then ⌊q⌋ else ⌈q⌉

/-- The decimal digit character of `d < 10`. -/
def digitChar (d : Nat) : Char :=
  match d with
  | 0 => '0' | 1 => '1' | 2 => '2' | 3 => '3' | 4 => '4'
  | 5 => '5' | 6 => '6' | 7 => '7' | 8 => '8' | _ => '9'

/-- Decimal digits of `n`, most significant first, without leading zeros (`fuel > n`). -/
def natDigits : Nat → Nat → Text
  | 0, _ => []
  | fuel + 1, n =>
    if n < 10 then [digitChar n] else natDigits fuel (n / 10) ++ [digitChar (n % 10)]

/-- The decimal form of a natural number. -/
def formatNat (n : Nat) : Text := natDigits (n + 1) n

/-- The native-number JSON form of an integer: its decimal digits, with `-` when negative. -/
def formatInt (n : Int) : Text :=
  if n < 0 then '-' :: formatNat n.natAbs else formatNat n.natAbs

/-- Sample data: row `i` of a payload, and its three integers. -/
def sampleVals (i : Nat) : RowVals :=
  { rank := 1000 + i, levelOrScore := i % 99 + 1, third := 12345 * i }

def sampleRow (i : Nat) : RowText :=
  { rank := formatInt (sampleVals i).rank,
    levelOrScore := formatInt (sampleVals i).levelOrScore,
    third := formatInt (sampleVals i).third }

/-- A client whose transport answers every request with status 200 and the given body. -/
def clientServing (body : Text) : Client :=
  { baseURL := "https://secure.runescape.com",
    world :=
      { newRequest := fun _ => .ok (),
        roundTrip := fun _ => .ok { StatusCode := 200, Body := .ok body },
        unmarshalStats := fun _ => .error "unexpected end of JSON input" } }

/-! ## Item catalogue (`client.go`) -/

structure PriceTrend where
  Price : Int
  Trend : String
deriving DecidableEq, Repr

structure ChangeTrend where
  Change : Float64
  Trend : String
deriving DecidableEq, Repr

/-- The element type of `Items.Items` (`Type_` is the field `Type`). -/
structure ItemSummary where
  ID : Int
  Icon : String
  IconLarge : String
  Type_ : String
  TypeIcon : String
  Name : String
  Description : String
  Members : String
  Current : PriceTrend
  Today : PriceTrend
deriving DecidableEq, Repr

structure Items where
  Total : Int
  Items : List ItemSummary
deriving DecidableEq, Repr

structure Item where
  ID : Int
  Icon : String
  IconLarge : String
  Type_ : String
  TypeIcon : String
  Name : String
  Description : String
  Members : String
  Current : PriceTrend
  Today : PriceTrend
  Day30 : ChangeTrend
  Day90 : ChangeTrend
  Day180 : ChangeTrend
deriving DecidableEq, Repr

/-- The two `map[string]int` of `GraphData`, as association lists. -/
structure GraphData where
  Daily : List (String × Int)
  Average : List (String × Int)
deriving DecidableEq, Repr

/-- The calls of `json.Unmarshal` made by `Items`, `Item` (which returns the `item` member
of the decoded object) and `ItemGraph`; external collaborators like `World`. -/
structure ItemDecoders where
  unmarshalItems : Text → Except String Items
  unmarshalItem : Text → Except String Item
  unmarshalGraph : Text → Except String GraphData

/-- Errors returned by `Items`, `Item` and `ItemGraph`, one constructor per `fmt.Errorf`
site. -/
inductive CallError where
  | sendingRequest (cause : TransportError)
  | decodingJSON (cause : String)
deriving DecidableEq, Repr

/-- A call of `Items`, `Item` or `ItemGraph`: the returned pair, the paths handed to
`sendRequest` and the payloads handed to `json.Unmarshal`. -/
structure Run (α : Type) where
  value : Option α
  err : Option CallError
  requests : List String
  decoded : List Text

/-- The text `fmt.Sprintf` prints for `%d`. -/
def sprintInt (n : Int) : String := String.mk (formatInt n)

/-- Model of `Client.Items`. -/
def Client.Items (c : Client) (dec : ItemDecoders) (alpha : String) (page : Int) : Run Items :=
  let path := "m=itemdb_oldschool/api/catalogue/items.json?category=1&alpha=" ++ alpha ++
    "&page=" ++ sprintInt page
  match c.sendRequest path with
  | .error e => ⟨none, some (.sendingRequest e), [path], []⟩
  | .ok data =>
    match dec.unmarshalItems data with
    | .error e => ⟨none, some (.decodingJSON e), [path], [data]⟩
    | .ok resp => ⟨some resp, none, [path], [data]⟩

/-- Model of `Client.Item`. -/
def Client.Item (c : Client) (dec : ItemDecoders) (itemID : Int) : Run Item :=
  let path := "m=itemdb_oldschool/api/catalogue/detail.json?item=" ++ sprintInt itemID
  match c.sendRequest path with
  | .error e => ⟨none, some (.sendingRequest e), [path], []⟩
  | .ok data =>
    match dec.unmarshalItem data with
    | .error e => ⟨none, some (.decodingJSON e), [path], [data]⟩
    | .ok item => ⟨some item, none, [path], [data]⟩

/-- Model of `Client.ItemGraph`. -/
def Client.ItemGraph (c : Client) (dec : ItemDecoders) (itemID : Int) : Run GraphData :=
  let path := "m=itemdb_oldschool/api/graph/" ++ sprintInt itemID ++ ".json"
  match c.sendRequest path with
  | .error e => ⟨none, some (.sendingRequest e), [path], []⟩
  | .ok data =>
    match dec.unmarshalGraph data with
    | .error e => ⟨none, some (.decodingJSON e), [path], [data]⟩
    | .ok graph => ⟨some graph, none, [path], [data]⟩

/-! ## `PercentChange.String` -/

/-- The exact value of a finite float times 100, rounded to the nearest integer, ties to
even: the digits `strconv.FormatFloat(x, 'f', 2, 64)` prints, without the point. -/
def hundredths (m : Nat) (e : Int) : Nat :=
  if 0 ≤ e then m * 2 ^ e.toNat * 100 else roundHalfEven (m * 100) (2 ^ (-e).toNat)

/-- Model of `fmt.Sprintf("%.2f", x)`: sign, integer digits, point, two digits; `NaN`,
`+Inf` and `-Inf` for the values that are not finite. -/
def formatFixed2 : Float64 → Text
  | .nan => ['N', 'a', 'N']
  | .inf neg => if neg then ['-', 'I', 'n', 'f'] else ['+', 'I', 'n', 'f']
  | .finite neg m e =>
    (if neg then ['-'] else []) ++ formatNat (hundredths m e / 100) ++
      ['.', digitChar (hundredths m e / 10 % 10), digitChar (hundredths m e % 10)]

/-- Model of `PercentChange.String`: `fmt.Sprintf("%.2f%%", pc)`. -/
def PercentChange.String (pc : Float64) : Text := formatFixed2 pc ++ ['%']

/-! ## Vocabulary of the later properties -/

/-- Decimal digits without superfluous leading zeros: `0`, or digits that start with a
digit other than `0`. -/
def CanonicalDigits (w : Text) : Prop :=
  w = ['0'] ∨ (∃ c cs, w = c :: cs ∧ c ≠ '0' ∧ ∀ x ∈ c :: cs, isDigit x = true)

/-- The display form of a percentage: optional minus sign, digits, point, two digits,
`%`. -/
def percentText (minus : Bool) (whole : Text) (f1 f2 : Char) : Text :=
  (if minus then ['-'] else []) ++ whole ++ ['.', f1, f2, '%']

/-- The two cases of one ASCII letter. -/
def AsciiCasePair (c d : Char) : Prop :=
  (65 ≤ c.toNat ∧ c.toNat ≤ 90 ∧ d.toNat = c.toNat + 32) ∨
  (97 ≤ c.toNat ∧ c.toNat ≤ 122 ∧ c.toNat = d.toNat + 32)

/-- The second text is obtained from the first by inserting or deleting spaces and commas
at any positions and by changing the case of ASCII letters. -/
inductive PriceVariant : Text → Text → Prop where
  | done : PriceVariant [] []
  | keep (c : Char) {s t : Text} : PriceVariant s t → PriceVariant (c :: s) (c :: t)
  | insert (c : Char) {s t : Text} : c = ' ' ∨ c = ',' → PriceVariant s t →
      PriceVariant s (c :: t)
  | delete (c : Char) {s t : Text} : c = ' ' ∨ c = ',' → PriceVariant s t →
      PriceVariant (c :: s) t
  | recase (c d : Char) {s t : Text} : AsciiCasePair c d → PriceVariant s t →
      PriceVariant (c :: s) (d :: t)

/-- Model of `unicode.ToUpper` on the code points used below: ASCII letters, and the two
other code points whose upper case is ASCII (dotless i U+0131 and long s U+017F). -/
def toUpperRune (c : Char) : Char :=
  if 97 ≤ c.toNat ∧ c.toNat ≤ 122 then Char.ofNat (c.toNat - 32)
  else if c.toNat = 0x131 then 'I'
  else if c.toNat = 0x17F then 'S'
  else c

/-- Model of `strings.ToUpper` (on those code points). -/
def ToUpper (s : Text) : Text := s.map toUpperRune

/-- The rows of a payload: what the successive calls of `Read` return before `io.EOF`. -/
def HasRowCount (reader : Reader) (n : Nat) : Prop :=
  nthRead n reader = .eof ∧ ∀ k, k < n → nthRead k reader ≠ .eof

/-- The path `Hiscores` hands to the transport, as the specification writes it. -/
def hiscoresPath (modeSuffix ext username : String) : String :=
  "m=hiscore_oldschool" ++ modeSuffix ++ "/index_lite." ++ ext ++ "?player=" ++ username

/-- The eight `GameMode` constants. -/
def gameModes : List String :=
  [ModeRegular, ModeIronman, ModeHardcoreIronman, ModeUltimateIronman, ModeDeadman,
   ModeSeasonal, ModeTournament, ModeFreshStart]

/-- A transport that fails: the HTTP round trip returns an error. -/
def clientFailing (cause : String) : Client :=
  { baseURL := "https://secure.runescape.com",
    world :=
      { newRequest := fun _ => .ok (),
        roundTrip := fun _ => .error cause,
        unmarshalStats := fun _ => .error "unexpected end of JSON input" } }

/-- A transport that answers every request with the given status and an empty body. -/
def clientStatus (code : Int) : Client :=
  { baseURL := "https://secure.runescape.com",
    world :=
      { newRequest := fun _ => .ok (),
        roundTrip := fun _ => .ok { StatusCode := code, Body := .ok [] },
        unmarshalStats := fun _ => .error "unexpected end of JSON input" } }

/-- A transport that answers the request for `path` with `hit` and every other request with
`miss`. -/
def clientAt (path : String) (hit miss : Response) : Client :=
  { baseURL := "https://secure.runescape.com",
    world :=
      { newRequest := fun _ => .ok (),
        roundTrip := fun url =>
          if url = "https://secure.runescape.com" ++ "/" ++ path then .ok hit else .ok miss,
        unmarshalStats := fun _ => .error "unexpected end of JSON input" } }

/-- Decoders that accept nothing. -/
def noDecoders : ItemDecoders :=
  { unmarshalItems := fun _ => .error "unexpected end of JSON input",
    unmarshalItem := fun _ => .error "unexpected end of JSON input",
    unmarshalGraph := fun _ => .error "unexpected end of JSON input" }

/-! # Theorems -/

set_option maxRecDepth 100000

set_option exponentiation.threshold 2000

/-! ## The CSV reader on well-formed rows -/

theorem parseUintLoop_ok_digits : ∀ (s : Text) (n m : Nat),
    parseUintLoop s n = .ok m → ∀ c ∈ s, isDigit c = true := by
  intro s
  induction s with
  | nil => intro n m _ c hc; cases hc
  | cons a s ih =>
    intro n m h c hc
    unfold parseUintLoop at h
    split at h
    · cases h
    · split at h
      · cases h
      · split at h
        · cases h
        · rename_i hd _ _
          rcases List.mem_cons.mp hc with rfl | hc
          · simpa using hd
          · exact ih _ _ h c hc

theorem parseIntSigned_ok_digits (neg : Bool) (s : Text) (v : Int)
    (h : parseIntSigned neg s = .ok v) : s ≠ [] ∧ ∀ c ∈ s, isDigit c = true := by
  unfold parseIntSigned ParseUint at h
  cases s with
  | nil => simp at h
  | cons a s =>
    refine ⟨by simp, ?_⟩
    simp only at h
    cases hp : parseUintLoop (a :: s) 0 with
    | error e => rw [hp] at h; cases h
    | ok un => exact parseUintLoop_ok_digits _ _ _ hp

theorem Atoi_ok_chars (s : Text) (v : Int) (h : Atoi s = .ok v) :
    s ≠ [] ∧ ∀ c ∈ s, isNumChar c = true := by
  unfold Atoi ParseInt at h
  cases s with
  | nil => cases h
  | cons a s =>
    refine ⟨by simp, ?_⟩
    simp only at h
    intro c hc
    split at h
    · rename_i ha
      rcases List.mem_cons.mp hc with rfl | hc
      · simp [isNumChar, ha]
      · simp [isNumChar, (parseIntSigned_ok_digits _ _ _ h).2 c hc]
    · split at h
      · rename_i ha
        rcases List.mem_cons.mp hc with rfl | hc
        · simp [isNumChar, ha]
        · simp [isNumChar, (parseIntSigned_ok_digits _ _ _ h).2 c hc]
      · simp [isNumChar, (parseIntSigned_ok_digits _ _ _ h).2 c hc]


theorem isNumChar_plain (c : Char) (h : isNumChar c = true) :
    c ≠ '"' ∧ c ≠ ',' ∧ c ≠ '\n' ∧ c ≠ '\r' := by
  refine ⟨?_, ?_, ?_, ?_⟩ <;> (intro hc; subst hc; revert h; decide)

theorem normalizeNewlines_cons (c : Char) (s : Text) (h : c ≠ '\r') :
    normalizeNewlines (c :: s) = c :: normalizeNewlines s := by
  cases s with
  | nil => simp [normalizeNewlines, h]
  | cons d r => simp [normalizeNewlines, h]

theorem normalizeNewlines_id (s : Text) (h : ∀ c ∈ s, c ≠ '\r') : normalizeNewlines s = s := by
  induction s with
  | nil => rfl
  | cons a s ih =>
    rw [normalizeNewlines_cons a s (h a (by simp)), ih (fun c hc => h c (by simp [hc]))]

theorem scanRecord_unquoted_append (f rest buf : Text) (fields : List Text)
    (hf : ∀ c ∈ f, isNumChar c = true) :
    scanRecord .unquoted (f ++ rest) buf fields = scanRecord .unquoted rest (buf ++ f) fields := by
  induction f generalizing buf with
  | nil => simp
  | cons a f ih =>
    obtain ⟨h1, h2, h3, _⟩ := isNumChar_plain a (hf a (by simp))
    rw [List.cons_append, scanRecord]
    simp only [h1, h2, h3, if_false]
    rw [ih _ (fun c hc => hf c (by simp [hc]))]
    simp

theorem scanRecord_field (f rest : Text) (fields : List Text)
    (hne : f ≠ []) (hf : ∀ c ∈ f, isNumChar c = true) :
    scanRecord .fieldStart (f ++ rest) [] fields = scanRecord .unquoted rest f fields := by
  cases f with
  | nil => exact absurd rfl hne
  | cons a f =>
    obtain ⟨h1, h2, h3, _⟩ := isNumChar_plain a (hf a (by simp))
    rw [List.cons_append, scanRecord]
    simp only [h1, h2, h3, if_false]
    rw [scanRecord_unquoted_append f rest _ fields (fun c hc => hf c (by simp [hc]))]
    simp

theorem scanRecord_row (r : RowText) (v : RowVals) (rest : Text) (h : r.Parses v) :
    scanRecord .fieldStart (r.render ++ rest) [] [] =
      (.ok [r.rank, r.levelOrScore, r.third], rest) := by
  obtain ⟨h0, h1, h2⟩ := h
  obtain ⟨n0, c0⟩ := Atoi_ok_chars _ _ h0
  obtain ⟨n1, c1⟩ := Atoi_ok_chars _ _ h1
  obtain ⟨n2, c2⟩ := Atoi_ok_chars _ _ h2
  unfold RowText.render
  rw [List.append_assoc, scanRecord_field _ _ _ n0 c0]
  rw [List.cons_append, scanRecord]
  simp only [show (',' : Char) ≠ '"' by decide, if_false, if_true]
  rw [List.append_assoc, scanRecord_field _ _ _ n1 c1]
  rw [List.cons_append, scanRecord]
  simp only [show (',' : Char) ≠ '"' by decide, if_false, if_true]
  rw [List.append_assoc, scanRecord_field _ _ _ n2 c2]
  simp [scanRecord]

theorem Read_row (r : RowText) (v : RowVals) (rest : Text) (h : r.Parses v) :
    Reader.Read ⟨r.render ++ rest⟩ 3 = (.record [r.rank, r.levelOrScore, r.third], ⟨rest⟩) := by
  obtain ⟨n0, c0⟩ := Atoi_ok_chars _ _ h.1
  have hs : skipEmptyLines (r.render ++ rest) = r.render ++ rest := by
    cases hr : r.rank with
    | nil => exact absurd hr n0
    | cons a f =>
      have := (isNumChar_plain a (c0 a (by simp [hr]))).2.2.1
      simp [RowText.render, hr, skipEmptyLines, this]
  have hne : ∃ a t, r.render ++ rest = a :: t := by
    cases hr : r.rank with
    | nil => exact absurd hr n0
    | cons a f => exact ⟨a, f ++ ',' :: (r.levelOrScore ++ ',' :: (r.third ++ ['\n'])) ++ rest, by simp [RowText.render, hr]⟩
  obtain ⟨a, t, hat⟩ := hne
  unfold Reader.Read
  simp only [hs]
  rw [hat]
  simp only
  rw [← hat, scanRecord_row r v rest h]
  simp



theorem index_natCast {α : Type} (xs : List α) (n : Nat) : index xs (n : Int) = xs[n]? := by
  simp [index]

theorem zipWith_snoc {α β γ : Type} (f : α → β → γ) :
    ∀ (l : List α) (a : List β) (v : β) (x : α), l[a.length]? = some x →
      List.zipWith f l (a ++ [v]) = List.zipWith f l a ++ [f x v] := by
  intro l a
  induction a generalizing l with
  | nil =>
    intro v x h
    cases l with
    | nil => simp at h
    | cons y l => simp at h; simp [h]
  | cons b a ih =>
    intro v x h
    cases l with
    | nil => simp at h
    | cons y l =>
      simp at h
      simp [ih l v x h]

theorem expectedStats_snoc_skill (pre : List RowVals) (v : RowVals) (name : String)
    (h : pre.length < 24) (hn : getSkillName pre.length = some name) :
    expectedStats (pre ++ [v]) =
      { expectedStats pre with Skills := (expectedStats pre).Skills ++ [skillOf name v] } := by
  have ht : (pre ++ [v]).take 24 = pre ++ [v] := List.take_of_length_le (by simp; omega)
  have ht2 : pre.take 24 = pre := List.take_of_length_le (by omega)
  have hd : (pre ++ [v]).drop 24 = [] := List.drop_of_length_le (by simp; omega)
  have hd2 : pre.drop 24 = [] := List.drop_of_length_le (by omega)
  rw [getSkillName, index_natCast] at hn
  simp only [expectedStats, ht, ht2, hd, hd2]
  rw [zipWith_snoc skillOf skills pre v name hn]

theorem expectedStats_snoc_activity (pre : List RowVals) (v : RowVals) (name : String)
    (h : 24 ≤ pre.length) (hn : getActivityName ((pre.length : Int) - 24) = some name) :
    expectedStats (pre ++ [v]) =
      { expectedStats pre with
        Activities := (expectedStats pre).Activities ++ [activityOf name v] } := by
  have ht : (pre ++ [v]).take 24 = pre.take 24 := by
    rw [List.take_append_of_le_length h]
  have hd : (pre ++ [v]).drop 24 = pre.drop 24 ++ [v] := by
    rw [List.drop_append_of_le_length h]
  have hc : ((pre.length : Int) - 24) = ((pre.length - 24 : Nat) : Int) := by omega
  rw [getActivityName, hc, index_natCast] at hn
  have hl : (pre.drop 24).length = pre.length - 24 := by simp
  simp only [expectedStats, ht, hd]
  rw [zipWith_snoc activityOf activities (pre.drop 24) v name (by rw [hl]; exact hn)]

theorem getSkillName_lt (n : Nat) (h : n < 24) : ∃ name, getSkillName n = some name := by
  rw [getSkillName, index_natCast]
  exact ⟨skills.get ⟨n, by simpa [skills] using h⟩, by simp [List.getElem?_eq_getElem, (show n < skills.length by simpa [skills] using h)]⟩

theorem getActivityName_lt (n : Nat) (h : n < 79) : ∃ name, getActivityName n = some name := by
  rw [getActivityName, index_natCast]
  exact ⟨activities.get ⟨n, by simpa [activities] using h⟩, by simp [List.getElem?_eq_getElem, (show n < activities.length by simpa [activities] using h)]⟩

theorem hiscoresLoop_rows : ∀ (rs : List RowText) (vs : List RowVals),
    List.Forall₂ RowText.Parses rs vs → ∀ (pre : List RowVals) (fuel : Nat),
    pre.length + rs.length ≤ 103 → rs.length < fuel →
    hiscoresLoop fuel ⟨renderRows rs⟩ (expectedStats pre) pre.length =
      .returned (some (expectedStats (pre ++ vs))) none := by
  intro rs vs h
  induction h with
  | nil =>
    intro pre fuel _ hf
    cases fuel with
    | zero => simp at hf
    | succ fuel => simp [hiscoresLoop, renderRows, Reader.Read, skipEmptyLines]
  | @cons r v rs vs hp _ ih =>
    intro pre fuel hlen hf
    cases fuel with
    | zero => simp at hf
    | succ fuel =>
      simp only [List.length_cons] at hlen hf
      rw [hiscoresLoop, renderRows, Read_row r v _ hp]
      simp only [index, List.get?_eq_getElem?]
      simp only [show ¬ ((0:Int) < 0) by decide, show ¬ ((1:Int) < 0) by decide,
        show ¬ ((2:Int) < 0) by decide, if_false]
      simp only [show (0:Int).toNat = 0 from rfl, show (1:Int).toNat = 1 from rfl,
        show (2:Int).toNat = 2 from rfl, List.getElem?_cons_zero, List.getElem?_cons_succ]
      simp only [hp.1, hp.2.1, hp.2.2]
      have key := ih (pre ++ [v]) fuel (by simp; omega) (by omega)
      simp only [List.length_append, List.length_singleton, List.append_assoc,
        List.singleton_append, Nat.cast_add, Nat.cast_one] at key
      by_cases hk : pre.length < 24
      · obtain ⟨name, hn⟩ := getSkillName_lt pre.length hk
        have hk2 : (pre.length : Int) < 24 := by omega
        simp only [hk2, if_true, hn]
        rw [expectedStats_snoc_skill pre v name hk hn] at key
        exact key
      · obtain ⟨name, hn⟩ := getActivityName_lt (pre.length - 24) (by omega)
        have hc : ((pre.length : Int) - 24) = ((pre.length - 24 : Nat) : Int) := by omega
        have hk2 : ¬ (pre.length : Int) < 24 := by omega
        rw [← hc] at hn
        simp only [hk2, if_false, hn]
        rw [expectedStats_snoc_activity pre v name (by omega) hn] at key
        exact key

/-! ## Rows are split by index (C1) -/

theorem renderRows_no_cr : ∀ (rs : List RowText) (vs : List RowVals),
    List.Forall₂ RowText.Parses rs vs → ∀ c ∈ renderRows rs, c ≠ '\r' := by
  intro rs vs h
  induction h with
  | nil => intro c hc; cases hc
  | @cons r v rs vs hp _ ih =>
    intro c hc
    have num : ∀ (f : Text) (w : Int), Atoi f = .ok w → ∀ c ∈ f, c ≠ '\r' :=
      fun f w hf c hc => (isNumChar_plain c ((Atoi_ok_chars f w hf).2 c hc)).2.2.2
    simp only [renderRows, RowText.render, List.mem_append, List.mem_cons, List.mem_singleton,
      List.not_mem_nil, or_false] at hc
    rcases hc with (h | h | h | h | h | h) | h
    · exact num _ _ hp.1 c h
    · rw [h]; decide
    · exact num _ _ hp.2.1 c h
    · rw [h]; decide
    · exact num _ _ hp.2.2 c h
    · rw [h]; decide
    · exact ih c h

theorem length_le_renderRows : ∀ rs : List RowText, rs.length ≤ (renderRows rs).length := by
  intro rs
  induction rs with
  | nil => simp
  | cons r rs ih => simp [renderRows, RowText.render]; omega

theorem decodeCSV_rows (rows : List RowText) (vals : List RowVals)
    (hwf : List.Forall₂ RowText.Parses rows vals) (hhi : rows.length ≤ 103) :
    decodeCSV (renderRows rows) = .returned (some (expectedStats vals)) none := by
  unfold decodeCSV NewReader
  simp only [normalizeNewlines_id _ (renderRows_no_cr rows vals hwf)]
  have h := hiscoresLoop_rows rows vals hwf [] ((renderRows rows).length + 1)
    (by simpa using hhi) (by have := length_le_renderRows rows; omega)
  simpa [expectedStats] using h

theorem expectedStats_skills_length (vals : List RowVals) (h : 24 ≤ vals.length) :
    (expectedStats vals).Skills.length = 24 := by
  simp [expectedStats, skills]; omega

theorem expectedStats_activities_length (vals : List RowVals) (h : vals.length ≤ 103) :
    (expectedStats vals).Activities.length = vals.length - 24 := by
  simp [expectedStats, activities]; omega

theorem expectedStats_skill_at (vals : List RowVals) (i : Nat) (name : String) (v : RowVals)
    (hi : i < 24) (hn : skills[i]? = some name) (hv : vals[i]? = some v) :
    (expectedStats vals).Skills[i]? = some (skillOf name v) := by
  simp [expectedStats, List.getElem?_zipWith, hn, List.getElem?_take, hi, hv]

theorem expectedStats_activity_at (vals : List RowVals) (j : Nat) (name : String) (v : RowVals)
    (hn : activities[j]? = some name) (hv : vals[24 + j]? = some v) :
    (expectedStats vals).Activities[j]? = some (activityOf name v) := by
  simp [expectedStats, List.getElem?_zipWith, hn, List.getElem?_drop, hv]

theorem Hiscores_csv (c : Client) (username mode : String) (data : Text)
    (hu : username ≠ "") (hsend : ∀ p, c.sendRequest p = .ok data) :
    (c.Hiscores username mode FormatCSV).ret = decodeCSV data := by
  simp [Client.Hiscores, hu, hsend, FormatCSV, FormatJSON]

/-- C1. Positional-text decode splits rows by index: for a payload of `n` well-formed rows
with `24 ≤ n ≤ 103`, `Hiscores` with format csv succeeds; the result has exactly 24 skills,
skill `i` carrying the `i`-th skill name and the three integers of row `i`, and exactly
`n - 24` activities, activity `j` carrying the `j`-th activity name and the first two
integers of row `24 + j`. -/
theorem hiscores_csv_splits_rows_by_index (c : Client) (username mode : String)
    (rows : List RowText) (vals : List RowVals)
    (hu : username ≠ "") (hsend : ∀ p, c.sendRequest p = .ok (renderRows rows))
    (hwf : List.Forall₂ RowText.Parses rows vals)
    (hlo : 24 ≤ rows.length) (hhi : rows.length ≤ 103) :
    ∃ stats : PlayerStats,
      (c.Hiscores username mode FormatCSV).ret = .returned (some stats) none ∧
      stats.Skills.length = 24 ∧
      stats.Activities.length = rows.length - 24 ∧
      (∀ i, i < 24 → ∃ name v, skills[i]? = some name ∧ vals[i]? = some v ∧
        stats.Skills[i]? = some
          { Name := name, Rank := v.rank, Level := v.levelOrScore, Experience := v.third }) ∧
      (∀ j, j < rows.length - 24 → ∃ name v, activities[j]? = some name ∧
        vals[24 + j]? = some v ∧
        stats.Activities[j]? = some { Name := name, Rank := v.rank, Score := v.levelOrScore }) := by
  have hl : rows.length = vals.length := hwf.length_eq
  refine ⟨expectedStats vals, ?_, ?_, ?_, ?_, ?_⟩
  · rw [Hiscores_csv c username mode _ hu hsend, decodeCSV_rows rows vals hwf hhi]
  · exact expectedStats_skills_length vals (by omega)
  · rw [hl]; exact expectedStats_activities_length vals (by omega)
  · intro i hi
    have h1 : i < skills.length := by simpa [skills] using hi
    have h2 : i < vals.length := by omega
    refine ⟨skills.get ⟨i, h1⟩, vals.get ⟨i, h2⟩, by simp [List.getElem?_eq_getElem, h1],
      by simp [List.getElem?_eq_getElem, h2], ?_⟩
    exact expectedStats_skill_at vals i _ _ hi (by simp [List.getElem?_eq_getElem, h1])
      (by simp [List.getElem?_eq_getElem, h2])
  · intro j hj
    have h1 : j < activities.length := by simp [activities]; omega
    have h2 : 24 + j < vals.length := by omega
    refine ⟨activities.get ⟨j, h1⟩, vals.get ⟨24 + j, h2⟩,
      by simp [List.getElem?_eq_getElem, h1], by simp [List.getElem?_eq_getElem, h2], ?_⟩
    exact expectedStats_activity_at vals j _ _ (by simp [List.getElem?_eq_getElem, h1])
      (by simp [List.getElem?_eq_getElem, h2])

/-! ## The reader consumes its input -/

theorem dropLine_length (s : Text) : (dropLine s).length ≤ s.length := by
  induction s with
  | nil => simp [dropLine]
  | cons a s ih =>
    unfold dropLine
    split
    · simp
    · simp; omega

theorem skipEmptyLines_length (s : Text) : (skipEmptyLines s).length ≤ s.length := by
  induction s with
  | nil => simp [skipEmptyLines]
  | cons a s ih =>
    unfold skipEmptyLines
    split
    · simp; omega
    · simp

theorem scanRecord_length : ∀ (s : Text) (m : ScanMode) (buf : Text) (fields : List Text),
    (scanRecord m s buf fields).2.length ≤ s.length := by
  intro s
  induction s with
  | nil => intro m buf fields; cases m <;> simp [scanRecord]
  | cons a s ih =>
    intro m buf fields
    have hd := dropLine_length s
    cases m <;> simp only [scanRecord] <;> repeat' split
    all_goals first
      | (simp only [List.length_cons]; exact Nat.le_succ_of_le (ih _ _ _))
      | (simp only [List.length_cons]; omega)

theorem Read_length (r : Reader) (n : Nat) (h : (r.Read n).1 ≠ .eof) :
    (r.Read n).2.input.length < r.input.length := by
  have hs := skipEmptyLines_length r.input
  unfold Reader.Read at h ⊢
  cases hsk : skipEmptyLines r.input with
  | nil => simp [hsk] at h
  | cons a t =>
    rw [hsk] at hs
    simp only
    have hlen : (scanRecord .fieldStart (a :: t) [] []).2.length ≤ t.length := by
      simp only [scanRecord]
      repeat' split
      all_goals first
        | exact scanRecord_length _ _ _ _
        | exact Nat.le_refl _
    simp only [List.length_cons] at hs
    rcases hres : scanRecord .fieldStart (a :: t) [] [] with ⟨res, rest⟩
    rw [hres] at hlen
    simp only at hlen
    cases res with
    | error e => simp only; omega
    | ok fields =>
      simp only
      split <;> (simp only; omega)

theorem Read_eof_state (r : Reader) (n : Nat) (h : (r.Read n).1 = .eof) :
    (r.Read n).2 = ⟨[]⟩ := by
  unfold Reader.Read at h ⊢
  cases hsk : skipEmptyLines r.input with
  | nil => rfl
  | cons a t =>
    rw [hsk] at h
    simp only at h ⊢
    rcases hres : scanRecord .fieldStart (a :: t) [] [] with ⟨res, rest⟩
    rw [hres] at h
    cases res with
    | error e => simp at h
    | ok fields =>
      simp only at h
      split at h <;> simp at h

theorem Read_record_length (r : Reader) (n : Nat) (fields : List Text) (r1 : Reader)
    (h : r.Read n = (.record fields, r1)) : fields.length = n := by
  unfold Reader.Read at h
  cases hsk : skipEmptyLines r.input with
  | nil => rw [hsk] at h; simp at h
  | cons a t =>
    rw [hsk] at h
    simp only at h
    rcases hres : scanRecord .fieldStart (a :: t) [] [] with ⟨res, rest⟩
    rw [hres] at h
    cases res with
    | error e => simp at h
    | ok fs =>
      simp only at h
      split at h
      · simp at h
      · rename_i hl
        simp only [Prod.mk.injEq, ReadResult.record.injEq] at h
        rw [← h.1]
        exact Decidable.not_not.mp hl

theorem nthRead_nil (k : Nat) : nthRead k ⟨[]⟩ = .eof := by
  induction k with
  | zero => rfl
  | succ k ih => simpa [nthRead, Reader.Read, skipEmptyLines] using ih


/-! ## One iteration of the loop; malformed rows (C6) -/

theorem list_length_three {α : Type} (l : List α) (h : l.length = 3) :
    ∃ a b c, l = [a, b, c] := by
  match l, h with
  | [a, b, c], _ => exact ⟨a, b, c, rfl⟩

theorem getActivityName_ge (n : Nat) (h : 79 ≤ n) : getActivityName n = none := by
  rw [getActivityName, index_natCast]
  exact List.getElem?_eq_none (by simpa [activities] using h)

/-- One iteration of the CSV loop, case by case. -/
theorem hiscoresLoop_step (fuel : Nat) (reader : Reader) (stats : PlayerStats) (lc : Nat) :
    ((reader.Read 3).1 = .eof ∧
      hiscoresLoop (fuel + 1) reader stats lc = .returned (some stats) none) ∨
    (BadRow (reader.Read 3).1 ∧
      ∃ e, hiscoresLoop (fuel + 1) reader stats lc = .returned none (some e)) ∨
    (∃ f0 f1 f2 v, (reader.Read 3).1 = .record [f0, f1, f2] ∧ RowText.Parses ⟨f0, f1, f2⟩ v ∧
      ((lc < 24 ∧ ∃ name, getSkillName lc = some name ∧
          hiscoresLoop (fuel + 1) reader stats lc =
            hiscoresLoop fuel (reader.Read 3).2
              { stats with Skills := stats.Skills ++ [skillOf name v] } ((lc + 1 : Nat) : Int)) ∨
       (24 ≤ lc ∧ lc < 103 ∧ ∃ name, getActivityName ((lc : Int) - 24) = some name ∧
          hiscoresLoop (fuel + 1) reader stats lc =
            hiscoresLoop fuel (reader.Read 3).2
              { stats with Activities := stats.Activities ++ [activityOf name v] }
              ((lc + 1 : Nat) : Int)) ∨
       (103 ≤ lc ∧ hiscoresLoop (fuel + 1) reader stats lc = .panicked))) := by
  rcases hR : reader.Read 3 with ⟨res, r1⟩
  cases res with
  | eof => left; simp [hiscoresLoop, hR]
  | error e => right; left; simp [hiscoresLoop, hR, BadRow]
  | record fields =>
    obtain ⟨f0, f1, f2, rfl⟩ := list_length_three fields (Read_record_length _ _ _ _ hR)
    right
    have hidx : index [f0, f1, f2] 0 = some f0 ∧ index [f0, f1, f2] 1 = some f1 ∧
        index [f0, f1, f2] 2 = some f2 := by
      refine ⟨rfl, rfl, rfl⟩
    rw [hiscoresLoop, hR]
    simp only [hidx.1, hidx.2.1, hidx.2.2]
    cases h0 : Atoi f0 with
    | error e => left; exact ⟨by simp [BadRow, failed, h0], _, rfl⟩
    | ok rank =>
      cases h1 : Atoi f1 with
      | error e => left; exact ⟨by simp [BadRow, failed, h1], _, rfl⟩
      | ok levelOrScore =>
        cases h2 : Atoi f2 with
        | error e => left; exact ⟨by simp [BadRow, failed, h2], _, rfl⟩
        | ok expOrEmpty =>
          right
          refine ⟨f0, f1, f2, ⟨rank, levelOrScore, expOrEmpty⟩, rfl, ⟨h0, h1, h2⟩, ?_⟩
          simp only
          by_cases hk : lc < 24
          · left
            obtain ⟨name, hn⟩ := getSkillName_lt lc hk
            have hk2 : (lc : Int) < 24 := by omega
            refine ⟨hk, name, hn, ?_⟩
            simp only [hk2, if_true, hn, skillOf, Nat.cast_add, Nat.cast_one]
          · right
            have hk2 : ¬ (lc : Int) < 24 := by omega
            have hc : ((lc : Int) - 24) = ((lc - 24 : Nat) : Int) := by omega
            by_cases hk3 : lc < 103
            · left
              obtain ⟨name, hn⟩ := getActivityName_lt (lc - 24) (by omega)
              rw [← hc] at hn
              refine ⟨by omega, hk3, name, hn, ?_⟩
              simp only [hk2, if_false, hn, activityOf, Nat.cast_add, Nat.cast_one]
            · right
              have hn := getActivityName_ge (lc - 24) (by omega)
              rw [← hc] at hn
              refine ⟨by omega, ?_⟩
              simp only [hk2, if_false, hn]

/-- The fuel given by `decodeCSV` is never used up. -/
theorem hiscoresLoop_fuel : ∀ (fuel : Nat) (reader : Reader) (stats : PlayerStats) (lc : Nat),
    reader.input.length < fuel → hiscoresLoop fuel reader stats lc ≠ .outOfFuel := by
  intro fuel
  induction fuel with
  | zero => intro reader stats lc h; omega
  | succ fuel ih =>
    intro reader stats lc h
    rcases hiscoresLoop_step fuel reader stats lc with ⟨_, h1⟩ | ⟨_, e, h1⟩ |
      ⟨f0, f1, f2, v, hrec, _, h1⟩
    · rw [h1]; simp
    · rw [h1]; simp
    · have hlen := Read_length reader 3 (by rw [hrec]; simp)
      rcases h1 with ⟨_, name, _, h1⟩ | ⟨_, _, name, _, h1⟩ | ⟨_, h1⟩
      · rw [h1]; exact ih _ _ _ (by omega)
      · rw [h1]; exact ih _ _ _ (by omega)
      · rw [h1]; simp

/-- The CSV branch always terminates: the fuel `decodeCSV` starts with suffices. -/
theorem decodeCSV_terminates (data : Text) : decodeCSV data ≠ .outOfFuel :=
  hiscoresLoop_fuel _ _ _ 0 (Nat.lt_succ_self _)

theorem BadRow_not_parses (f0 f1 f2 : Text) (v : RowVals) (h : RowText.Parses ⟨f0, f1, f2⟩ v) :
    ¬ BadRow (.record [f0, f1, f2]) := by
  obtain ⟨h0, h1, h2⟩ := h
  simp [BadRow, failed, h0, h1, h2]

theorem hiscoresLoop_bad_row : ∀ (k fuel : Nat) (reader : Reader) (stats : PlayerStats) (lc : Nat),
    lc + k < 103 → reader.input.length < fuel → BadRow (nthRead k reader) →
    ∃ e, hiscoresLoop fuel reader stats lc = .returned none (some e) := by
  intro k
  induction k with
  | zero =>
    intro fuel reader stats lc hlc hf hbad
    cases fuel with
    | zero => omega
    | succ fuel =>
      simp only [nthRead] at hbad
      rcases hiscoresLoop_step fuel reader stats lc with ⟨h0, _⟩ | ⟨_, h1⟩ |
        ⟨f0, f1, f2, v, hrec, hp, _⟩
      · rw [h0] at hbad; exact absurd hbad (by simp [BadRow])
      · exact h1
      · rw [hrec] at hbad; exact absurd hbad (BadRow_not_parses _ _ _ v hp)
  | succ k ih =>
    intro fuel reader stats lc hlc hf hbad
    cases fuel with
    | zero => omega
    | succ fuel =>
      simp only [nthRead] at hbad
      rcases hiscoresLoop_step fuel reader stats lc with ⟨h0, _⟩ | ⟨_, h1⟩ |
        ⟨f0, f1, f2, v, hrec, hp, h1⟩
      · rw [Read_eof_state reader 3 h0, nthRead_nil] at hbad
        exact absurd hbad (by simp [BadRow])
      · exact h1
      · have hlen := Read_length reader 3 (by rw [hrec]; simp)
        rcases h1 with ⟨_, name, _, h1⟩ | ⟨_, _, name, _, h1⟩ | ⟨h103, _⟩
        · rw [h1]; exact ih _ _ _ _ (by omega) (by omega) hbad
        · rw [h1]; exact ih _ _ _ _ (by omega) (by omega) hbad
        · omega

/-- C6. A malformed row among the first 103 aborts the whole positional-text decode: if the
row at index `k < 103` is rejected by the reader (wrong column count, bad quoting) or has a
column that is not an integer, `Hiscores` with format csv returns a nil result and a non-nil
error, whatever precedes that row. -/
theorem hiscores_csv_malformed_row_aborts (c : Client) (username mode : String)
    (payload : Text) (k : Nat) (hu : username ≠ "")
    (hsend : ∀ p, c.sendRequest p = .ok payload) (hk : k < 103)
    (hbad : BadRow (nthRead k (NewReader payload))) :
    ∃ e, (c.Hiscores username mode FormatCSV).ret = .returned none (some e) := by
  rw [Hiscores_csv c username mode payload hu hsend]
  exact hiscoresLoop_bad_row k _ _ _ 0 (by omega) (Nat.lt_succ_self _) hbad

/-! ## Decimal forms of integers; native numbers (C2) -/

theorem digitChar_spec : ∀ d, d < 10 →
    isDigit (digitChar d) = true ∧ digitVal (digitChar d) = d := by
  decide

theorem parseUintLoop_snoc : ∀ (s : Text) (c : Char) (n : Nat),
    parseUintLoop (s ++ [c]) n =
      match parseUintLoop s n with
      | .ok m => parseUintLoop [c] m
      | .error e => .error e := by
  intro s
  induction s with
  | nil => intro c n; rfl
  | cons a s ih =>
    intro c n
    rw [List.cons_append]
    simp only [parseUintLoop]
    split
    · rfl
    · split
      · rfl
      · split
        · rfl
        · exact ih c _

theorem parseUintLoop_natDigits : ∀ (fuel n : Nat), n < fuel → n ≤ maxUint64 →
    parseUintLoop (natDigits fuel n) 0 = .ok n := by
  intro fuel
  induction fuel with
  | zero => intro n h; omega
  | succ fuel ih =>
    intro n hf hn
    unfold natDigits
    have hmax : maxUint64 = 18446744073709551615 := by decide
    by_cases h10 : n < 10
    · obtain ⟨hd, hv⟩ := digitChar_spec n h10
      simp only [h10, if_true, parseUintLoop, hd, hv, hmax]
      simp
      omega
    · obtain ⟨hd, hv⟩ := digitChar_spec (n % 10) (Nat.mod_lt _ (by decide))
      simp only [h10, if_false]
      rw [parseUintLoop_snoc, ih (n / 10) (by omega) (by omega)]
      simp only [parseUintLoop, hd, hv, hmax]
      have h1 : ¬ (n / 10 ≥ 18446744073709551615 / 10 + 1) := by omega
      have h2 : ¬ (n / 10 * 10 + n % 10 > 18446744073709551615) := by omega
      simp only [h1, h2, if_false, Bool.true_eq_false]
      congr 1
      omega

theorem natDigits_ne_nil (fuel n : Nat) (h : n < fuel) : natDigits fuel n ≠ [] := by
  cases fuel with
  | zero => omega
  | succ fuel =>
    unfold natDigits
    split <;> simp

theorem natDigits_head (fuel n : Nat) (h : n < fuel) :
    ∃ c cs, natDigits fuel n = c :: cs ∧ isDigit c = true := by
  induction fuel generalizing n with
  | zero => omega
  | succ fuel ih =>
    unfold natDigits
    by_cases h10 : n < 10
    · exact ⟨_, [], by simp [h10], (digitChar_spec n h10).1⟩
    · obtain ⟨c, cs, hc, hd⟩ := ih (n / 10) (by omega)
      exact ⟨c, cs ++ [digitChar (n % 10)], by simp [h10, hc], hd⟩

theorem ParseUint_formatNat (n : Nat) (hn : n ≤ maxUint64) : ParseUint (formatNat n) = .ok n := by
  unfold ParseUint formatNat
  have h := parseUintLoop_natDigits (n + 1) n (by omega) hn
  cases hd : natDigits (n + 1) n with
  | nil => exact absurd hd (natDigits_ne_nil _ _ (by omega))
  | cons c cs => simp only; rw [← hd]; exact h

theorem isDigit_not_sign (c : Char) (h : isDigit c = true) : c ≠ '+' ∧ c ≠ '-' := by
  constructor <;> (intro hc; subst hc; revert h; decide)

/-- The decimal form of an `int` is read back by `ParseInt`. -/
theorem ParseInt_formatInt (n : Int) (h : IsInt64 n) : ParseInt (formatInt n) = .ok n := by
  obtain ⟨hlo, hhi⟩ := h
  have hmin : minInt64 = -9223372036854775808 := by decide
  have hmax : maxInt64 = 9223372036854775807 := by decide
  have hu : maxUint64 = 18446744073709551615 := by decide
  rw [hmin] at hlo
  rw [hmax] at hhi
  unfold formatInt
  by_cases hneg : n < 0
  · simp only [hneg, if_true, ParseInt]
    simp only [show ('-' : Char) ≠ '+' by decide, if_false, if_true, parseIntSigned]
    rw [ParseUint_formatNat _ (by rw [hu]; omega)]
    have h1 : ¬ (n.natAbs > 2 ^ 63) := by omega
    simp only [h1, and_false, if_false, Bool.true_eq_false, false_and, if_true]
    congr 1
    omega
  · simp only [hneg, if_false]
    obtain ⟨c, cs, hc, hd⟩ := natDigits_head (n.natAbs + 1) n.natAbs (by omega)
    have hfn : formatNat n.natAbs = c :: cs := hc
    obtain ⟨hp, hm⟩ := isDigit_not_sign c hd
    unfold ParseInt
    rw [hfn]
    simp only [hp, hm, if_false, parseIntSigned]
    rw [← hfn, ParseUint_formatNat _ (by rw [hu]; omega)]
    have h1 : ¬ (n.natAbs ≥ 2 ^ 63) := by omega
    simp only [h1, and_false, if_false, Bool.false_eq_true, false_and]
    congr 1
    omega

theorem digitChar_zero : ∀ d, d < 10 → digitChar d = '0' → d = 0 := by
  decide

theorem natDigits_shape : ∀ (fuel n : Nat), n < fuel →
    ∃ c cs, natDigits fuel n = c :: cs ∧ isDigit c = true ∧ (∀ x ∈ cs, isDigit x = true) ∧
      (c = '0' → n = 0 ∧ cs = []) := by
  intro fuel
  induction fuel with
  | zero => intro n h; omega
  | succ fuel ih =>
    intro n h
    unfold natDigits
    by_cases h10 : n < 10
    · refine ⟨digitChar n, [], by simp [h10], (digitChar_spec n h10).1, by simp, fun h0 => ?_⟩
      exact ⟨digitChar_zero n h10 h0, rfl⟩
    · obtain ⟨c, cs, hc, hd, hcs, hz⟩ := ih (n / 10) (by omega)
      refine ⟨c, cs ++ [digitChar (n % 10)], by simp [h10, hc], hd, ?_, fun h0 => ?_⟩
      · intro x hx
        rcases List.mem_append.mp hx with hx | hx
        · exact hcs x hx
        · simp only [List.mem_singleton] at hx
          rw [hx]
          exact (digitChar_spec (n % 10) (Nat.mod_lt _ (by decide))).1
      · have := (hz h0).1
        omega

theorem dropWhile_digits (s : Text) (h : ∀ x ∈ s, isDigit x = true) :
    s.dropWhile isDigit = [] := by
  induction s with
  | nil => rfl
  | cons a s ih =>
    rw [List.dropWhile_cons, if_pos (h a (by simp))]
    exact ih (fun x hx => h x (by simp [hx]))

theorem numberBodyOK_formatNat (n : Nat) : numberBodyOK (formatNat n) = true := by
  obtain ⟨c, cs, hc, hd, hcs, hz⟩ := natDigits_shape (n + 1) n (by omega)
  have hf : formatNat n = c :: cs := hc
  rw [hf, numberBodyOK]
  by_cases h0 : c = '0'
  · rw [if_pos h0, (hz h0).2]
    rfl
  · rw [if_neg h0]
    have hr : 48 ≤ c.toNat ∧ c.toNat ≤ 57 := by simpa [isDigit] using hd
    have h48 : c.toNat ≠ 48 := by
      intro h
      apply h0
      rw [← Char.ofNat_toNat c, h]
    rw [if_pos (by omega), dropWhile_digits cs hcs]
    rfl

/-- The decimal form of an integer is a JSON number. -/
theorem isValidNumber_formatInt (n : Int) : isValidNumber (formatInt n) = true := by
  unfold formatInt
  by_cases hneg : n < 0
  · simp only [hneg, if_true, isValidNumber]
    exact numberBodyOK_formatNat _
  · simp only [hneg, if_false]
    obtain ⟨c, cs, hc, hd, _⟩ := natDigits_shape (n.natAbs + 1) n.natAbs (by omega)
    have hf : formatNat n.natAbs = c :: cs := hc
    have hm := (isDigit_not_sign c hd).2
    have := numberBodyOK_formatNat n.natAbs
    rw [hf] at this ⊢
    simp only [isValidNumber, hm, if_false]
    exact this

/-- C2. For every integer `n` representable in the platform `int`, decoding the native JSON
number `n` (its decimal digits, unquoted) as a `Price` returns no error and yields `n`. -/
theorem price_native_number_exact (n : Int) (h : IsInt64 n) :
    Price.UnmarshalJSON (.number (formatInt n)) = .ok n := by
  simp [Price.UnmarshalJSON, unmarshalInt, ParseInt_formatInt n h, isValidNumber_formatInt n]

/-- C2 (instance). The smallest 64-bit integer. -/
theorem price_native_number_exact_witness :
    IsInt64 (-9223372036854775808) ∧
      Price.UnmarshalJSON (.number (formatInt (-9223372036854775808))) =
        .ok (-9223372036854775808) :=
  ⟨by decide, price_native_number_exact (-9223372036854775808) (by decide)⟩

/-! ## Instances; row overflow (C5); empty username (C7) -/

/-- C1 (instance). A payload of 30 rows: 24 skills and 6 activities. -/
theorem hiscores_csv_splits_rows_by_index_witness :
    ∃ stats : PlayerStats,
      ((clientServing (renderRows ((List.range 30).map sampleRow))).Hiscores
          "zezima" ModeIronman FormatCSV).ret = .returned (some stats) none ∧
      stats.Skills.length = 24 ∧
      stats.Activities.length = ((List.range 30).map sampleRow).length - 24 ∧
      (∀ i, i < 24 → ∃ name v, skills[i]? = some name ∧
        ((List.range 30).map sampleVals)[i]? = some v ∧
        stats.Skills[i]? = some
          { Name := name, Rank := v.rank, Level := v.levelOrScore, Experience := v.third }) ∧
      (∀ j, j < ((List.range 30).map sampleRow).length - 24 → ∃ name v,
        activities[j]? = some name ∧
        ((List.range 30).map sampleVals)[24 + j]? = some v ∧
        stats.Activities[j]? = some { Name := name, Rank := v.rank, Score := v.levelOrScore }) :=
  hiscores_csv_splits_rows_by_index
    (clientServing (renderRows ((List.range 30).map sampleRow))) "zezima" ModeIronman
    ((List.range 30).map sampleRow) ((List.range 30).map sampleVals)
    (by decide) (fun _ => rfl) (by decide) (by decide) (by decide)

/-- C5 (failing input). On a payload of 104 well-formed rows the row at index 103 makes
`getActivityName(79)` index past the 79-entry table: the call panics instead of returning
an error. The same holds for the two lookups at their first out-of-range index. -/
theorem hiscores_csv_row_overflow_panics :
    ((clientServing (renderRows ((List.range 104).map sampleRow))).Hiscores
        "zezima" ModeRegular FormatCSV).ret = .panicked ∧
    getActivityName 79 = none ∧ getSkillName 24 = none := by
  refine ⟨?_, by decide, by decide⟩
  decide

/-- C6 (instance). Ten well-formed rows followed by a row whose second column is `x`. -/
theorem hiscores_csv_malformed_row_aborts_witness :
    ∃ e, ((clientServing (renderRows ((List.range 10).map sampleRow) ++ "7,x,9\n".toList)).Hiscores
      "zezima" ModeRegular FormatCSV).ret = .returned none (some e) :=
  hiscores_csv_malformed_row_aborts
    (clientServing (renderRows ((List.range 10).map sampleRow) ++ "7,x,9\n".toList))
    "zezima" ModeRegular (renderRows ((List.range 10).map sampleRow) ++ "7,x,9\n".toList) 10
    (by decide) (fun _ => rfl) (by decide)
    (by decide)

/-- C7. With the empty username `Hiscores` returns a nil result and a non-nil error, for
every mode and format, and hands no path to the transport. -/
theorem hiscores_empty_username (c : Client) (mode format : String) :
    (c.Hiscores "" mode format).ret = .returned none (some .usernameRequired) ∧
    (c.Hiscores "" mode format).requests = [] := by
  simp [Client.Hiscores]

/-! ## The two name tables (C10) -/

theorem nodup_getElem?_inj {α : Type} (l : List α) (h : l.Nodup) (i j : Nat)
    (hi : i < l.length) (hj : j < l.length) (he : l[i]? = l[j]?) : i = j := by
  rw [List.nodup_iff_getElem?_ne_getElem?] at h
  rcases Nat.lt_trichotomy i j with hlt | heq | hgt
  · exact absurd he (h i j hlt hj)
  · exact heq
  · exact absurd he.symm (h j i hgt hi)

theorem skills_nodup : skills.Nodup := by decide

theorem activities_nodup : activities.Nodup := by decide

/-- C10. Positional Record Mapper values: `getSkillName` enumerates the 24 fixed skill names
in order (row 0 is "Overall", row 23 is "Construction"); in a decoded payload the record of
row `i < 24` is named `getSkillName(i)` and the record of row `i ≥ 24` is named
`getActivityName(i - 24)`, row 24 being "League Points"; neither table repeats a name, so
the map from in-range index to name is injective within each table. -/
theorem positional_record_mapper_names (rows : List RowText) (vals : List RowVals)
    (hwf : List.Forall₂ RowText.Parses rows vals) (hhi : rows.length ≤ 103) :
    (List.range 24).map (fun i => getSkillName (i : Int)) =
      ["Overall", "Attack", "Defence", "Strength", "Hitpoints", "Ranged", "Prayer", "Magic",
       "Cooking", "Woodcutting", "Fletching", "Fishing", "Firemaking", "Crafting", "Smithing",
       "Mining", "Herblore", "Agility", "Thieving", "Slayer", "Farming", "Runecrafting",
       "Hunter", "Construction"].map some ∧
    getSkillName 0 = some "Overall" ∧ getSkillName 23 = some "Construction" ∧
    getActivityName (24 - 24) = some "League Points" ∧
    skills.Nodup ∧ activities.Nodup ∧
    (∀ i j : Nat, i < 24 → j < 24 → getSkillName i = getSkillName j → i = j) ∧
    (∀ i j : Nat, i < 79 → j < 79 → getActivityName i = getActivityName j → i = j) ∧
    ∃ stats : PlayerStats, decodeCSV (renderRows rows) = .returned (some stats) none ∧
      (∀ i : Nat, i < rows.length → i < 24 →
        (stats.Skills[i]?).map (fun s => s.Name) = getSkillName i) ∧
      (∀ i : Nat, i < rows.length → 24 ≤ i →
        (stats.Activities[i - 24]?).map (fun a => a.Name) = getActivityName ((i : Int) - 24)) := by
  have hl : rows.length = vals.length := hwf.length_eq
  refine ⟨by decide, by decide, by decide, by decide, skills_nodup, activities_nodup, ?_, ?_,
    expectedStats vals, decodeCSV_rows rows vals hwf hhi, ?_, ?_⟩
  · intro i j hi hj h
    simp only [getSkillName, index_natCast] at h
    exact nodup_getElem?_inj skills skills_nodup i j (by simpa [skills] using hi)
      (by simpa [skills] using hj) h
  · intro i j hi hj h
    simp only [getActivityName, index_natCast] at h
    exact nodup_getElem?_inj activities activities_nodup i j (by simpa [activities] using hi)
      (by simpa [activities] using hj) h
  · intro i hi h24
    obtain ⟨name, hn⟩ := getSkillName_lt i h24
    have h2 : i < vals.length := by omega
    rw [hn]
    rw [getSkillName, index_natCast] at hn
    rw [expectedStats_skill_at vals i name (vals.get ⟨i, h2⟩) h24 hn
      (by simp [List.getElem?_eq_getElem, h2])]
    rfl
  · intro i hi h24
    have hc : ((i : Int) - 24) = ((i - 24 : Nat) : Int) := by omega
    obtain ⟨name, hn⟩ := getActivityName_lt (i - 24) (by omega)
    have h2 : 24 + (i - 24) < vals.length := by omega
    rw [hc, hn]
    rw [getActivityName, index_natCast] at hn
    rw [expectedStats_activity_at vals (i - 24) name (vals.get ⟨24 + (i - 24), h2⟩) hn
      (by simp [List.getElem?_eq_getElem, h2])]
    rfl

/-- C10 (instance). A payload of 30 rows. -/
theorem positional_record_mapper_names_witness :
    ∃ stats : PlayerStats,
      decodeCSV (renderRows ((List.range 30).map sampleRow)) = .returned (some stats) none ∧
      (stats.Activities[24 - 24]?).map (fun a => a.Name) = some "League Points" := by
  obtain ⟨_, _, _, h0, _, _, _, _, stats, hs, _, ha⟩ :=
    positional_record_mapper_names ((List.range 30).map sampleRow)
      ((List.range 30).map sampleVals) (by decide) (by decide)
  exact ⟨stats, hs, by rw [← h0]; exact ha 24 (by decide) (by decide)⟩

/-! ## `ParseFloat` on decimal numerals -/

theorem isDigit_plain (c : Char) (h : isDigit c = true) :
    c ≠ '_' ∧ c ≠ '.' ∧ c ≠ '+' ∧ c ≠ '-' ∧ c ≠ 'x' ∧ c ≠ 'X' ∧ c ≠ 'i' ∧ c ≠ 'I' ∧
    c ≠ 'n' ∧ c ≠ 'N' ∧ lowerASCII c ≠ 'i' ∧ isSpace c = false ∧ c ≠ '%' := by
  have hr : 48 ≤ c.toNat ∧ c.toNat ≤ 57 := by simpa [isDigit] using h
  have ne : ∀ d : Char, (d.toNat < 48 ∨ 57 < d.toNat) → c ≠ d := by
    intro d hd hc
    subst hc
    omega
  refine ⟨ne _ (by decide), ne _ (by decide), ne _ (by decide), ne _ (by decide),
    ne _ (by decide), ne _ (by decide), ne _ (by decide), ne _ (by decide), ne _ (by decide),
    ne _ (by decide), ?_, ?_, ne _ (by decide)⟩
  · have h1 : ¬ (65 ≤ c.toNat ∧ c.toNat ≤ 90) := by omega
    simp only [lowerASCII, h1, if_false]
    exact ne _ (by decide)
  · simp only [isSpace]
    have e1 : (c.toNat == 0x20) = false := by simp; omega
    have e2 : (c.toNat == 0x85) = false := by simp; omega
    have e3 : (c.toNat == 0xA0) = false := by simp; omega
    have e4 : (c.toNat == 0x1680) = false := by simp; omega
    have e5 : (c.toNat == 0x2028) = false := by simp; omega
    have e6 : (c.toNat == 0x2029) = false := by simp; omega
    have e7 : (c.toNat == 0x202F) = false := by simp; omega
    have e8 : (c.toNat == 0x205F) = false := by simp; omega
    have e9 : (c.toNat == 0x3000) = false := by simp; omega
    have e10 : decide (c.toNat ≤ 13) = false := by simp; omega
    have e11 : decide (0x2000 ≤ c.toNat) = false := by simp; omega
    simp [e1, e2, e3, e4, e5, e6, e7, e8, e9, e10, e11]

theorem readMantissa_digits : ∀ (ds rest : Text) (st : Mantissa),
    (∀ c ∈ ds, isDigit c = true) →
    readMantissa false (ds ++ rest) st =
      readMantissa false rest
        { mant := ds.foldl (fun n c => n * 10 + digitVal c) st.mant,
          fracDigits := if st.sawdot then st.fracDigits + ds.length else st.fracDigits,
          sawdot := st.sawdot,
          sawdigits := st.sawdigits || !ds.isEmpty,
          underscores := st.underscores } := by
  intro ds
  induction ds with
  | nil =>
    intro rest st _
    cases st
    simp
  | cons a ds ih =>
    intro rest st h
    have ha := h a (by simp)
    obtain ⟨h1, h2, _⟩ := isDigit_plain a ha
    rw [List.cons_append, readMantissa]
    simp only [h1, h2, if_false, ha, if_true]
    rw [ih rest _ (fun c hc => h c (by simp [hc]))]
    congr 1
    cases hs : st.sawdot
    · simp [hs]
    · simp [hs]; omega

theorem readMantissa_decimal (d : DecimalLit) (h : d.WellFormed) :
    readMantissa false d.text ⟨0, 0, false, false, false⟩ =
      (⟨d.num, d.frac.length, d.point, true, false⟩, []) := by
  obtain ⟨hw, hf, hne, hp⟩ := h
  unfold DecimalLit.text DecimalLit.num digitsValue
  cases hpt : d.point with
  | false =>
    have hfr := hp hpt
    have hwn : d.whole ≠ [] := by simpa [hfr] using hne
    have hwe : d.whole.isEmpty = false := by
      cases hd : d.whole with
      | nil => exact absurd hd hwn
      | cons a t => rfl
    simp only [Bool.false_eq_true, if_false]
    rw [readMantissa_digits d.whole [] _ hw]
    simp [readMantissa, hfr, hwe]
  | true =>
    simp only [if_true]
    rw [readMantissa_digits d.whole _ _ hw]
    rw [readMantissa]
    simp only [show ('.' : Char) ≠ '_' by decide, if_false, if_true, Bool.false_eq_true]
    have := readMantissa_digits d.frac [] ⟨List.foldl (fun n c => n * 10 + digitVal c) 0 d.whole,
      0, true, false || !d.whole.isEmpty, false⟩ hf
    rw [List.append_nil] at this
    rw [this]
    have hsd : ((false || !d.whole.isEmpty) || !d.frac.isEmpty) = true := by
      cases hd : d.whole with
      | cons a t => simp
      | nil =>
        cases hd2 : d.frac with
        | cons a t => simp
        | nil => simp [hd, hd2] at hne
    simp [readMantissa, List.foldl_append]
    by_contra hcon
    push_neg at hcon
    exact hne (by simp [hcon.1, hcon.2])

theorem decimal_text_chars (d : DecimalLit) (h : d.WellFormed) :
    d.text ≠ [] ∧ ∀ c ∈ d.text, isDigit c = true ∨ c = '.' := by
  obtain ⟨hw, hf, hne, hp⟩ := h
  unfold DecimalLit.text
  constructor
  · cases hpt : d.point with
    | true => simp
    | false => simpa [hp hpt] using hne
  · intro c hc
    cases hpt : d.point with
    | true =>
      simp only [hpt, if_true, List.mem_append, List.mem_cons] at hc
      rcases hc with hc | hc | hc
      · exact Or.inl (hw c hc)
      · exact Or.inr hc
      · exact Or.inl (hf c hc)
    | false =>
      simp only [hpt, Bool.false_eq_true, if_false, List.append_nil] at hc
      exact Or.inl (hw c hc)

theorem decimalChar_plain (c : Char) (h : isDigit c = true ∨ c = '.') :
    c ≠ '+' ∧ c ≠ '-' ∧ c ≠ 'x' ∧ c ≠ 'X' ∧ c ≠ 'i' ∧ c ≠ 'I' ∧ c ≠ 'n' ∧ c ≠ 'N' ∧
    lowerASCII c ≠ 'i' ∧ isSpace c = false ∧ c ≠ '%' := by
  rcases h with h | h
  · obtain ⟨_, _, h3, h4, h5, h6, h7, h8, h9, h10, h11, h12, h13⟩ := isDigit_plain c h
    exact ⟨h3, h4, h5, h6, h7, h8, h9, h10, h11, h12, h13⟩
  · subst h
    decide

theorem hasHexMark_decimal (s : Text) (h : ∀ c ∈ s, isDigit c = true ∨ c = '.') :
    hasHexMark s = false := by
  match s, h with
  | [], _ => rfl
  | [_], _ => rfl
  | [_, _], _ => rfl
  | c0 :: c1 :: c2 :: t, h =>
    obtain ⟨_, _, h5, h6, _⟩ := decimalChar_plain c1 (h c1 (by simp))
    simp [hasHexMark, h5, h6]

theorem readFloatBody_decimal (neg : Bool) (d : DecimalLit) (h : d.WellFormed) :
    readFloatBody neg d.text = some ⟨neg, false, d.num, -(d.frac.length : Int), false, []⟩ := by
  unfold readFloatBody
  simp only [hasHexMark_decimal d.text (decimal_text_chars d h).2, Bool.false_eq_true, if_false]
  rw [readMantissa_decimal d h]
  simp

theorem roundScaled_decimal (neg : Bool) (d : DecimalLit) :
    roundScaled neg d.num 10 (-(d.frac.length : Int)) = d.float neg := by
  unfold roundScaled DecimalLit.float DecimalLit.den
  by_cases h0 : d.frac.length = 0
  · simp [h0]
  · have hneg : ¬ (0 : Int) ≤ -(d.frac.length : Int) := by omega
    simp only [hneg, if_false, Int.neg_neg, Int.toNat_ofNat]

/-- `ParseFloat` on an optionally signed decimal numeral: the nearest binary64 value, or a
range error when that is an infinity. -/
theorem ParseFloat_decimal (sign : Text) (neg : Bool) (d : DecimalLit) (h : d.WellFormed)
    (hsign : SignText sign neg) :
    ParseFloat (sign ++ d.text) =
      match d.float neg with
      | .finite n m e => .ok (.finite n m e)
      | _ => .error .errRange := by
  obtain ⟨hne, hch⟩ := decimal_text_chars d h
  obtain ⟨a, t, hat⟩ : ∃ a t, d.text = a :: t := by
    cases hd : d.text with
    | nil => exact absurd hd hne
    | cons a t => exact ⟨a, t, rfl⟩
  obtain ⟨p1, p2, _, _, p5, p6, p7, p8, p9, _, _⟩ := decimalChar_plain a (hch a (by simp [hat]))
  have hinf : ∀ b k, specialInf b k d.text = none := by
    intro b k
    simp [specialInf, hat, commonPrefixLenIgnoreCase, p9]
  have hrf : readFloat (sign ++ d.text) =
      some ⟨neg, false, d.num, -(d.frac.length : Int), false, []⟩ := by
    rcases hsign with ⟨hs, hn⟩ | ⟨hs, hn⟩ | ⟨hs, hn⟩
    · rw [hs, hn, List.nil_append, hat, readFloat]
      simp only [p1, p2, if_false]
      rw [← hat]; exact readFloatBody_decimal false d h
    · rw [hs, hn]; simp only [List.singleton_append, readFloat, if_true]
      exact readFloatBody_decimal false d h
    · rw [hs, hn]; simp only [List.singleton_append, readFloat, if_true,
        show ('-' : Char) ≠ '+' by decide, if_false]
      exact readFloatBody_decimal true d h
  have hsp : special (sign ++ d.text) = none := by
    rcases hsign with ⟨hs, _⟩ | ⟨hs, _⟩ | ⟨hs, _⟩
    · rw [hs, List.nil_append, hat, special]
      simp only [p1, p2, p5, p6, p7, p8, if_false, or_self]
    · rw [hs]; simp only [List.singleton_append, special, if_true]; exact hinf _ _
    · rw [hs]; simp only [List.singleton_append, special, if_true,
        show ('-' : Char) ≠ '+' by decide, if_false]; exact hinf _ _
  unfold ParseFloat
  rw [hsp, hrf]
  simp only [ne_eq, not_true_eq_false, if_false, Bool.false_eq_true, false_and]
  rw [roundScaled_decimal]

/-! ## Suffixes, truncation, exact integers and the rounding error -/

theorem HasSuffix_snoc (s : Text) (c x : Char) : HasSuffix (s ++ [c]) x = decide (c = x) := by
  by_cases h : c = x <;> simp [HasSuffix, h]

theorem TrimSuffix_snoc (s : Text) (c : Char) : TrimSuffix (s ++ [c]) c = s := by
  simp [TrimSuffix, HasSuffix_snoc]

theorem HasSuffix_of_not_mem (s : Text) (x : Char) (h : ∀ c ∈ s, c ≠ x) : HasSuffix s x = false := by
  unfold HasSuffix
  cases hl : s.getLast? with
  | none => simp
  | some c =>
    have hc : c ∈ s := List.mem_of_getLast?_eq_some hl
    simpa using h c hc

theorem TrimSuffix_of_not_mem (s : Text) (x : Char) (h : ∀ c ∈ s, c ≠ x) : TrimSuffix s x = s := by
  simp [TrimSuffix, HasSuffix_of_not_mem s x h]

theorem decimal_text_no_suffix (d : DecimalLit) (h : d.WellFormed) (x : Char)
    (hx : isDigit x = false ∧ x ≠ '.') : ∀ c ∈ d.text, c ≠ x := by
  intro c hc hcx
  subst hcx
  rcases (decimal_text_chars d h).2 c hc with h1 | h1
  · rw [hx.1] at h1; cases h1
  · exact hx.2 h1

theorem splitSuffix_decimal (d : DecimalLit) (suffix : Text) (mult : Nat) (h : d.WellFormed)
    (hsuf : SuffixMultiplier suffix mult) :
    splitSuffix (d.text ++ suffix) = (mult, d.text) := by
  have hk := decimal_text_no_suffix d h 'k' (by decide)
  have hm := decimal_text_no_suffix d h 'm' (by decide)
  have hb := decimal_text_no_suffix d h 'b' (by decide)
  rcases hsuf with ⟨hs, hmu⟩ | ⟨hs, hmu⟩ | ⟨hs, hmu⟩ | ⟨hs, hmu⟩
  · rw [hs, hmu, List.append_nil]
    simp [splitSuffix, HasSuffix_of_not_mem _ _ hk, HasSuffix_of_not_mem _ _ hm,
      HasSuffix_of_not_mem _ _ hb]
  · rw [hs, hmu]
    simp [splitSuffix, HasSuffix_snoc, TrimSuffix_snoc]
  · rw [hs, hmu]
    simp [splitSuffix, HasSuffix_snoc, TrimSuffix_snoc]
  · rw [hs, hmu]
    simp [splitSuffix, HasSuffix_snoc, TrimSuffix_snoc]

/-- The string branch of `Price.UnmarshalJSON`. -/
theorem Price_string (s : Text) :
    Price.UnmarshalJSON (.string s) =
      match ParseFloat (priceRemainder s) with
      | .error err => .error (.parse err)
      | .ok price => .ok (Float64.toInt (price.mul (Float64.ofNat (priceMultiplier s)))) := by
  simp only [Price.UnmarshalJSON, unmarshalInt, unmarshalString, priceRemainder,
    priceMultiplier, normalizePrice]

theorem roundToFloat64_sign (neg : Bool) (num den : Nat) :
    (∃ m e, roundToFloat64 neg num den = .finite neg m e) ∨
      roundToFloat64 neg num den = .inf neg := by
  unfold roundToFloat64
  split
  · exact Or.inl ⟨_, _, rfl⟩
  · simp only
    split
    · split
      · exact Or.inr rfl
      · exact Or.inl ⟨_, _, rfl⟩
    · split
      · exact Or.inr rfl
      · exact Or.inl ⟨_, _, rfl⟩

theorem roundScaled_sign (neg : Bool) (mant base : Nat) (exp : Int) :
    (∃ m e, roundScaled neg mant base exp = .finite neg m e) ∨
      roundScaled neg mant base exp = .inf neg := by
  unfold roundScaled
  split <;> exact roundToFloat64_sign _ _ _

theorem Float64.toRat_nonneg (m : Nat) (e : Int) : (0 : ℚ) ≤ (m : ℚ) * (2 : ℚ) ^ e := by
  positivity

/-- The integer part computed by `truncate` is the exact value rounded toward zero. -/
theorem Float64.truncate_spec (x : Float64) (q : ℚ) (h : x.toRat = some q) :
    x.truncate = some (truncRat q) := by
  cases x with
  | inf n => simp [Float64.toRat] at h
  | nan => simp [Float64.toRat] at h
  | finite neg m e =>
    simp only [Float64.toRat, Option.some.injEq] at h
    simp only [Float64.truncate, Option.some.injEq]
    have hmag : (⌊(m : ℚ) * (2 : ℚ) ^ e⌋ : Int) =
        ((if 0 ≤ e then m * 2 ^ e.toNat else m / 2 ^ (-e).toNat : Nat) : Int) := by
      by_cases he : 0 ≤ e
      · obtain ⟨k, rfl⟩ := Int.eq_ofNat_of_zero_le he
        simp only [he, if_true, Int.toNat_ofNat, zpow_natCast]
        have : ((m : ℚ) * (2 : ℚ) ^ k) = (((m * 2 ^ k : Nat) : Int) : ℚ) := by push_cast; ring
        rw [this, Int.floor_intCast]
      · have hk : e = -((-e).toNat : Int) := by omega
        simp only [he, if_false]
        generalize (-e).toNat = k at hk
        subst hk
        rw [zpow_neg, zpow_natCast]
        have : ((m : ℚ) * ((2 : ℚ) ^ k)⁻¹) = (((m : Int) : ℚ)) / (((2 ^ k : Nat)) : ℚ) := by
          push_cast; field_simp
        rw [this, Rat.floor_intCast_div_natCast]
        push_cast
        rfl
    have hnn := Float64.toRat_nonneg m e
    cases neg with
    | false =>
      simp only [Bool.false_eq_true, if_false, one_mul] at h ⊢
      rw [← h, truncRat, if_pos hnn, hmag]
    | true =>
      simp only [if_true] at h ⊢
      have hq : q = -((m : ℚ) * (2 : ℚ) ^ e) := by rw [← h]; ring
      rw [hq, truncRat]
      by_cases hz : (m : ℚ) * (2 : ℚ) ^ e = 0
      · rw [hz] at hmag
        simp only [Int.floor_zero] at hmag
        simp [hz, ← hmag]
      · have hpos : 0 < (m : ℚ) * (2 : ℚ) ^ e := lt_of_le_of_ne hnn (Ne.symm hz)
        have hng : ¬ (0 : ℚ) ≤ -((m : ℚ) * (2 : ℚ) ^ e) := by linarith
        rw [if_neg hng, Int.ceil_neg, hmag]

theorem Float64.toInt_spec (x : Float64) (q : ℚ) (h : x.toRat = some q)
    (hr : IsInt64 (truncRat q)) : x.toInt = truncRat q := by
  unfold Float64.toInt
  rw [Float64.truncate_spec x q h]
  simp only
  exact if_pos hr

theorem log2Loop_spec : ∀ (fuel n : Nat), n ≤ fuel → 0 < n →
    2 ^ log2Loop fuel n ≤ n ∧ n < 2 ^ (log2Loop fuel n + 1) := by
  intro fuel
  induction fuel with
  | zero => intro n h h0; omega
  | succ fuel ih =>
    intro n h h0
    unfold log2Loop
    by_cases h2 : n < 2
    · simp only [h2, if_true]
      constructor <;> simp <;> omega
    · simp only [h2, if_false]
      obtain ⟨ih1, ih2⟩ := ih (n / 2) (by omega) (by omega)
      rw [pow_succ] at ih2
      constructor
      · rw [pow_succ]; omega
      · rw [pow_succ, pow_succ]; omega

theorem log2_spec (n : Nat) (h : 0 < n) : 2 ^ log2 n ≤ n ∧ n < 2 ^ (log2 n + 1) :=
  log2Loop_spec n n (Nat.le_refl n) h

theorem log2_unique (n k : Nat) (h1 : 2 ^ k ≤ n) (h2 : n < 2 ^ (k + 1)) : log2 n = k := by
  have h0 : 0 < n := lt_of_lt_of_le (Nat.two_pow_pos _) h1
  obtain ⟨s1, s2⟩ := log2_spec n h0
  have a : log2 n < k + 1 := (Nat.pow_lt_pow_iff_right (by decide)).mp (lt_of_le_of_lt s1 h2)
  have b : k < log2 n + 1 := (Nat.pow_lt_pow_iff_right (by decide)).mp (lt_of_le_of_lt h1 s2)
  omega

theorem log2_mul_pow (n j : Nat) (h : 0 < n) : log2 (n * 2 ^ j) = log2 n + j := by
  obtain ⟨s1, s2⟩ := log2_spec n h
  apply log2_unique
  · rw [pow_add]; exact Nat.mul_le_mul_right _ s1
  · rw [show log2 n + j + 1 = (log2 n + 1) + j by omega, pow_add]
    exact Nat.mul_lt_mul_of_pos_right s2 (Nat.two_pow_pos _)

theorem log2_pow (j : Nat) : log2 (2 ^ j) = j :=
  log2_unique _ _ (Nat.le_refl _) (Nat.pow_lt_pow_right (by decide) (by omega))

theorem roundHalfEven_mul (a d : Nat) (h : 0 < d) : roundHalfEven (a * d) d = a := by
  unfold roundHalfEven
  simp [Nat.mul_mod_left, h, Nat.mul_div_cancel _ h]

/-- A positive integer below `2^53`, given as the fraction `n * 2^j / 2^j`, is rounded to
itself: binary64 represents it exactly. -/
theorem roundToFloat64_exact (neg : Bool) (n j : Nat) (h0 : 0 < n) (h53 : n < 2 ^ 53) :
    roundToFloat64 neg (n * 2 ^ j) (2 ^ j) =
      .finite neg (n * 2 ^ (52 - log2 n)) ((log2 n : Int) - 52) := by
  obtain ⟨s1, s2⟩ := log2_spec n h0
  have hl : log2 n ≤ 52 := by
    have : log2 n < 53 := (Nat.pow_lt_pow_iff_right (by decide)).mp (lt_of_le_of_lt s1 h53)
    omega
  have hpj : 0 < 2 ^ j := Nat.two_pow_pos _
  have hne : n * 2 ^ j ≠ 0 := Nat.ne_of_gt (Nat.mul_pos h0 hpj)
  have hulp : ulpExponent (n * 2 ^ j) (2 ^ j) = (log2 n : Int) - 52 := by
    unfold ulpExponent
    rw [log2_mul_pow n j h0, log2_pow]
    have hc : ((log2 n + j : Nat) : Int) - (j : Int) = (log2 n : Int) := by omega
    simp only [hc]
    have hp : pow2Le (log2 n : Int) (n * 2 ^ j) (2 ^ j) = true := by
      unfold pow2Le
      simp only [Int.natCast_nonneg, if_true, Int.toNat_ofNat, decide_eq_true_eq]
      rw [Nat.mul_comm]; exact Nat.mul_le_mul_right _ s1
    simp only [hp, if_true]
    have : ¬ ((log2 n : Int) - 52 < -1074) := by omega
    simp only [this, if_false]
  have hm : scaleRound (n * 2 ^ j) (2 ^ j) ((log2 n : Int) - 52) = n * 2 ^ (52 - log2 n) := by
    unfold scaleRound
    by_cases he : (0 : Int) ≤ (log2 n : Int) - 52
    · have h52 : log2 n = 52 := by omega
      simp only [he, if_true, h52]
      simp only [Nat.cast_ofNat, sub_self, Int.toNat_zero, pow_zero, mul_one, Nat.sub_self]
      exact roundHalfEven_mul n (2 ^ j) hpj
    · simp only [he, if_false]
      have hk : (-((log2 n : Int) - 52)).toNat = 52 - log2 n := by omega
      rw [hk]
      have : n * 2 ^ j * 2 ^ (52 - log2 n) = (n * 2 ^ (52 - log2 n)) * 2 ^ j := by ring
      rw [this]
      exact roundHalfEven_mul _ (2 ^ j) hpj
  have hlt : n * 2 ^ (52 - log2 n) < 2 ^ 53 := by
    have : n * 2 ^ (52 - log2 n) < 2 ^ (log2 n + 1) * 2 ^ (52 - log2 n) :=
      Nat.mul_lt_mul_of_pos_right s2 (Nat.two_pow_pos _)
    rw [← pow_add, show log2 n + 1 + (52 - log2 n) = 53 by omega] at this
    exact this
  unfold roundToFloat64
  simp only [hne, if_false, hulp, hm]
  have h1 : ¬ (n * 2 ^ (52 - log2 n) = 2 ^ 53) := Nat.ne_of_lt hlt
  have h2 : ¬ ((log2 n : Int) - 52 > 971) := by omega
  simp only [h1, h2, if_false]

theorem Float64.ofNat_exact (n : Nat) (h0 : 0 < n) (h53 : n < 2 ^ 53) :
    Float64.ofNat n = .finite false (n * 2 ^ (52 - log2 n)) ((log2 n : Int) - 52) := by
  have := roundToFloat64_exact false n 0 h0 h53
  simpa [Float64.ofNat] using this

/-- The float64 product of two positive integers is their product when that is below
`2^53`. -/
theorem Float64.mul_exact (neg : Bool) (a b : Nat) (ha : 0 < a) (hb : 0 < b)
    (hab : a * b < 2 ^ 53) :
    Float64.mul (.finite neg (a * 2 ^ (52 - log2 a)) ((log2 a : Int) - 52)) (Float64.ofNat b) =
      .finite neg ((a * b) * 2 ^ (52 - log2 (a * b))) ((log2 (a * b) : Int) - 52) := by
  have ha53 : a < 2 ^ 53 := lt_of_le_of_lt (Nat.le_mul_of_pos_right a hb) hab
  have hb53 : b < 2 ^ 53 := lt_of_le_of_lt (Nat.le_mul_of_pos_left b ha) hab
  have hla : log2 a ≤ 52 := by
    have : log2 a < 53 :=
      (Nat.pow_lt_pow_iff_right (by decide)).mp (lt_of_le_of_lt (log2_spec a ha).1 ha53)
    omega
  have hlb : log2 b ≤ 52 := by
    have : log2 b < 53 :=
      (Nat.pow_lt_pow_iff_right (by decide)).mp (lt_of_le_of_lt (log2_spec b hb).1 hb53)
    omega
  rw [Float64.ofNat_exact b hb hb53, Float64.mul]
  simp only [bne_self_eq_false, Bool.bne_false]
  have he : ((log2 a : Int) - 52) + ((log2 b : Int) - 52) =
      -(((52 - log2 a) + (52 - log2 b) : Nat) : Int) := by omega
  rw [he]
  have hnum : a * 2 ^ (52 - log2 a) * (b * 2 ^ (52 - log2 b)) =
      (a * b) * 2 ^ ((52 - log2 a) + (52 - log2 b)) := by rw [pow_add]; ring
  rw [hnum]
  unfold roundScaled
  by_cases hz : (52 - log2 a) + (52 - log2 b) = 0
  · simp only [hz, Nat.cast_zero, neg_zero, le_refl, if_true, Int.toNat_zero, pow_zero, mul_one]
    have := roundToFloat64_exact neg (a * b) 0 (Nat.mul_pos ha hb) hab
    simpa using this
  · have hneg : ¬ ((0 : Int) ≤ -(((52 - log2 a) + (52 - log2 b) : Nat) : Int)) := by omega
    simp only [hneg, if_false, Int.neg_neg, Int.toNat_ofNat]
    exact roundToFloat64_exact neg (a * b) _ (Nat.mul_pos ha hb) hab

theorem Float64.toInt_exact (neg : Bool) (n : Nat) (h0 : 0 < n) (h53 : n < 2 ^ 53) :
    Float64.toInt (.finite neg (n * 2 ^ (52 - log2 n)) ((log2 n : Int) - 52)) =
      if neg then -(n : Int) else (n : Int) := by
  obtain ⟨s1, s2⟩ := log2_spec n h0
  have hl : log2 n ≤ 52 := by
    have : log2 n < 53 := (Nat.pow_lt_pow_iff_right (by decide)).mp (lt_of_le_of_lt s1 h53)
    omega
  have hmag : (if (0 : Int) ≤ (log2 n : Int) - 52
      then n * 2 ^ (52 - log2 n) * 2 ^ ((log2 n : Int) - 52).toNat
      else n * 2 ^ (52 - log2 n) / 2 ^ (-((log2 n : Int) - 52)).toNat) = n := by
    by_cases he : (0 : Int) ≤ (log2 n : Int) - 52
    · have h52 : log2 n = 52 := by omega
      simp [he, h52]
    · have hk : (-((log2 n : Int) - 52)).toNat = 52 - log2 n := by omega
      simp only [he, if_false, hk]
      exact Nat.mul_div_cancel _ (Nat.two_pow_pos _)
  unfold Float64.toInt Float64.truncate
  simp only [hmag]
  have hmin : minInt64 = -9223372036854775808 := by decide
  have hmax : maxInt64 = 9223372036854775807 := by decide
  have h53' : n < 9007199254740992 := by simpa using h53
  cases neg with
  | false =>
    simp only [Bool.false_eq_true, if_false, hmin, hmax]
    rw [if_pos (by omega)]
  | true =>
    simp only [if_true, hmin, hmax]
    rw [if_pos (by omega)]

theorem roundHalfEven_near (num den : Nat) (hd : 0 < den) :
    2 * den * roundHalfEven num den ≤ 2 * num + den ∧
    2 * num ≤ 2 * den * roundHalfEven num den + den := by
  have hdm := Nat.div_add_mod num den
  have hlt := Nat.mod_lt num hd
  generalize hq : num / den = q at hdm
  generalize hr : num % den = r at hdm hlt
  have hqd : 2 * den * q = 2 * (den * q) := by ring
  have hqd1 : 2 * den * (q + 1) = 2 * (den * q) + 2 * den := by ring
  unfold roundHalfEven
  rw [hq, hr]
  split
  · rw [hqd]; omega
  · split
    · rw [hqd1]; omega
    · split
      · rw [hqd]; omega
      · rw [hqd1]; omega

theorem roundHalfEven_near_rat (num den : Nat) (hd : 0 < den) :
    |(num : ℚ) / (den : ℚ) - (roundHalfEven num den : ℚ)| ≤ 1 / 2 := by
  obtain ⟨h1, h2⟩ := roundHalfEven_near num den hd
  have hd' : (0 : ℚ) < (den : ℚ) := by exact_mod_cast hd
  have h1' : (2 : ℚ) * den * (roundHalfEven num den : ℚ) ≤ 2 * num + den := by exact_mod_cast h1
  have h2' : (2 : ℚ) * num ≤ 2 * den * (roundHalfEven num den : ℚ) + den := by exact_mod_cast h2
  rw [abs_le]
  constructor
  · rw [le_sub_iff_add_le, le_div_iff₀ hd']
    nlinarith
  · rw [sub_le_iff_le_add, div_le_iff₀ hd']
    nlinarith

theorem scaleRound_near (num den : Nat) (e : Int) (hd : 0 < den) :
    |(num : ℚ) / (den : ℚ) - (scaleRound num den e : ℚ) * (2 : ℚ) ^ e| ≤ (2 : ℚ) ^ e / 2 := by
  have hp : (0 : ℚ) < (2 : ℚ) ^ e := by positivity
  unfold scaleRound
  by_cases he : 0 ≤ e
  · obtain ⟨k, rfl⟩ := Int.eq_ofNat_of_zero_le he
    simp only [he, if_true, Int.toNat_ofNat, zpow_natCast]
    have hk : (0 : ℚ) < (2 : ℚ) ^ k := by positivity
    have h := roundHalfEven_near_rat num (den * 2 ^ k) (Nat.mul_pos hd (Nat.two_pow_pos k))
    push_cast at h
    have key : (num : ℚ) / (den : ℚ) - (roundHalfEven num (den * 2 ^ k) : ℚ) * (2 : ℚ) ^ k =
        ((num : ℚ) / ((den : ℚ) * (2 : ℚ) ^ k) - (roundHalfEven num (den * 2 ^ k) : ℚ)) *
          (2 : ℚ) ^ k := by
      have hd' : (den : ℚ) ≠ 0 := by exact_mod_cast Nat.ne_of_gt hd
      field_simp
      ring
    rw [key, abs_mul, abs_of_pos hk]
    calc |(num : ℚ) / ((den : ℚ) * (2 : ℚ) ^ k) - (roundHalfEven num (den * 2 ^ k) : ℚ)| *
          (2 : ℚ) ^ k ≤ 1 / 2 * (2 : ℚ) ^ k := mul_le_mul_of_nonneg_right h (le_of_lt hk)
      _ = (2 : ℚ) ^ k / 2 := by ring
  · have hke : e = -((-e).toNat : Int) := by omega
    simp only [he, if_false]
    generalize (-e).toNat = k at hke
    subst hke
    rw [zpow_neg, zpow_natCast]
    have hk : (0 : ℚ) < (2 : ℚ) ^ k := by positivity
    have h := roundHalfEven_near_rat (num * 2 ^ k) den hd
    push_cast at h
    have key : (num : ℚ) / (den : ℚ) - (roundHalfEven (num * 2 ^ k) den : ℚ) * ((2 : ℚ) ^ k)⁻¹ =
        ((num : ℚ) * (2 : ℚ) ^ k / (den : ℚ) - (roundHalfEven (num * 2 ^ k) den : ℚ)) *
          ((2 : ℚ) ^ k)⁻¹ := by
      have hd' : (den : ℚ) ≠ 0 := by exact_mod_cast Nat.ne_of_gt hd
      field_simp
    rw [key, abs_mul, abs_of_pos (inv_pos.mpr hk)]
    calc |(num : ℚ) * (2 : ℚ) ^ k / (den : ℚ) - (roundHalfEven (num * 2 ^ k) den : ℚ)| *
          ((2 : ℚ) ^ k)⁻¹ ≤ 1 / 2 * ((2 : ℚ) ^ k)⁻¹ :=
            mul_le_mul_of_nonneg_right h (le_of_lt (inv_pos.mpr hk))
      _ = ((2 : ℚ) ^ k)⁻¹ / 2 := by ring

/-- The rounding error of `roundToFloat64` is at most half a unit in the last place of the
result, and the result has the sign asked for. -/
theorem roundToFloat64_half_ulp (neg n : Bool) (num den m : Nat) (e : Int) (hd : 0 < den)
    (h : roundToFloat64 neg num den = .finite n m e) :
    n = neg ∧ |(num : ℚ) / (den : ℚ) - (m : ℚ) * (2 : ℚ) ^ e| ≤ (2 : ℚ) ^ e / 2 := by
  unfold roundToFloat64 at h
  split at h
  · rename_i h0
    simp only [Float64.finite.injEq] at h
    obtain ⟨h1, h2, h3⟩ := h
    refine ⟨h1.symm, ?_⟩
    rw [h0, ← h2]
    simp only [Nat.cast_zero, zero_div, zero_mul, sub_zero, abs_zero]
    positivity
  · simp only at h
    have hnear := scaleRound_near num den (ulpExponent num den) hd
    split at h
    · rename_i hm
      split at h
      · cases h
      · simp only [Float64.finite.injEq] at h
        obtain ⟨h1, h2, h3⟩ := h
        refine ⟨h1.symm, ?_⟩
        rw [hm] at hnear
        rw [← h2, ← h3]
        have e1 : ((2 ^ 52 : Nat) : ℚ) * (2 : ℚ) ^ (ulpExponent num den + 1) =
            ((2 ^ 53 : Nat) : ℚ) * (2 : ℚ) ^ (ulpExponent num den) := by
          rw [zpow_add₀ (by norm_num : (2 : ℚ) ≠ 0)]
          push_cast
          ring
        rw [e1]
        refine le_trans hnear ?_
        rw [zpow_add₀ (by norm_num : (2 : ℚ) ≠ 0)]
        have : (0 : ℚ) < (2 : ℚ) ^ (ulpExponent num den) := by positivity
        simp only [zpow_one]
        linarith
    · split at h
      · cases h
      · simp only [Float64.finite.injEq] at h
        obtain ⟨h1, h2, h3⟩ := h
        refine ⟨h1.symm, ?_⟩
        rw [← h2, ← h3]
        exact hnear

/-! ## The price string grammar (C3) -/

theorem Price_product_nonneg (x : Float64) (mult : Nat) (q : ℚ)
    (hx : ∃ m e, x = .finite false m e)
    (hq : (x.mul (Float64.ofNat mult)).toRat = some q) : 0 ≤ q := by
  obtain ⟨m, e, rfl⟩ := hx
  have hfin : ∀ y : Float64, ((∃ m e, y = .finite false m e) ∨ y = .inf false) →
      y.toRat = some q → 0 ≤ q := by
    intro y hy hyq
    rcases hy with ⟨m2, e2, rfl⟩ | rfl
    · simp only [Float64.toRat, Bool.false_eq_true, if_false, one_mul, Option.some.injEq] at hyq
      rw [← hyq]; exact Float64.toRat_nonneg m2 e2
    · simp [Float64.toRat] at hyq
  rcases roundToFloat64_sign false mult 1 with ⟨m2, e2, h2⟩ | h2
  · rw [Float64.ofNat, h2, Float64.mul] at hq
    exact hfin _ (roundScaled_sign (false != false) _ _ _) hq
  · rw [Float64.ofNat, h2, Float64.mul] at hq
    split at hq
    · simp [Float64.toRat] at hq
    · simp [Float64.toRat] at hq

/-- The string path does not return the integer part of `d × mult` throughout: the string
`1.001k` is the decimal 1.001 followed by `k`; the integer part of 1.001 × 1000 is 1001, but
the decoded Price is 1000. -/
theorem price_string_grammar_counterexample :
    ¬ ∀ (s : Text) (d : DecimalLit) (suffix : Text) (mult : Nat),
        d.WellFormed → SuffixMultiplier suffix mult → normalizePrice s = d.text ++ suffix →
        Price.UnmarshalJSON (.string s) = .ok ⌊d.value * (mult : ℚ)⌋ := by
  intro h
  have h1 := h "1.001k".toList ⟨"1".toList, true, "001".toList⟩ ['k'] 1000
    (by decide) (by decide) (by decide)
  have h2 : Price.UnmarshalJSON (.string "1.001k".toList) = .ok 1000 := by decide
  have h3 : (⟨"1".toList, true, "001".toList⟩ : DecimalLit).value = 1001 / 1000 := by
    have hn : (⟨"1".toList, true, "001".toList⟩ : DecimalLit).num = 1001 := by decide
    have hd : (⟨"1".toList, true, "001".toList⟩ : DecimalLit).den = 1000 := by decide
    rw [DecimalLit.value, hn, hd]
    norm_num
  rw [h2, h3] at h1
  have h4 : ⌊(1001 / 1000 : ℚ) * ((1000 : Nat) : ℚ)⌋ = 1001 := by
    rw [Int.floor_eq_iff]; norm_num
  rw [h4] at h1
  exact absurd h1 (by decide)

/-- What the string path computes. For a JSON string whose text, after removing spaces and
commas and lower-casing, is a non-negative decimal numeral `d` followed by at most one suffix
`k`, `m` or `b`: the decode is a range error when `d` is beyond the largest finite float64, and
otherwise it succeeds with the Go conversion `int(x * mult)` of the float64 product of the
float64 nearest to `d` and the multiplier; that product is non-negative and, when below
`2^63`, the result is its integer part. When `d` is an integer numeral and `d × mult` is
below `2^53` the result is exactly `d × mult`. The five examples of the specification
hold. -/
theorem price_string_grammar (s : Text) (d : DecimalLit) (suffix : Text) (mult : Nat)
    (hwf : d.WellFormed) (hsuf : SuffixMultiplier suffix mult)
    (hs : normalizePrice s = d.text ++ suffix) :
    (¬ (d.float false).IsFinite →
      Price.UnmarshalJSON (.string s) = .error (.parse .errRange)) ∧
    ((d.float false).IsFinite →
      Price.UnmarshalJSON (.string s) =
        .ok (((d.float false).mul (Float64.ofNat mult)).toInt) ∧
      ∀ q : ℚ, ((d.float false).mul (Float64.ofNat mult)).toRat = some q →
        0 ≤ q ∧ (q < 2 ^ 63 → ((d.float false).mul (Float64.ofNat mult)).toInt = ⌊q⌋)) ∧
    (d.frac = [] → d.num * mult < 2 ^ 53 →
      Price.UnmarshalJSON (.string s) = .ok ((d.num * mult : Nat) : Int)) ∧
    Price.UnmarshalJSON (.string "1,234".toList) = .ok 1234 ∧
    Price.UnmarshalJSON (.string "2k".toList) = .ok 2000 ∧
    Price.UnmarshalJSON (.string "1.5m".toList) = .ok 1500000 ∧
    Price.UnmarshalJSON (.string "3B".toList) = .ok 3000000000 ∧
    Price.UnmarshalJSON (.string "2 k".toList) = .ok 2000 := by
  have hsplit := splitSuffix_decimal d suffix mult hwf hsuf
  have hrem : priceRemainder s = d.text := by rw [priceRemainder, hs, hsplit]
  have hmul : priceMultiplier s = mult := by rw [priceMultiplier, hs, hsplit]
  have hpf := ParseFloat_decimal [] false d hwf (Or.inl ⟨rfl, rfl⟩)
  rw [List.nil_append] at hpf
  refine ⟨?_, ?_, ?_, by decide, by decide, by decide, by decide, by decide⟩
  · intro hnf
    rw [Price_string, hrem, hpf]
    cases hf : d.float false with
    | finite n m e => rw [hf] at hnf; exact absurd trivial hnf
    | inf n => rfl
    | nan => rfl
  · intro hfin
    have hsign : ∃ m e, d.float false = .finite false m e := by
      rcases roundToFloat64_sign false d.num d.den with h | h
      · exact h
      · rw [DecimalLit.float, h] at hfin; exact absurd hfin (by simp [Float64.IsFinite])
    obtain ⟨m, e, hme⟩ := hsign
    refine ⟨?_, ?_⟩
    · rw [Price_string, hrem, hpf, hmul, hme]
    · intro q hq
      have hnn : 0 ≤ q := Price_product_nonneg _ mult q ⟨m, e, hme⟩ hq
      refine ⟨hnn, fun hlt => ?_⟩
      have htr : truncRat q = ⌊q⌋ := by rw [truncRat, if_pos hnn]
      rw [← htr]
      apply Float64.toInt_spec _ q hq
      rw [htr]
      constructor
      · have : (0 : Int) ≤ ⌊q⌋ := Int.floor_nonneg.mpr hnn
        have hmin : minInt64 = -9223372036854775808 := by decide
        rw [hmin]; omega
      · have h1 : ⌊q⌋ < (2 : Int) ^ 63 := by
          rw [Int.floor_lt]; exact_mod_cast hlt
        have hmax : maxInt64 = 9223372036854775807 := by decide
        rw [hmax]
        have : (2 : Int) ^ 63 = 9223372036854775808 := by norm_num
        omega
  · intro hfrac hlt
    have hmpos : 0 < mult := by
      rcases hsuf with ⟨_, h⟩ | ⟨_, h⟩ | ⟨_, h⟩ | ⟨_, h⟩ <;> (rw [h]; decide)
    have hden : d.den = 1 := by simp [DecimalLit.den, hfrac]
    rw [Price_string, hrem, hpf, hmul, DecimalLit.float, hden]
    by_cases hz : d.num = 0
    · rw [hz]
      rcases hsuf with ⟨_, h⟩ | ⟨_, h⟩ | ⟨_, h⟩ | ⟨_, h⟩ <;> (rw [h]; decide)
    · have hpos : 0 < d.num := Nat.pos_of_ne_zero hz
      have h53 : d.num < 2 ^ 53 := lt_of_le_of_lt (Nat.le_mul_of_pos_right _ hmpos) hlt
      have hx := roundToFloat64_exact false d.num 0 hpos h53
      simp only [pow_zero, mul_one] at hx
      rw [hx]
      simp only
      rw [Float64.mul_exact false d.num mult hpos hmpos hlt,
        Float64.toInt_exact false (d.num * mult) (Nat.mul_pos hpos hmpos) hlt]
      simp

/-- The string ` 12,345.5 K`, the numeral 12345.5 with suffix `k`, decodes to 12345500. -/
theorem price_string_grammar_witness :
    Price.UnmarshalJSON (.string " 12,345.5 K".toList) = .ok 12345500 := by
  have h := (price_string_grammar " 12,345.5 K".toList ⟨"12345".toList, true, "5".toList⟩
    ['k'] 1000 (by decide) (by decide) (by decide)).2.1 (by decide)
  rw [h.1]
  decide

/-- C3 (failing input). The string `4.1m` is the decimal 4.1 followed by `m`, and the integer
part of 4.1 × 1000000 is 4100000; the decoded Price is 4099999, because the scaling is done
in float64 and the product 4099999.9999999995 is truncated. Likewise `8.2m` gives 8199999,
`32.3k` gives 32299 and `1.001k` gives 1000. -/
theorem price_string_scaling_off_by_one :
    Price.UnmarshalJSON (.string "4.1m".toList) = .ok 4099999 ∧
    ((⟨"4".toList, true, "1".toList⟩ : DecimalLit).WellFormed ∧
      SuffixMultiplier ['m'] 1000000 ∧
      normalizePrice "4.1m".toList =
        (⟨"4".toList, true, "1".toList⟩ : DecimalLit).text ++ ['m'] ∧
      ⌊(⟨"4".toList, true, "1".toList⟩ : DecimalLit).value * ((1000000 : Nat) : ℚ)⌋ =
        4100000) ∧
    Price.UnmarshalJSON (.string "8.2m".toList) = .ok 8199999 ∧
    Price.UnmarshalJSON (.string "32.3k".toList) = .ok 32299 ∧
    Price.UnmarshalJSON (.string "1.001k".toList) = .ok 1000 := by
  have hv : (⟨"4".toList, true, "1".toList⟩ : DecimalLit).value = 41 / 10 := by
    have hn : (⟨"4".toList, true, "1".toList⟩ : DecimalLit).num = 41 := by decide
    have hd : (⟨"4".toList, true, "1".toList⟩ : DecimalLit).den = 10 := by decide
    rw [DecimalLit.value, hn, hd]
    norm_num
  have hfl : ⌊(41 / 10 : ℚ) * ((1000000 : Nat) : ℚ)⌋ = 4100000 := by
    rw [Int.floor_eq_iff]; norm_num
  refine ⟨by decide, ⟨by decide, by decide, by decide, ?_⟩, by decide, by decide, by decide⟩
  rw [hv, hfl]

/-! ## Price failures (C8) and rounding (C9) -/

/-- C8 (as stated, refuted). `null` is neither a native number nor a string, yet
`Price.UnmarshalJSON` returns no error on it: the first `json.Unmarshal` leaves the integer
at zero and reports success. -/
theorem price_failure_condition_counterexample :
    Price.UnmarshalJSON .null = .ok 0 ∧ ¬ ∃ e, Price.UnmarshalJSON .null = .error e := by
  constructor
  · rfl
  · rintro ⟨e, h⟩
    cases h

/-- C8 (amended). `Price.UnmarshalJSON` returns an error exactly on: a boolean, an array, an
object; a native number whose literal is not accepted by `ParseInt(lit, 10, 64)` (a
fraction, an exponent, a value outside the 64-bit range) or is not a JSON number at all; a string whose remainder is
rejected by `ParseFloat` (a syntax error such as `abc`, or a range error such as `1e309`).
`null` decodes to 0 without error. -/
theorem price_failure_condition (j : JSON) :
    ((∃ e, Price.UnmarshalJSON j = .error e) ↔ PriceRejects j) ∧
    Price.UnmarshalJSON .null = .ok 0 ∧
    Price.UnmarshalJSON (.string "abc".toList) = .error (.parse .errSyntax) ∧
    Price.UnmarshalJSON (.string "1e309".toList) = .error (.parse .errRange) ∧
    Price.UnmarshalJSON (.number "1.5".toList) = .error (.unmarshal .typeError) ∧
    Price.UnmarshalJSON (.number "9223372036854775808".toList) =
      .error (.unmarshal .typeError) := by
  refine ⟨?_, rfl, by decide, by decide, by decide, by decide⟩
  cases j with
  | null => simp [Price.UnmarshalJSON, unmarshalInt, PriceRejects]
  | bool b => simp [Price.UnmarshalJSON, unmarshalInt, unmarshalString, PriceRejects]
  | array xs => simp [Price.UnmarshalJSON, unmarshalInt, unmarshalString, PriceRejects]
  | object xs => simp [Price.UnmarshalJSON, unmarshalInt, unmarshalString, PriceRejects]
  | number lit =>
    simp only [Price.UnmarshalJSON, unmarshalInt, unmarshalString, PriceRejects]
    cases isValidNumber lit <;> cases ParseInt lit <;> simp [failed]
  | string s =>
    rw [Price_string]
    simp only [PriceRejects]
    cases ParseFloat (priceRemainder s) with
    | ok x => simp [failed]
    | error e => simp [failed]

/-- C9 (as stated, refuted). The remainder of `-0.5` parses to the float -0.5 with
multiplier 1; the floor of the product is -1, but the decoded Price is 0. -/
theorem price_rounding_counterexample :
    ¬ ∀ (s : Text) (x : Float64) (q : ℚ), ParseFloat (priceRemainder s) = .ok x →
        x.toRat = some q →
        Price.UnmarshalJSON (.string s) = .ok ⌊q * (priceMultiplier s : ℚ)⌋ := by
  intro h
  have hq : (Float64.finite true 4503599627370496 (-53)).toRat = some (-(1 / 2) : ℚ) := by
    simp only [Float64.toRat, if_true, Option.some.injEq]
    norm_num
  have h1 := h "-0.5".toList (.finite true 4503599627370496 (-53)) (-(1 / 2)) (by decide) hq
  have h2 : Price.UnmarshalJSON (.string "-0.5".toList) = .ok 0 := by decide
  have h3 : priceMultiplier "-0.5".toList = 1 := by decide
  have h4 : ⌊(-(1 / 2) : ℚ) * ((1 : Nat) : ℚ)⌋ = -1 := by
    rw [Int.floor_eq_iff]; norm_num
  rw [h2, h3, h4] at h1
  exact absurd h1 (by decide)

/-- C9 (amended). For every string whose remainder parses to a float `x` with multiplier
`m`, the decoded Price is the Go conversion `int(x * m)` of the float64 product; when the
product, rounded toward zero, is representable in the 64-bit `int`, the Price is exactly
that: the floor of a non-negative product and the ceiling of a negative one (`-0.5`
gives 0 and `-1.0005k` gives -1000). -/
theorem price_rounding_toward_zero (s : Text) (x : Float64)
    (hx : ParseFloat (priceRemainder s) = .ok x) :
    Price.UnmarshalJSON (.string s) =
      .ok ((x.mul (Float64.ofNat (priceMultiplier s))).toInt) ∧
    (∀ q : ℚ, (x.mul (Float64.ofNat (priceMultiplier s))).toRat = some q →
      IsInt64 (truncRat q) →
      (x.mul (Float64.ofNat (priceMultiplier s))).toInt = truncRat q ∧
      (0 ≤ q → truncRat q = ⌊q⌋) ∧ (q < 0 → truncRat q = ⌈q⌉)) ∧
    Price.UnmarshalJSON (.string "-0.5".toList) = .ok 0 ∧
    Price.UnmarshalJSON (.string "-1.0005k".toList) = .ok (-1000) := by
  refine ⟨?_, ?_, by decide, by decide⟩
  · rw [Price_string, hx]
  · intro q hq hr
    refine ⟨Float64.toInt_spec _ q hq hr, fun h => ?_, fun h => ?_⟩
    · rw [truncRat, if_pos h]
    · rw [truncRat, if_neg (not_le.mpr h)]

/-- C9 (instance). The string `-1.0005k`: the product -1000.5 is rounded toward zero. -/
theorem price_rounding_toward_zero_witness :
    Price.UnmarshalJSON (.string "-1.0005k".toList) =
      .ok ((Float64.mul (.finite true 4505851427184181 (-52))
        (Float64.ofNat (priceMultiplier "-1.0005k".toList))).toInt) :=
  (price_rounding_toward_zero "-1.0005k".toList (.finite true 4505851427184181 (-52))
    (by decide)).1

/-! ## PercentChange (C4) -/

theorem dropWhile_spaces (ws t : Text) (h : ∀ c ∈ ws, isSpace c = true) :
    (ws ++ t).dropWhile isSpace = t.dropWhile isSpace := by
  induction ws with
  | nil => rfl
  | cons a ws ih =>
    rw [List.cons_append, List.dropWhile_cons, if_pos (h a (by simp))]
    exact ih (fun c hc => h c (by simp [hc]))

theorem dropWhile_head (a : Char) (t : Text) (h : isSpace a = false) :
    (a :: t).dropWhile isSpace = a :: t := by
  rw [List.dropWhile_cons, if_neg (by simp [h])]

/-- `TrimSpace` removes the white space around a text that starts and ends with other
characters. -/
theorem TrimSpace_padded (ws1 core ws2 : Text)
    (h1 : ∀ c ∈ ws1, isSpace c = true) (h2 : ∀ c ∈ ws2, isSpace c = true)
    (a b : Char) (mid front : Text) (hfirst : core = a :: mid) (hlast : core = front ++ [b])
    (ha : isSpace a = false) (hb : isSpace b = false) :
    TrimSpace (ws1 ++ core ++ ws2) = core := by
  unfold TrimSpace
  rw [List.append_assoc, dropWhile_spaces ws1 _ h1]
  have e1 : (core ++ ws2).dropWhile isSpace = core ++ ws2 := by
    rw [hfirst, List.cons_append]; exact dropWhile_head a _ ha
  rw [e1, List.reverse_append, dropWhile_spaces ws2.reverse _
    (fun c hc => h2 c (List.mem_reverse.mp hc))]
  have e2 : core.reverse.dropWhile isSpace = core.reverse := by
    rw [hlast, List.reverse_append, List.reverse_singleton, List.singleton_append]
    exact dropWhile_head b _ hb
  rw [e2, List.reverse_reverse]

theorem signed_decimal_shape (sign : Text) (neg : Bool) (d : DecimalLit) (hwf : d.WellFormed)
    (hsign : SignText sign neg) :
    (∃ a mid, sign ++ d.text = a :: mid ∧ isSpace a = false) ∧
    (∃ front b, sign ++ d.text = front ++ [b] ∧ isSpace b = false) ∧
    (∀ c ∈ sign ++ d.text, c ≠ '%') := by
  obtain ⟨hne, hch⟩ := decimal_text_chars d hwf
  have hsp : ∀ c ∈ d.text, isSpace c = false ∧ c ≠ '%' := fun c hc =>
    ⟨(decimalChar_plain c (hch c hc)).2.2.2.2.2.2.2.2.2.1,
     (decimalChar_plain c (hch c hc)).2.2.2.2.2.2.2.2.2.2⟩
  have hsg : ∀ c ∈ sign, isSpace c = false ∧ c ≠ '%' := by
    intro c hc
    rcases hsign with ⟨hs, _⟩ | ⟨hs, _⟩ | ⟨hs, _⟩
    · rw [hs] at hc; cases hc
    · rw [hs] at hc; simp only [List.mem_singleton] at hc; subst hc; decide
    · rw [hs] at hc; simp only [List.mem_singleton] at hc; subst hc; decide
  have hall : ∀ c ∈ sign ++ d.text, isSpace c = false ∧ c ≠ '%' := by
    intro c hc
    rcases List.mem_append.mp hc with h | h
    · exact hsg c h
    · exact hsp c h
  have hne2 : sign ++ d.text ≠ [] := by simp [hne]
  refine ⟨?_, ?_, fun c hc => (hall c hc).2⟩
  · cases hcore : sign ++ d.text with
    | nil => exact absurd hcore hne2
    | cons a mid => exact ⟨a, mid, rfl, (hall a (by simp [hcore])).1⟩
  · refine ⟨(sign ++ d.text).dropLast, (sign ++ d.text).getLast hne2,
      (List.dropLast_append_getLast hne2).symm, ?_⟩
    exact (hall _ (List.getLast_mem hne2)).1

theorem percentRemainder_padded (ws1 ws2 sign : Text) (neg : Bool) (d : DecimalLit)
    (pct : Bool) (hwf : d.WellFormed) (hsign : SignText sign neg)
    (h1 : ∀ c ∈ ws1, isSpace c = true) (h2 : ∀ c ∈ ws2, isSpace c = true) :
    percentRemainder (ws1 ++ (sign ++ d.text) ++ ws2 ++ (if pct then ['%'] else [])) =
      sign ++ d.text := by
  obtain ⟨⟨a, mid, hfirst, ha⟩, ⟨front, b, hlast, hb⟩, hpc⟩ :=
    signed_decimal_shape sign neg d hwf hsign
  have hspc : ∀ (ws : Text), (∀ c ∈ ws, isSpace c = true) → ∀ c ∈ ws, c ≠ '%' := by
    intro ws h c hc hcp
    subst hcp
    have := h _ hc
    revert this
    decide
  unfold percentRemainder
  cases pct with
  | true =>
    simp only [if_true]
    rw [TrimSuffix_snoc]
    exact TrimSpace_padded ws1 _ ws2 h1 h2 a b mid front hfirst hlast ha hb
  | false =>
    simp only [Bool.false_eq_true, if_false, List.append_nil]
    rw [TrimSuffix_of_not_mem]
    · exact TrimSpace_padded ws1 _ ws2 h1 h2 a b mid front hfirst hlast ha hb
    · intro c hc
      simp only [List.mem_append] at hc
      rcases hc with (hc | hc) | hc
      · exact hspc ws1 h1 c hc
      · exact hpc c (List.mem_append.mpr hc)
      · exact hspc ws2 h2 c hc

/-- The string branch of `PercentChange.UnmarshalJSON`. -/
theorem PercentChange_string (s : Text) :
    PercentChange.UnmarshalJSON (.string s) =
      match ParseFloat (percentRemainder s) with
      | .error err => .error (.parse err)
      | .ok change => .ok change := by
  simp only [PercentChange.UnmarshalJSON, unmarshalString, percentRemainder]

/-- C4 (as stated, refuted). White space after the `%` is not tolerated: `5% ` is rejected,
although it is the decimal 5 followed by `%` with white space on one side of the `%`. -/
theorem percent_change_decoding_counterexample :
    PercentChange.UnmarshalJSON (.string "5% ".toList) = .error (.parse .errSyntax) ∧
    PercentChange.UnmarshalJSON (.string "5 %".toList) = .ok (Float64.ofNat 5) := by
  constructor <;> decide

/-- C4 (amended). For an optionally signed decimal numeral `d` and a JSON string made of white
space, `d`, white space and one optional trailing `%` (nothing after the `%`),
`PercentChange.UnmarshalJSON` yields the float64 nearest to `d` itself, not `d/100` (its
distance to `d` is at most half a unit in its last place), and a range error when that is an
infinity (`12.34%` gives 12.34, `-5%` gives -5.0). A JSON value
that is not a string is an error. A string is an error exactly when `ParseFloat` rejects its
trimmed remainder; `ParseFloat` also accepts texts that are not base-10 decimals (`inf`, a
hexadecimal float). -/
theorem percent_change_decoding (ws1 ws2 sign : Text) (neg : Bool) (d : DecimalLit)
    (pct : Bool) (hwf : d.WellFormed) (hsign : SignText sign neg)
    (h1 : ∀ c ∈ ws1, isSpace c = true) (h2 : ∀ c ∈ ws2, isSpace c = true) :
    PercentChange.UnmarshalJSON
        (.string (ws1 ++ (sign ++ d.text) ++ ws2 ++ (if pct then ['%'] else []))) =
      (match d.float neg with
        | .finite n m e => .ok (.finite n m e)
        | _ => .error (.parse .errRange)) ∧
    (∀ (n : Bool) (m : Nat) (e : Int), d.float neg = .finite n m e →
      n = neg ∧ |d.value - (m : ℚ) * (2 : ℚ) ^ e| ≤ (2 : ℚ) ^ e / 2) ∧
    (∀ j : JSON, (∀ s, j ≠ .string s) → ∃ e, PercentChange.UnmarshalJSON j = .error e) ∧
    (∀ s : Text, (∃ e, PercentChange.UnmarshalJSON (.string s) = .error e) ↔
      ∃ e, ParseFloat (percentRemainder s) = .error e) ∧
    PercentChange.UnmarshalJSON (.string "12.34%".toList) =
      .ok (roundToFloat64 false 1234 100) ∧
    PercentChange.UnmarshalJSON (.string "-5%".toList) = .ok (.finite true (5 * 2 ^ 50) (-50)) ∧
    (Float64.finite true (5 * 2 ^ 50) (-50)).toRat = some (-5) ∧
    PercentChange.UnmarshalJSON (.string "inf%".toList) = .ok (.inf false) ∧
    PercentChange.UnmarshalJSON (.string "0x1p-2".toList) = .ok (.finite false (2 ^ 52) (-54)) := by
  refine ⟨?_, ?_, ?_, ?_, by decide, by decide, ?_, by decide, by decide⟩
  · rw [PercentChange_string, percentRemainder_padded ws1 ws2 sign neg d pct hwf hsign h1 h2,
      ParseFloat_decimal sign neg d hwf hsign]
    cases d.float neg <;> rfl
  · intro n m e hf
    exact roundToFloat64_half_ulp neg n d.num d.den m e (by unfold DecimalLit.den; positivity) hf
  · intro j hj
    cases j with
    | string s => exact absurd rfl (hj s)
    | null => exact ⟨.parse .errSyntax, by decide⟩
    | bool b => exact ⟨_, rfl⟩
    | number l =>
      cases hv : isValidNumber l
      · exact ⟨.unmarshal .syntaxError, by simp [PercentChange.UnmarshalJSON, unmarshalString, hv]⟩
      · exact ⟨.unmarshal .typeError, by simp [PercentChange.UnmarshalJSON, unmarshalString, hv]⟩
    | array xs => exact ⟨_, rfl⟩
    | object xs => exact ⟨_, rfl⟩
  · intro s
    rw [PercentChange_string]
    cases ParseFloat (percentRemainder s) with
    | ok x => simp
    | error e => simp
  · simp only [Float64.toRat, if_true, Option.some.injEq]
    norm_num

/-- C4 (instance). The string ` -12.50 %` with a tab in front. -/
theorem percent_change_decoding_witness :
    PercentChange.UnmarshalJSON (.string "\t -12.50 %".toList) =
      .ok (.finite true (25 * 2 ^ 48) (-49)) := by
  have h := (percent_change_decoding "\t ".toList " ".toList ['-'] true
    ⟨"12".toList, true, "50".toList⟩ true (by decide) (by decide) (by decide) (by decide)).1
  have hv : (⟨"12".toList, true, "50".toList⟩ : DecimalLit).float true =
      .finite true (25 * 2 ^ 48) (-49) := by decide
  rw [hv] at h
  exact h

/-! ## Transport failures (C12), the request path (C13), unrecognised formats (C16) -/

theorem Hiscores_transport_error (c : Client) (username mode format : String)
    (e : TransportError) (hu : username ≠ "") (hfail : ∀ p, c.sendRequest p = .error e) :
    (c.Hiscores username mode format).ret = .returned none (some (.sendingRequest e)) ∧
    (c.Hiscores username mode format).decoded = [] := by
  simp [Client.Hiscores, hu, hfail]

/-- C12. Transport failures are never reported as decode results: when the transport returns
the error `e`, each of `Hiscores` (non-empty username), `Items`, `Item` and `ItemGraph`
returns a nil result and the error `sending request: e` that wraps `e` unchanged, and hands
no payload to a decoder; and `sendRequest` returns no body and an error carrying the status
code `c` whenever the response status is not 200 (e.g. 404). -/
theorem transport_failures_propagate (c : Client) (dec : ItemDecoders) (e : TransportError)
    (username mode format alpha : String) (page itemID : Int)
    (hu : username ≠ "") (hfail : ∀ p, c.sendRequest p = .error e) :
    ((c.Hiscores username mode format).ret = .returned none (some (.sendingRequest e)) ∧
      (c.Hiscores username mode format).decoded = []) ∧
    ((c.Items dec alpha page).value = none ∧
      (c.Items dec alpha page).err = some (.sendingRequest e) ∧
      (c.Items dec alpha page).decoded = []) ∧
    ((c.Item dec itemID).value = none ∧
      (c.Item dec itemID).err = some (.sendingRequest e) ∧
      (c.Item dec itemID).decoded = []) ∧
    ((c.ItemGraph dec itemID).value = none ∧
      (c.ItemGraph dec itemID).err = some (.sendingRequest e) ∧
      (c.ItemGraph dec itemID).decoded = []) ∧
    (∀ (c1 : Client) (path : String) (resp : Response),
      c1.world.newRequest (c1.baseURL ++ "/" ++ path) = .ok () →
      c1.world.roundTrip (c1.baseURL ++ "/" ++ path) = .ok resp →
      resp.StatusCode ≠ 200 →
      c1.sendRequest path = .error (.unexpectedStatus resp.StatusCode)) ∧
    (∀ path, (clientStatus 404).sendRequest path = .error (.unexpectedStatus 404)) := by
  refine ⟨Hiscores_transport_error c username mode format e hu hfail, ?_, ?_, ?_, ?_, ?_⟩
  · simp [Client.Items, hfail]
  · simp [Client.Item, hfail]
  · simp [Client.ItemGraph, hfail]
  · intro c1 path resp h1 h2 h3
    simp [Client.sendRequest, h1, h2, h3]
  · intro path
    simp [Client.sendRequest, clientStatus]

/-- C12 (instance). A client whose HTTP round trip times out. -/
theorem transport_failures_propagate_witness :
    ((clientFailing "timeout").Hiscores "zezima" ModeRegular FormatCSV).ret =
      .returned none (some (.sendingRequest (.sendingRequest "timeout"))) ∧
    ((clientFailing "timeout").Item noDecoders 4151).err =
      some (.sendingRequest (.sendingRequest "timeout")) :=
  have h := transport_failures_propagate (clientFailing "timeout") noDecoders
    (.sendingRequest "timeout") "zezima" ModeRegular FormatCSV "a" 1 4151 (by decide)
    (fun _ => rfl)
  ⟨h.1.1, h.2.2.1.2.1⟩

theorem hiscoresPath_json (mode username : String) :
    "m=hiscore_oldschool" ++ mode ++ "/index_lite.json?player=" ++ username =
      hiscoresPath mode "json" username := by
  unfold hiscoresPath
  rw [String.append_assoc ("m=hiscore_oldschool" ++ mode ++ "/index_lite.") "json" "?player=",
    String.append_assoc ("m=hiscore_oldschool" ++ mode) "/index_lite." ("json" ++ "?player=")]
  rfl

theorem hiscoresPath_ws (mode username : String) :
    "m=hiscore_oldschool" ++ mode ++ "/index_lite.ws?player=" ++ username =
      hiscoresPath mode "ws" username := by
  unfold hiscoresPath
  rw [String.append_assoc ("m=hiscore_oldschool" ++ mode ++ "/index_lite.") "ws" "?player=",
    String.append_assoc ("m=hiscore_oldschool" ++ mode) "/index_lite." ("ws" ++ "?player=")]
  rfl

/-- C13. Hiscores request path: for a non-empty username `u`, any mode suffix (in particular
the 8 `GameMode` constants, the unspecified mode being the empty suffix of the regular mode)
and a format among unspecified, json and csv, exactly one path is handed to the transport:
`m=hiscore_oldschool` + suffix + `/index_lite.` + ext + `?player=` + `u`, with ext `json`
for json and for the unspecified format, and `ws` for csv. The call depends on the transport
through its answer at this path only: an error there is returned wrapped, and a payload
delivered there is the one that is decoded. -/
theorem hiscores_request_path (c : Client) (username mode format : String)
    (hu : username ≠ "")
    (hfmt : format = "" ∨ format = FormatJSON ∨ format = FormatCSV) :
    (c.Hiscores username mode format).requests =
      [hiscoresPath mode (if format = FormatCSV then "ws" else "json") username] ∧
    (c.Hiscores username mode format).ret =
      (match c.sendRequest
          (hiscoresPath mode (if format = FormatCSV then "ws" else "json") username) with
        | .error e => .returned none (some (.sendingRequest e))
        | .ok data =>
          if format = FormatCSV then decodeCSV data
          else
            match c.world.unmarshalStats data with
            | .error e => .returned none (some (.decodingJSON e))
            | .ok stats => .returned (some stats) none) ∧
    (c.Hiscores username mode format).decoded =
      (match c.sendRequest
          (hiscoresPath mode (if format = FormatCSV then "ws" else "json") username) with
        | .error _ => []
        | .ok data => [data]) ∧
    gameModes = ["", "_ironman", "_hardcore_ironman", "_ultimate", "_deadman", "_seasonal",
      "_tournament", "_fresh_start"] ∧
    hiscoresPath ModeIronman "ws" "zezima" =
      "m=hiscore_oldschool_ironman/index_lite.ws?player=zezima" := by
  have hm : (if mode = "" then ModeRegular else mode) = mode := by
    by_cases h : mode = ""
    · simp [h, ModeRegular]
    · simp [h]
  have hmain : (c.Hiscores username mode format).requests =
        [hiscoresPath mode (if format = FormatCSV then "ws" else "json") username] ∧
      (c.Hiscores username mode format).ret =
        (match c.sendRequest
            (hiscoresPath mode (if format = FormatCSV then "ws" else "json") username) with
          | .error e => .returned none (some (.sendingRequest e))
          | .ok data =>
            if format = FormatCSV then decodeCSV data
            else
              match c.world.unmarshalStats data with
              | .error e => .returned none (some (.decodingJSON e))
              | .ok stats => .returned (some stats) none) ∧
      (c.Hiscores username mode format).decoded =
        (match c.sendRequest
            (hiscoresPath mode (if format = FormatCSV then "ws" else "json") username) with
          | .error _ => []
          | .ok data => [data]) := by
    unfold Client.Hiscores
    simp only [hu, if_false, hm]
    rcases hfmt with h | h | h
    · subst h
      simp only [if_true, show ("" : String) ≠ FormatCSV by decide, if_false]
      rw [hiscoresPath_json]
      cases c.sendRequest (hiscoresPath mode "json" username) with
      | error e => exact ⟨rfl, rfl, rfl⟩
      | ok data =>
        simp only
        cases c.world.unmarshalStats data <;> exact ⟨rfl, rfl, rfl⟩
    · subst h
      simp only [show FormatJSON ≠ "" by decide, if_false, if_true,
        show FormatJSON ≠ FormatCSV by decide]
      rw [hiscoresPath_json]
      cases c.sendRequest (hiscoresPath mode "json" username) with
      | error e => exact ⟨rfl, rfl, rfl⟩
      | ok data =>
        simp only
        cases c.world.unmarshalStats data <;> exact ⟨rfl, rfl, rfl⟩
    · subst h
      simp only [show FormatCSV ≠ "" by decide, if_false, if_true,
        show FormatCSV ≠ FormatJSON by decide]
      rw [hiscoresPath_ws]
      cases c.sendRequest (hiscoresPath mode "ws" username) with
      | error e => exact ⟨rfl, rfl, rfl⟩
      | ok data => exact ⟨rfl, rfl, rfl⟩
  exact ⟨hmain.1, hmain.2.1, hmain.2.2, by decide, by decide⟩

/-- C13 (instance). The ironman leaderboard in the text encoding, on a transport that serves
the payload at the stated path and answers 404 at every other: the payload is decoded. -/
theorem hiscores_request_path_witness :
    ((clientAt "m=hiscore_oldschool_ironman/index_lite.ws?player=zezima"
        { StatusCode := 200, Body := .ok "7,2277,4600000000\n".toList }
        { StatusCode := 404, Body := .ok [] }).Hiscores "zezima" ModeIronman FormatCSV).ret =
      .returned (some { Skills := [{ Name := "Overall", Rank := 7, Level := 2277,
                                     Experience := 4600000000 }],
                        Activities := [] }) none ∧
    ((clientAt "m=hiscore_oldschool_ironman/index_lite.ws?player=zezima"
        { StatusCode := 200, Body := .ok "7,2277,4600000000\n".toList }
        { StatusCode := 404, Body := .ok [] }).Hiscores "zezima" ModeIronman FormatCSV).requests =
      ["m=hiscore_oldschool_ironman/index_lite.ws?player=zezima"] := by
  have h := hiscores_request_path
    (clientAt "m=hiscore_oldschool_ironman/index_lite.ws?player=zezima"
      { StatusCode := 200, Body := .ok "7,2277,4600000000\n".toList }
      { StatusCode := 404, Body := .ok [] }) "zezima" ModeIronman FormatCSV
    (by decide) (by decide)
  refine ⟨?_, ?_⟩
  · rw [h.2.1]; decide
  · rw [h.1]; decide

/-- What `Hiscores` does with an unrecognised format: for a non-empty username, any mode and
a format other than the unspecified one, `json` and `csv`, the request is made all the same,
at the `ws` path; an error of the transport is returned wrapped, and a delivered payload is
discarded undecoded with the error `invalid format`. Either way the result is nil with a
non-nil error. -/
theorem Hiscores_unrecognised_format (c : Client) (username mode format : String)
    (hu : username ≠ "")
    (hf : format ≠ "" ∧ format ≠ FormatJSON ∧ format ≠ FormatCSV) :
    (c.Hiscores username mode format).requests = [hiscoresPath mode "ws" username] ∧
    (c.Hiscores username mode format).ret =
      (match c.sendRequest (hiscoresPath mode "ws" username) with
        | .error e => .returned none (some (.sendingRequest e))
        | .ok _ => .returned none (some (.invalidFormat format))) ∧
    (c.Hiscores username mode format).decoded = [] ∧
    (∃ e, (c.Hiscores username mode format).ret = .returned none (some e)) := by
  obtain ⟨h1, h2, h3⟩ := hf
  have hm : (if mode = "" then ModeRegular else mode) = mode := by
    by_cases h : mode = ""
    · simp [h, ModeRegular]
    · simp [h]
  unfold Client.Hiscores
  simp only [hu, h1, h2, h3, if_false, hm]
  rw [hiscoresPath_ws]
  cases c.sendRequest (hiscoresPath mode "ws" username) with
  | error e => exact ⟨rfl, rfl, rfl, _, rfl⟩
  | ok data => exact ⟨rfl, rfl, rfl, _, rfl⟩

/-- C16 (failing input). The format `xml` is not rejected as a validation failure of the
caller's input before the request, as the empty username is: the request goes out to the
`ws` path, and when the transport fails there (status 404, or a round trip that times out)
the error returned is the transport's, not `invalid format`. Only when a payload is delivered
is the error `invalid format`. -/
theorem hiscores_format_checked_after_request :
    ((clientAt "m=hiscore_oldschool/index_lite.ws?player=zezima"
        { StatusCode := 404, Body := .ok [] }
        { StatusCode := 200, Body := .ok [] }).Hiscores "zezima" ModeRegular "xml").ret =
      .returned none (some (.sendingRequest (.unexpectedStatus 404))) ∧
    ((clientFailing "timeout").Hiscores "zezima" ModeRegular "xml").ret =
      .returned none (some (.sendingRequest (.sendingRequest "timeout"))) ∧
    ((clientServing []).Hiscores "zezima" ModeRegular "xml").ret =
      .returned none (some (.invalidFormat "xml")) ∧
    ((clientFailing "timeout").Hiscores "" ModeRegular "xml").ret =
      .returned none (some .usernameRequired) := by
  refine ⟨by decide, by decide, by decide, by decide⟩

/-! ## The third column (C17) and the length of `Skills` (C15) -/

theorem zipWith_activityOf (l : List RowVals) :
    List.zipWith activityOf activities l =
      List.zipWith (fun name (p : Int × Int) => ({ Name := name, Rank := p.1, Score := p.2 } : Activity))
        activities (l.map (fun v => (v.rank, v.levelOrScore))) := by
  rw [List.zipWith_map_right]
  rfl

theorem expectedStats_congr (vals1 vals2 : List RowVals)
    (hskill : vals1.take 24 = vals2.take 24)
    (hact : (vals1.drop 24).map (fun v => (v.rank, v.levelOrScore)) =
      (vals2.drop 24).map (fun v => (v.rank, v.levelOrScore))) :
    expectedStats vals1 = expectedStats vals2 := by
  unfold expectedStats
  rw [hskill, zipWith_activityOf, zipWith_activityOf, hact]

/-- C17. The third column of activity rows does not influence the result: two payloads of
well-formed rows (at most 103) whose first 24 rows carry the same integers and whose later
rows carry the same first two integers decode to equal results; whereas the third column of
a row at index below 24 is returned as that skill's Experience. -/
theorem activity_third_column_ignored (c1 c2 : Client) (username mode : String)
    (rows1 rows2 : List RowText) (vals1 vals2 : List RowVals) (hu : username ≠ "")
    (hsend1 : ∀ p, c1.sendRequest p = .ok (renderRows rows1))
    (hsend2 : ∀ p, c2.sendRequest p = .ok (renderRows rows2))
    (hwf1 : List.Forall₂ RowText.Parses rows1 vals1)
    (hwf2 : List.Forall₂ RowText.Parses rows2 vals2)
    (hhi1 : rows1.length ≤ 103) (hhi2 : rows2.length ≤ 103)
    (hskill : vals1.take 24 = vals2.take 24)
    (hact : (vals1.drop 24).map (fun v => (v.rank, v.levelOrScore)) =
      (vals2.drop 24).map (fun v => (v.rank, v.levelOrScore))) :
    (c1.Hiscores username mode FormatCSV).ret = (c2.Hiscores username mode FormatCSV).ret ∧
    (∃ stats, (c1.Hiscores username mode FormatCSV).ret = .returned (some stats) none ∧
      ∀ i v, i < 24 → vals1[i]? = some v →
        (stats.Skills[i]?).map (fun s => s.Experience) = some v.third) := by
  have e1 : (c1.Hiscores username mode FormatCSV).ret =
      .returned (some (expectedStats vals1)) none := by
    rw [Hiscores_csv c1 username mode _ hu hsend1, decodeCSV_rows rows1 vals1 hwf1 hhi1]
  have e2 : (c2.Hiscores username mode FormatCSV).ret =
      .returned (some (expectedStats vals2)) none := by
    rw [Hiscores_csv c2 username mode _ hu hsend2,
      decodeCSV_rows rows2 vals2 hwf2 hhi2]
  refine ⟨?_, expectedStats vals1, e1, ?_⟩
  · rw [e1, e2, expectedStats_congr vals1 vals2 hskill hact]
  · intro i v hi hv
    obtain ⟨name, hn⟩ := getSkillName_lt i hi
    rw [getSkillName, index_natCast] at hn
    rw [expectedStats_skill_at vals1 i name v hi hn hv]
    rfl

/-- C17 (instance). Thirty rows; the second payload has 0 in the third column of every
activity row. -/
theorem activity_third_column_ignored_witness :
    ((clientServing (renderRows ((List.range 30).map sampleRow))).Hiscores
        "zezima" ModeRegular FormatCSV).ret =
    ((clientServing (renderRows ((List.range 30).map
        (fun i => if i < 24 then sampleRow i else { sampleRow i with third := ['0'] })))).Hiscores
        "zezima" ModeRegular FormatCSV).ret :=
  (activity_third_column_ignored
    (clientServing (renderRows ((List.range 30).map sampleRow)))
    (clientServing (renderRows ((List.range 30).map
      (fun i => if i < 24 then sampleRow i else { sampleRow i with third := ['0'] }))))
    "zezima" ModeRegular
    ((List.range 30).map sampleRow)
    ((List.range 30).map
      (fun i => if i < 24 then sampleRow i else { sampleRow i with third := ['0'] }))
    ((List.range 30).map sampleVals)
    ((List.range 30).map
      (fun i => if i < 24 then sampleVals i else { sampleVals i with third := 0 }))
    (by decide) (fun _ => rfl) (fun _ => rfl) (by decide) (by decide) (by decide) (by decide)
    (by decide) (by decide)).1

/-- The loop returns a result only at the end of the input; the result then has one record
per row read, the first 24 of them skills. -/
theorem hiscoresLoop_counts : ∀ (fuel : Nat) (reader : Reader) (stats0 stats : PlayerStats)
    (lc : Nat),
    lc ≤ 103 → stats0.Skills.length = min lc 24 → stats0.Activities.length = lc - 24 →
    hiscoresLoop fuel reader stats0 lc = .returned (some stats) none →
    ∃ n, HasRowCount reader n ∧ stats.Skills.length = min (lc + n) 24 ∧
      stats.Activities.length = lc + n - 24 ∧ lc + n ≤ 103 := by
  intro fuel
  induction fuel with
  | zero => intro reader stats0 stats lc _ _ _ h; simp [hiscoresLoop] at h
  | succ fuel ih =>
    intro reader stats0 stats lc hlc hs ha h
    rcases hiscoresLoop_step fuel reader stats0 lc with ⟨h0, h1⟩ | ⟨_, e, h1⟩ |
      ⟨f0, f1, f2, v, hrec, _, h1⟩
    · rw [h1] at h
      simp only [Ret.returned.injEq, Option.some.injEq, and_true] at h
      subst h
      refine ⟨0, ⟨h0, fun k hk => absurd hk (Nat.not_lt_zero k)⟩, by simpa using hs,
        by simpa using ha, by simpa using hlc⟩
    · rw [h1] at h; simp at h
    · have step : ∀ (stats1 : PlayerStats), lc + 1 ≤ 103 →
          stats1.Skills.length = min (lc + 1) 24 →
          stats1.Activities.length = lc + 1 - 24 →
          hiscoresLoop fuel (reader.Read 3).2 stats1 ((lc + 1 : Nat) : Int) =
            .returned (some stats) none →
          ∃ n, HasRowCount reader n ∧ stats.Skills.length = min (lc + n) 24 ∧
            stats.Activities.length = lc + n - 24 ∧ lc + n ≤ 103 := by
        intro stats1 hl1 hs1 ha1 hr
        obtain ⟨n, ⟨hn0, hnk⟩, hsn, han, hle⟩ := ih _ stats1 stats (lc + 1) hl1 hs1 ha1 hr
        refine ⟨n + 1, ⟨hn0, ?_⟩, by rw [hsn]; congr 1; omega, by rw [han]; omega, by omega⟩
        intro k hk
        cases k with
        | zero => simp only [nthRead]; rw [hrec]; simp
        | succ j => exact hnk j (by omega)
      rcases h1 with ⟨hlt, name, _, h1⟩ | ⟨hge, hlt, name, _, h1⟩ | ⟨_, h1⟩
      · rw [h1] at h
        exact step _ (by omega) (by simp [hs]; omega) (by simp [ha]; omega) h
      · rw [h1] at h
        exact step _ (by omega) (by simp [hs]; omega) (by simp [ha]; omega) h
      · rw [h1] at h; simp at h

/-- C15 (as stated, refuted). On the empty payload the positional-text path returns a
PlayerStats without error whose Skills sequence is empty, not of length 24. -/
theorem hiscores_csv_skills_length_counterexample :
    ¬ ∀ (payload : Text) (stats : PlayerStats),
        ((clientServing payload).Hiscores "zezima" ModeRegular FormatCSV).ret =
          .returned (some stats) none → stats.Skills.length = 24 := by
  intro h
  have h0 := h [] ⟨[], []⟩ (by decide)
  exact absurd h0 (by decide)

/-- C15 (amended). Every PlayerStats returned without error by the positional-text path has
one record per row of the payload: with `n` rows (`n ≤ 103`), the Skills sequence has length
`min n 24` and the Activities sequence length `n - 24`; the Skills sequence has length
exactly 24 if and only if the payload has at least 24 rows. -/
theorem hiscores_csv_skills_length (c : Client) (username mode : String) (payload : Text)
    (stats : PlayerStats) (hu : username ≠ "")
    (hsend : ∀ p, c.sendRequest p = .ok payload)
    (hret : (c.Hiscores username mode FormatCSV).ret = .returned (some stats) none) :
    ∃ n, HasRowCount (NewReader payload) n ∧ n ≤ 103 ∧
      stats.Skills.length = min n 24 ∧ stats.Activities.length = n - 24 ∧
      (stats.Skills.length = 24 ↔ 24 ≤ n) := by
  rw [Hiscores_csv c username mode payload hu hsend] at hret
  obtain ⟨n, hrows, hs, ha, hle⟩ := hiscoresLoop_counts _ _ ⟨[], []⟩ stats 0 (by omega)
    (by simp) (by simp) hret
  simp only [Nat.zero_add] at hs ha hle
  exact ⟨n, hrows, hle, hs, ha, by rw [hs]; omega⟩

/-- C15 (instance). A payload of three rows gives three skills. -/
theorem hiscores_csv_skills_length_witness :
    ∃ n, HasRowCount (NewReader (renderRows ((List.range 3).map sampleRow))) n ∧ n ≤ 103 ∧
      (expectedStats ((List.range 3).map sampleVals)).Skills.length = min n 24 ∧
      (expectedStats ((List.range 3).map sampleVals)).Activities.length = n - 24 ∧
      ((expectedStats ((List.range 3).map sampleVals)).Skills.length = 24 ↔ 24 ≤ n) :=
  hiscores_csv_skills_length (clientServing (renderRows ((List.range 3).map sampleRow)))
    "zezima" ModeRegular (renderRows ((List.range 3).map sampleRow))
    (expectedStats ((List.range 3).map sampleVals)) (by decide) (fun _ => rfl) (by decide)

/-! ## The two encodings of an integer price (C18) -/

theorem foldl_digits_snoc (s : Text) (c : Char) (a : Nat) :
    (s ++ [c]).foldl (fun n x => n * 10 + digitVal x) a =
      s.foldl (fun n x => n * 10 + digitVal x) a * 10 + digitVal c := by
  rw [List.foldl_append]
  rfl

theorem digitsValue_natDigits : ∀ (fuel n : Nat), n < fuel →
    digitsValue (natDigits fuel n) = n := by
  intro fuel
  induction fuel with
  | zero => intro n h; omega
  | succ fuel ih =>
    intro n h
    unfold natDigits
    by_cases h10 : n < 10
    · simp only [h10, if_true, digitsValue, List.foldl_cons, List.foldl_nil]
      rw [(digitChar_spec n h10).2]
      omega
    · simp only [h10, if_false]
      have := ih (n / 10) (by omega)
      unfold digitsValue at this ⊢
      rw [foldl_digits_snoc, this, (digitChar_spec (n % 10) (Nat.mod_lt _ (by decide))).2]
      omega

theorem digitsValue_formatNat (n : Nat) : digitsValue (formatNat n) = n :=
  digitsValue_natDigits (n + 1) n (by omega)

theorem formatNat_digits (n : Nat) : formatNat n ≠ [] ∧ ∀ c ∈ formatNat n, isDigit c = true := by
  obtain ⟨c, cs, hc, hd, hcs, _⟩ := natDigits_shape (n + 1) n (by omega)
  have hf : formatNat n = c :: cs := hc
  rw [hf]
  refine ⟨by simp, ?_⟩
  intro x hx
  rcases List.mem_cons.mp hx with rfl | hx
  · exact hd
  · exact hcs x hx

/-- The decimal form of a natural number, as a numeral. -/
theorem formatNat_wellFormed (n : Nat) :
    (⟨formatNat n, false, []⟩ : DecimalLit).WellFormed := by
  obtain ⟨hne, hd⟩ := formatNat_digits n
  exact ⟨hd, by simp, by simpa using hne, fun _ => rfl⟩

theorem toLowerRune_plain (c : Char) (h : isDigit c = true ∨ c = '-' ∨ c = '.') :
    toLowerRune c = c ∧ c ≠ ' ' ∧ c ≠ ',' ∧ c ≠ 'k' ∧ c ≠ 'm' ∧ c ≠ 'b' := by
  have key : c.toNat ≤ 57 ∧ 45 ≤ c.toNat := by
    rcases h with h | h | h
    · have : 48 ≤ c.toNat ∧ c.toNat ≤ 57 := by simpa [isDigit] using h
      omega
    · subst h; decide
    · subst h; decide
  have ne : ∀ d : Char, (d.toNat < 45 ∨ 57 < d.toNat) → c ≠ d := by
    intro d hd hc
    subst hc
    omega
  refine ⟨?_, ne _ (by decide), ne _ (by decide), ne _ (by decide), ne _ (by decide),
    ne _ (by decide)⟩
  unfold toLowerRune
  rw [if_neg (by omega), if_neg (by omega), if_neg (by omega)]

theorem normalizePrice_plain (s : Text) (h : ∀ c ∈ s, isDigit c = true ∨ c = '-' ∨ c = '.') :
    normalizePrice s = s := by
  unfold normalizePrice ToLower removeAll
  have h1 : s.filter (fun x => x != ' ') = s := by
    rw [List.filter_eq_self]
    intro c hc
    simpa using (toLowerRune_plain c (h c hc)).2.1
  have h2 : s.filter (fun x => x != ',') = s := by
    rw [List.filter_eq_self]
    intro c hc
    simpa using (toLowerRune_plain c (h c hc)).2.2.1
  rw [h1, h2]
  conv => rhs; rw [← List.map_id s]
  apply List.map_congr_left
  intro c hc
  exact (toLowerRune_plain c (h c hc)).1

theorem splitSuffix_plain (s : Text) (h : ∀ c ∈ s, isDigit c = true ∨ c = '-' ∨ c = '.') :
    splitSuffix s = (1, s) := by
  have hk : ∀ c ∈ s, c ≠ 'k' := fun c hc => (toLowerRune_plain c (h c hc)).2.2.2.1
  have hm : ∀ c ∈ s, c ≠ 'm' := fun c hc => (toLowerRune_plain c (h c hc)).2.2.2.2.1
  have hb : ∀ c ∈ s, c ≠ 'b' := fun c hc => (toLowerRune_plain c (h c hc)).2.2.2.2.2
  simp [splitSuffix, HasSuffix_of_not_mem _ _ hk, HasSuffix_of_not_mem _ _ hm,
    HasSuffix_of_not_mem _ _ hb]

theorem formatInt_chars (n : Int) : ∀ c ∈ formatInt n, isDigit c = true ∨ c = '-' ∨ c = '.' := by
  intro c hc
  unfold formatInt at hc
  split at hc
  · rcases List.mem_cons.mp hc with h | h
    · exact Or.inr (Or.inl h)
    · exact Or.inl ((formatNat_digits _).2 c h)
  · exact Or.inl ((formatNat_digits _).2 c hc)

/-- The string branch of `Price.UnmarshalJSON` on the decimal digits of an integer of
magnitude below `2^53`. -/
theorem Price_string_formatInt (n : Int) (hlo : -(2 ^ 53) < n) (hhi : n < 2 ^ 53) :
    Price.UnmarshalJSON (.string (formatInt n)) = .ok n := by
  have hch := formatInt_chars n
  have hrem : priceRemainder (formatInt n) = formatInt n := by
    rw [priceRemainder, normalizePrice_plain _ hch, splitSuffix_plain _ hch]
  have hmul : priceMultiplier (formatInt n) = 1 := by
    rw [priceMultiplier, normalizePrice_plain _ hch, splitSuffix_plain _ hch]
  have hwf := formatNat_wellFormed n.natAbs
  have hnum : (⟨formatNat n.natAbs, false, []⟩ : DecimalLit).num = n.natAbs := by
    simp [DecimalLit.num, digitsValue_formatNat]
  have hden : (⟨formatNat n.natAbs, false, []⟩ : DecimalLit).den = 1 := by
    simp [DecimalLit.den]
  have htext : (⟨formatNat n.natAbs, false, []⟩ : DecimalLit).text = formatNat n.natAbs := by
    simp [DecimalLit.text]
  have h53 : n.natAbs < 2 ^ 53 := by
    have : (2 : Int) ^ 53 = 9007199254740992 := by norm_num
    have h2 : (2 : Nat) ^ 53 = 9007199254740992 := by norm_num
    omega
  have hfmt : ∃ sign neg, SignText sign neg ∧ formatInt n = sign ++ formatNat n.natAbs ∧
      (if neg then -(n.natAbs : Int) else (n.natAbs : Int)) = n ∧
      (n.natAbs = 0 → neg = false) := by
    unfold formatInt
    by_cases hneg : n < 0
    · exact ⟨['-'], true, Or.inr (Or.inr ⟨rfl, rfl⟩), by simp [hneg],
        by show -((n.natAbs : Nat) : Int) = n; omega, fun h => by omega⟩
    · exact ⟨[], false, Or.inl ⟨rfl, rfl⟩, by simp [hneg],
        by show ((n.natAbs : Nat) : Int) = n; omega, fun _ => rfl⟩
  obtain ⟨sign, neg, hsign, hform, hval, hzero⟩ := hfmt
  have hpf := ParseFloat_decimal sign neg _ hwf hsign
  rw [htext, ← hform, DecimalLit.float, hnum, hden] at hpf
  rw [Price_string, hrem, hmul, hpf]
  by_cases hz : n.natAbs = 0
  · have hn0 : n = 0 := by omega
    rw [hz, hzero hz, hn0]
    decide
  · have hpos : 0 < n.natAbs := Nat.pos_of_ne_zero hz
    have hx := roundToFloat64_exact neg n.natAbs 0 hpos h53
    simp only [pow_zero, mul_one] at hx
    rw [hx]
    simp only
    rw [Float64.mul_exact neg n.natAbs 1 hpos (by decide) (by simpa using h53),
      Float64.toInt_exact neg (n.natAbs * 1) (by simpa using hpos) (by simpa using h53)]
    simp only [mul_one]
    rw [hval]

/-- C18 (as stated, refuted). The integer 9007199254740993 is representable in the platform
`int`; the native number decodes to it, but the string of its digits goes through float64
and decodes to 9007199254740992. -/
theorem price_encodings_agree_counterexample :
    ¬ ∀ n : Int, IsInt64 n →
        Price.UnmarshalJSON (.string (formatInt n)) =
          Price.UnmarshalJSON (.number (formatInt n)) := by
  intro h
  have h1 := h 9007199254740993 (by decide)
  have h2 : Price.UnmarshalJSON (.string (formatInt 9007199254740993)) =
      .ok 9007199254740992 := by decide
  have h3 : Price.UnmarshalJSON (.number (formatInt 9007199254740993)) =
      .ok 9007199254740993 := by decide
  rw [h2, h3] at h1
  exact absurd h1 (by decide)

/-- C18 (amended). The two Price encodings agree on integers of magnitude below `2^53`: for
such `n`, decoding the JSON string whose content is the decimal digits of `n` yields the
same Price as decoding the native JSON number `n`, namely `n`. -/
theorem price_encodings_agree (n : Int) (hlo : -(2 ^ 53) < n) (hhi : n < 2 ^ 53) :
    Price.UnmarshalJSON (.string (formatInt n)) = .ok n ∧
    Price.UnmarshalJSON (.number (formatInt n)) = .ok n ∧
    Price.UnmarshalJSON (.string (formatInt n)) =
      Price.UnmarshalJSON (.number (formatInt n)) := by
  have hs := Price_string_formatInt n hlo hhi
  have hint : IsInt64 n := by
    have hmin : minInt64 = -9223372036854775808 := by decide
    have hmax : maxInt64 = 9223372036854775807 := by decide
    have : (2 : Int) ^ 53 = 9007199254740992 := by norm_num
    constructor
    · rw [hmin]; omega
    · rw [hmax]; omega
  have hn : Price.UnmarshalJSON (.number (formatInt n)) = .ok n := by
    simp [Price.UnmarshalJSON, unmarshalInt, ParseInt_formatInt n hint,
      isValidNumber_formatInt n]
  exact ⟨hs, hn, by rw [hs, hn]⟩

/-- C18 (instance). The integer -1234. -/
theorem price_encodings_agree_witness :
    Price.UnmarshalJSON (.string (formatInt (-1234))) = .ok (-1234) ∧
    Price.UnmarshalJSON (.number (formatInt (-1234))) = .ok (-1234) ∧
    Price.UnmarshalJSON (.string (formatInt (-1234))) =
      Price.UnmarshalJSON (.number (formatInt (-1234))) :=
  price_encodings_agree (-1234) (by decide) (by decide)

/-! ## Normalisation invariance (C14) -/

theorem normalizePrice_cons (c : Char) (s : Text) :
    normalizePrice (c :: s) =
      if c = ' ' ∨ c = ',' then normalizePrice s else toLowerRune c :: normalizePrice s := by
  unfold normalizePrice ToLower removeAll
  by_cases h1 : c = ' '
  · subst h1
    simp
  · by_cases h2 : c = ','
    · subst h2
      simp
    · simp [h1, h2]

theorem AsciiCasePair_lower (c d : Char) (h : AsciiCasePair c d) :
    toLowerRune c = toLowerRune d ∧ ¬ (c = ' ' ∨ c = ',') ∧ ¬ (d = ' ' ∨ d = ',') := by
  have ne : ∀ (x y : Char), x.toNat ≠ y.toNat → x ≠ y := by
    intro x y hxy hc
    exact hxy (by rw [hc])
  have hs : (' ' : Char).toNat = 32 := by decide
  have hc : (',' : Char).toNat = 44 := by decide
  rcases h with ⟨h1, h2, h3⟩ | ⟨h1, h2, h3⟩
  · refine ⟨?_, ?_, ?_⟩
    · have hd : toLowerRune d = d := by
        unfold toLowerRune
        rw [if_neg (by omega), if_neg (by omega), if_neg (by omega)]
      rw [hd]
      unfold toLowerRune
      rw [if_pos ⟨h1, h2⟩, ← h3, Char.ofNat_toNat]
    · rintro (h | h) <;> exact ne _ _ (by omega) h
    · rintro (h | h) <;> exact ne _ _ (by omega) h
  · refine ⟨?_, ?_, ?_⟩
    · have hcl : toLowerRune c = c := by
        unfold toLowerRune
        rw [if_neg (by omega), if_neg (by omega), if_neg (by omega)]
      rw [hcl]
      unfold toLowerRune
      rw [if_pos ⟨by omega, by omega⟩, ← h3, Char.ofNat_toNat]
    · rintro (h | h) <;> exact ne _ _ (by omega) h
    · rintro (h | h) <;> exact ne _ _ (by omega) h

theorem PriceVariant_normalize (s t : Text) (h : PriceVariant s t) :
    normalizePrice s = normalizePrice t := by
  induction h with
  | done => rfl
  | keep c _ ih => rw [normalizePrice_cons, normalizePrice_cons, ih]
  | insert c hc _ ih => rw [normalizePrice_cons c, if_pos hc]; exact ih
  | delete c hc _ ih => rw [normalizePrice_cons c, if_pos hc]; exact ih
  | recase c d hcd _ ih =>
    obtain ⟨h1, h2, h3⟩ := AsciiCasePair_lower c d hcd
    rw [normalizePrice_cons c, normalizePrice_cons d, if_neg h2, if_neg h3, h1, ih]

/-- C14 (as stated, refuted). Changing the case of a letter can change the outcome: the
dotless i (U+0131) has the upper case `I`, so `strings.ToUpper` turns `ınf` into `INF`;
the first is rejected, the second is lower-cased to `inf` and decodes without error. -/
theorem price_normalisation_counterexample :
    ToUpper [Char.ofNat 0x131, 'n', 'f'] = ['I', 'N', 'F'] ∧
    Price.UnmarshalJSON (.string [Char.ofNat 0x131, 'n', 'f']) = .error (.parse .errSyntax) ∧
    ∃ v, Price.UnmarshalJSON (.string ['I', 'N', 'F']) = .ok v := by
  refine ⟨by decide, by decide, _, rfl⟩

/-- C14 (amended). Price normalisation invariance: decoding a string as Price has the same
outcome (the same value, or the same failure) as decoding any string obtained from it by
inserting or deleting spaces and commas at any positions and by changing the case of ASCII
letters; in particular `3B` and `3b` decode alike, and `2 k` and `2k` decode alike. -/
theorem price_normalisation_invariance (s t : Text) (h : PriceVariant s t) :
    Price.UnmarshalJSON (.string s) = Price.UnmarshalJSON (.string t) ∧
    Price.UnmarshalJSON (.string "3B".toList) = Price.UnmarshalJSON (.string "3b".toList) ∧
    Price.UnmarshalJSON (.string "2 k".toList) = Price.UnmarshalJSON (.string "2k".toList) := by
  refine ⟨?_, by decide, by decide⟩
  rw [Price_string, Price_string, priceRemainder, priceRemainder, priceMultiplier,
    priceMultiplier, PriceVariant_normalize s t h]

/-- C14 (instance). The text `1,5 M` is obtained from `15m` by inserting a comma and a space
and capitalising the suffix. -/
theorem price_normalisation_invariance_witness :
    Price.UnmarshalJSON (.string "15m".toList) = Price.UnmarshalJSON (.string "1,5 M".toList) :=
  (price_normalisation_invariance "15m".toList "1,5 M".toList
    (.keep '1' (.insert ',' (Or.inr rfl) (.keep '5' (.insert ' ' (Or.inl rfl)
      (.recase 'm' 'M' (Or.inr (by decide)) .done)))))).1

/-! ## The display form of a percentage (C11) -/

theorem digitChar_digitVal (c : Char) (h : isDigit c = true) :
    digitVal c < 10 ∧ digitChar (digitVal c) = c := by
  have hr : 48 ≤ c.toNat ∧ c.toNat ≤ 57 := by simpa [isDigit] using h
  have hall : ∀ d, d < 10 → digitChar d = Char.ofNat (48 + d) := by decide
  refine ⟨by unfold digitVal; omega, ?_⟩
  rw [hall _ (by unfold digitVal; omega)]
  have : 48 + digitVal c = c.toNat := by unfold digitVal; omega
  rw [this, Char.ofNat_toNat]

theorem natDigits_fuel (n : Nat) : ∀ (f1 f2 : Nat), n < f1 → n < f2 →
    natDigits f1 n = natDigits f2 n := by
  induction n using Nat.strong_induction_on with
  | _ n ih =>
    intro f1 f2 h1 h2
    cases f1 with
    | zero => omega
    | succ f1 =>
      cases f2 with
      | zero => omega
      | succ f2 =>
        unfold natDigits
        by_cases h10 : n < 10
        · simp [h10]
        · simp only [h10, if_false]
          rw [ih (n / 10) (by omega) f1 f2 (by omega) (by omega)]

theorem digitsValue_snoc (s : Text) (c : Char) :
    digitsValue (s ++ [c]) = digitsValue s * 10 + digitVal c := by
  unfold digitsValue
  exact foldl_digits_snoc s c 0

theorem digitsValue_pos (c : Char) (cs : Text) (hc : isDigit c = true) (h0 : c ≠ '0') :
    0 < digitsValue (c :: cs) := by
  induction cs using List.reverseRecOn with
  | nil =>
    have hr : 48 ≤ c.toNat ∧ c.toNat ≤ 57 := by simpa [isDigit] using hc
    have h48 : c.toNat ≠ 48 := by
      intro h
      apply h0
      rw [← Char.ofNat_toNat c, h]
    simp only [digitsValue, List.foldl_cons, List.foldl_nil, digitVal]
    omega
  | append_singleton cs x ih =>
    rw [← List.cons_append, digitsValue_snoc]
    omega

/-- Digits without superfluous leading zeros are the decimal form of their value. -/
theorem formatNat_digitsValue (w : Text) (h : CanonicalDigits w) :
    formatNat (digitsValue w) = w := by
  rcases h with h | ⟨c, cs, hw, h0, hd⟩
  · rw [h]; decide
  · subst hw
    unfold formatNat
    induction cs using List.reverseRecOn with
    | nil =>
      have hc := hd c (by simp)
      obtain ⟨hlt, hdc⟩ := digitChar_digitVal c hc
      have hv : digitsValue [c] = digitVal c := by simp [digitsValue]
      rw [hv]
      unfold natDigits
      simp [hlt, hdc]
    | append_singleton cs x ih =>
      have hx := hd x (by simp)
      have hcs : ∀ y ∈ c :: cs, isDigit y = true := fun y hy => hd y (by
        rcases List.mem_cons.mp hy with h | h
        · simp [h]
        · simp [h])
      obtain ⟨hlt, hdx⟩ := digitChar_digitVal x hx
      have hpos := digitsValue_pos c cs (hd c (by simp)) h0
      have hval : digitsValue (c :: (cs ++ [x])) = digitsValue (c :: cs) * 10 + digitVal x := by
        rw [← List.cons_append, digitsValue_snoc]
      rw [hval]
      unfold natDigits
      have h10 : ¬ (digitsValue (c :: cs) * 10 + digitVal x < 10) := by omega
      simp only [h10, if_false]
      have hdiv : (digitsValue (c :: cs) * 10 + digitVal x) / 10 = digitsValue (c :: cs) := by
        omega
      have hmod : (digitsValue (c :: cs) * 10 + digitVal x) % 10 = digitVal x := by omega
      rw [hdiv, hmod, hdx,
        natDigits_fuel _ _ (digitsValue (c :: cs) + 1) (by omega) (by omega), ih hcs]
      simp

/-- The decimal form of a natural number has no superfluous leading zeros. -/
theorem formatNat_canonical (n : Nat) : CanonicalDigits (formatNat n) := by
  obtain ⟨c, cs, hc, hd, hcs, hz⟩ := natDigits_shape (n + 1) n (by omega)
  have hf : formatNat n = c :: cs := hc
  rw [hf]
  by_cases h0 : c = '0'
  · left; rw [h0, (hz h0).2]
  · right
    refine ⟨c, cs, rfl, h0, ?_⟩
    intro x hx
    rcases List.mem_cons.mp hx with h | h
    · rw [h]; exact hd
    · exact hcs x h

theorem roundHalfEven_unique (num den k : Nat)
    (h1 : 2 * num < 2 * (k * den) + den) (h2 : 2 * (k * den) < 2 * num + den) :
    roundHalfEven num den = k := by
  have hd : 0 < den := by omega
  obtain ⟨n1, n2⟩ := roundHalfEven_near num den hd
  generalize roundHalfEven num den = r at n1 n2
  rcases Nat.lt_trichotomy r k with hlt | heq | hgt
  · have : (r + 1) * den ≤ k * den := Nat.mul_le_mul_right den hlt
    have e1 : (r + 1) * den = r * den + den := by ring
    have e2 : 2 * den * r = 2 * (r * den) := by ring
    rw [e1] at this
    rw [e2] at n1 n2
    omega
  · exact heq
  · have : (k + 1) * den ≤ r * den := Nat.mul_le_mul_right den hgt
    have e1 : (k + 1) * den = k * den + den := by ring
    have e2 : 2 * den * r = 2 * (r * den) := by ring
    rw [e1] at this
    rw [e2] at n1 n2
    omega

theorem digitsValue_lt (s : Text) (h : ∀ c ∈ s, isDigit c = true) :
    digitsValue s < 10 ^ s.length := by
  induction s using List.reverseRecOn with
  | nil => simp [digitsValue]
  | append_singleton s c ih =>
    rw [digitsValue_snoc, List.length_append, List.length_singleton, pow_succ]
    have h1 := ih (fun x hx => h x (by simp [hx]))
    have h2 := (digitChar_digitVal c (h c (by simp))).1
    omega

theorem CanonicalDigits_digits (w : Text) (h : CanonicalDigits w) :
    w ≠ [] ∧ ∀ c ∈ w, isDigit c = true := by
  rcases h with h | ⟨c, cs, hw, _, hd⟩
  · subst h; exact ⟨by simp, by decide⟩
  · subst hw; exact ⟨by simp, hd⟩

theorem hundredths_zero (e : Int) : hundredths 0 e = 0 := by
  unfold hundredths
  split
  · simp
  · have hp := Nat.two_pow_pos (-e).toNat
    generalize 2 ^ (-e).toNat = p at hp
    exact roundHalfEven_unique _ _ 0 (by omega) (by omega)

/-- A number of hundredths below `10^15` survives the rounding to binary64 and the rounding
back to two decimals. -/
theorem roundToFloat64_hundredths (neg : Bool) (K : Nat) (hK : K < 10 ^ 15) :
    ∃ m e, roundToFloat64 neg K 100 = .finite neg m e ∧ hundredths m e = K := by
  by_cases h0 : K = 0
  · subst h0
    exact ⟨0, -1074, by simp [roundToFloat64], hundredths_zero _⟩
  · have hpos : 0 < K := Nat.pos_of_ne_zero h0
    obtain ⟨s1, s2⟩ := log2_spec K hpos
    have hl : log2 K ≤ 49 := by
      have h50 : K < 2 ^ 50 := lt_trans hK (by norm_num)
      have : log2 K < 50 := (Nat.pow_lt_pow_iff_right (by decide)).mp (lt_of_le_of_lt s1 h50)
      omega
    have h100 : log2 100 = 6 := log2_unique 100 6 (by decide) (by decide)
    have he : ulpExponent K 100 ≤ -9 := by
      unfold ulpExponent
      rw [h100]
      simp only
      split <;> split <;> omega
    generalize hE : ulpExponent K 100 = e at he
    obtain ⟨k, hk, hk9⟩ : ∃ k : Nat, e = -(k : Int) ∧ 9 ≤ k := ⟨(-e).toNat, by omega, by omega⟩
    have hsr : scaleRound K 100 e = roundHalfEven (K * 2 ^ k) 100 := by
      unfold scaleRound
      have hneg : ¬ (0 ≤ e) := by omega
      simp only [hneg, if_false]
      have hto : (-e).toNat = k := by omega
      rw [hto]
    obtain ⟨n1, n2⟩ := roundHalfEven_near (K * 2 ^ k) 100 (by decide)
    rw [← hsr] at n1 n2
    generalize hM : scaleRound K 100 e = m at n1 n2
    unfold roundToFloat64
    simp only [h0, if_false, hE, hM]
    by_cases hm : m = 2 ^ 53
    · have hbig : ¬ (e + 1 > 971) := by omega
      simp only [hm, if_true, hbig, if_false]
      refine ⟨_, _, rfl, ?_⟩
      unfold hundredths
      have hneg : ¬ (0 ≤ e + 1) := by omega
      simp only [hneg, if_false]
      have hk1 : (-(e + 1)).toNat = k - 1 := by omega
      rw [hk1]
      have hp : 2 ^ k = 2 * 2 ^ (k - 1) := by
        rw [← pow_succ']
        congr 1
        omega
      have hp8 : 2 ^ 8 ≤ 2 ^ (k - 1) := Nat.pow_le_pow_right (by decide) (by omega)
      have hKp : K * 2 ^ k = 2 * (K * 2 ^ (k - 1)) := by rw [hp]; ring
      rw [hKp, hm] at n1 n2
      apply roundHalfEven_unique <;>
      · generalize K * 2 ^ (k - 1) = q at n1 n2 ⊢
        generalize 2 ^ (k - 1) = p at hp8 ⊢
        norm_num at n1 n2 hp8 ⊢
        omega
    · have hbig : ¬ (e > 971) := by omega
      simp only [hm, if_false, hbig]
      refine ⟨_, _, rfl, ?_⟩
      unfold hundredths
      have hneg : ¬ (0 ≤ e) := by omega
      simp only [hneg, if_false]
      have hto : (-e).toNat = k := by omega
      rw [hto]
      have hp9 : 2 ^ 9 ≤ 2 ^ k := Nat.pow_le_pow_right (by decide) hk9
      apply roundHalfEven_unique <;>
      · generalize K * 2 ^ k = q at n1 n2 ⊢
        generalize 2 ^ k = p at hp9 ⊢
        norm_num at hp9
        omega

/-- The two-decimal form of a finite value: optional minus sign, canonical digits, a point,
and two digits. -/
theorem formatFixed2_finite (neg : Bool) (m : Nat) (e : Int) :
    ∃ w a b, CanonicalDigits w ∧ isDigit a = true ∧ isDigit b = true ∧
      PercentChange.String (.finite neg m e) = percentText neg w a b := by
  refine ⟨formatNat (hundredths m e / 100), digitChar (hundredths m e / 10 % 10),
    digitChar (hundredths m e % 10), formatNat_canonical _,
    (digitChar_spec _ (Nat.mod_lt _ (by decide))).1,
    (digitChar_spec _ (Nat.mod_lt _ (by decide))).1, ?_⟩
  simp [PercentChange.String, formatFixed2, percentText]

/-- C11 (as stated, refuted). The text `70368744177664.01%` has the stated form, and its
decoding renders as `70368744177664.02%`; the decoding of `NaN` renders as `NaN%`, which is
not a fixed-point number. -/
theorem percent_display_round_trip_counterexample :
    (∃ x, PercentChange.UnmarshalJSON (.string "70368744177664.01%".toList) = .ok x ∧
      PercentChange.String x = "70368744177664.02%".toList) ∧
    "70368744177664.01%".toList =
      percentText false "70368744177664".toList '0' '1' ∧
    (∃ x, PercentChange.UnmarshalJSON (.string "NaN".toList) = .ok x ∧
      PercentChange.String x = "NaN%".toList) := by
  refine ⟨⟨.finite false (2 ^ 52 + 1) (-6), by decide, by decide⟩, by decide,
    ⟨.nan, by decide, by decide⟩⟩

/-- C11 (amended). For a text of the form optional minus sign, at most thirteen decimal
digits without superfluous leading zeros, a point, two digits and `%`, decoding with
`PercentChange.UnmarshalJSON` succeeds and `PercentChange.String` of the result is the text
itself. `String` of every finite value has the form optional minus sign, digits without
superfluous leading zeros, a point, two digits and `%`; the values that are not finite render
as `NaN%`, `+Inf%` and `-Inf%`. -/
theorem percent_display_round_trip (minus : Bool) (whole : Text) (f1 f2 : Char)
    (hw : CanonicalDigits whole) (hlen : whole.length ≤ 13)
    (h1 : isDigit f1 = true) (h2 : isDigit f2 = true) :
    (∃ x, PercentChange.UnmarshalJSON (.string (percentText minus whole f1 f2)) = .ok x ∧
      PercentChange.String x = percentText minus whole f1 f2) ∧
    (∀ (neg : Bool) (m : Nat) (e : Int), ∃ w a b, CanonicalDigits w ∧ isDigit a = true ∧
      isDigit b = true ∧ PercentChange.String (.finite neg m e) = percentText neg w a b) ∧
    PercentChange.String .nan = "NaN%".toList ∧
    PercentChange.String (.inf false) = "+Inf%".toList ∧
    PercentChange.String (.inf true) = "-Inf%".toList := by
  refine ⟨?_, formatFixed2_finite, by decide, by decide, by decide⟩
  obtain ⟨hne, hdig⟩ := CanonicalDigits_digits whole hw
  have hwf : (⟨whole, true, [f1, f2]⟩ : DecimalLit).WellFormed := by
    refine ⟨hdig, ?_, ?_, ?_⟩
    · intro c hc
      simp only [List.mem_cons, List.mem_singleton, List.not_mem_nil, or_false] at hc
      rcases hc with h | h <;> (rw [h]; assumption)
    · simp
    · intro h; cases h
  have hsign : SignText (if minus then ['-'] else []) minus := by
    cases minus <;> decide
  have htext : percentText minus whole f1 f2 =
      [] ++ ((if minus then ['-'] else []) ++
        (⟨whole, true, [f1, f2]⟩ : DecimalLit).text) ++ [] ++
        (if true then ['%'] else []) := by
    simp [percentText, DecimalLit.text]
  obtain ⟨a1, _⟩ := digitChar_digitVal f1 h1
  obtain ⟨a2, _⟩ := digitChar_digitVal f2 h2
  have hWlt : digitsValue whole < 10 ^ 13 :=
    lt_of_lt_of_le (digitsValue_lt whole hdig) (Nat.pow_le_pow_right (by decide) hlen)
  have hnum : (⟨whole, true, [f1, f2]⟩ : DecimalLit).num =
      (digitsValue whole * 10 + digitVal f1) * 10 + digitVal f2 := by
    show digitsValue (whole ++ [f1, f2]) = _
    rw [show whole ++ [f1, f2] = (whole ++ [f1]) ++ [f2] by simp, digitsValue_snoc,
      digitsValue_snoc]
  have hden : (⟨whole, true, [f1, f2]⟩ : DecimalLit).den = 100 := by
    simp [DecimalLit.den]
  generalize hK : (digitsValue whole * 10 + digitVal f1) * 10 + digitVal f2 = K at hnum
  have hKlt : K < 10 ^ 15 := by
    norm_num at hWlt ⊢
    omega
  obtain ⟨m, e, hfl, hh⟩ := roundToFloat64_hundredths minus K hKlt
  have hfloat : (⟨whole, true, [f1, f2]⟩ : DecimalLit).float minus = .finite minus m e := by
    unfold DecimalLit.float
    rw [hnum, hden, hfl]
  refine ⟨.finite minus m e, ?_, ?_⟩
  · rw [htext, PercentChange_string,
      percentRemainder_padded [] [] _ minus _ true hwf hsign (by simp) (by simp),
      ParseFloat_decimal _ minus _ hwf hsign, hfloat]
  · have d1 : hundredths m e / 100 = digitsValue whole := by omega
    have d2 : hundredths m e / 10 % 10 = digitVal f1 := by omega
    have d3 : hundredths m e % 10 = digitVal f2 := by omega
    simp only [PercentChange.String, formatFixed2, d1, d2, d3, formatNat_digitsValue whole hw,
      percentText]
    simp [*]

/-- C11 (instance). The text `-12.34%` decodes and renders as itself. -/
theorem percent_display_round_trip_witness :
    ∃ x, PercentChange.UnmarshalJSON (.string "-12.34%".toList) = .ok x ∧
      PercentChange.String x = "-12.34%".toList :=
  (percent_display_round_trip true "12".toList '3' '4'
    (Or.inr ⟨'1', ['2'], rfl, by decide, by decide⟩) (by decide) (by decide) (by decide)).1

end Osrsapi
